import Mathlib

/-!
kidosserver: DNS inspector, policy engine and traffic monitor.

A shallow embedding of the packet-level logic of the repository:

* `pkg/rules`   : the blocklist engine and its domain normaliser;
* `pkg/dns`     : the Ethernet/IPv4/UDP/DNS frame parser;
* `cmd/dns-inspector` : classification loop, IPv4 marker and header checksum;
* `cmd/monitor` : canonical address pairs.

Conventions.  A byte is a natural number below 256 and every narrowing
conversion of the source (`byte(x)`, `uint16(x)`, `uint32` arithmetic) is
written with an explicit `%`.  A Go string is the list of its bytes.  Code that
can fault at run time (an index or slice expression out of range) returns
`Except Failure _`, so that a fault is a visible outcome of the model.
-/

set_option autoImplicit false

/-- A Go string (and a Go byte slice): its sequence of bytes, each below 256. -/
abbrev GoString := List Nat

/-! ## Go standard library: `unicode/utf8` and `strings` -/

namespace utf8

/-- The constant `utf8.RuneError`, U+FFFD. -/
def RuneError : Int := 0xFFFD

/-- Continuation byte test: `locb <= b && b <= hicb`. -/
def isCont (b : Nat) : Bool := 0x80 ≤ b && b ≤ 0xBF

/-- Model of `utf8.DecodeRuneInString`: the first rune of `s` and its width in bytes.
Anything that is not a shortest-form encoding of a Unicode scalar value decodes
to `(RuneError, 1)`; the empty string to `(RuneError, 0)`.  The case split
follows the `first` and `acceptRanges` tables of the package. -/
def DecodeRuneInString : GoString → Int × Nat
  | [] => (RuneError, 0)
  | s0 :: rest =>
    if s0 < 0x80 then ((s0 : Int), 1)
    else if s0 < 0xC2 then (RuneError, 1)
    else if s0 < 0xE0 then
      match rest with
      | s1 :: _ =>
        if isCont s1 then ((((s0 % 32) * 64 + s1 % 64 : Nat) : Int), 2) else (RuneError, 1)
      | _ => (RuneError, 1)
    else if s0 < 0xF0 then
      match rest with
      | s1 :: s2 :: _ =>
        let lo := if s0 = 0xE0 then 0xA0 else 0x80
        let hi := if s0 = 0xED then 0x9F else 0xBF
        if lo ≤ s1 && s1 ≤ hi && isCont s2 then
          ((((s0 % 16) * 4096 + (s1 % 64) * 64 + s2 % 64 : Nat) : Int), 3)
        else (RuneError, 1)
      | _ => (RuneError, 1)
    else if s0 < 0xF5 then
      match rest with
      | s1 :: s2 :: s3 :: _ =>
        let lo := if s0 = 0xF0 then 0x90 else 0x80
        let hi := if s0 = 0xF4 then 0x8F else 0xBF
        if lo ≤ s1 && s1 ≤ hi && isCont s2 && isCont s3 then
          ((((s0 % 8) * 262144 + (s1 % 64) * 4096 + (s2 % 64) * 64 + s3 % 64 : Nat) : Int), 4)
        else (RuneError, 1)
      | _ => (RuneError, 1)
    else (RuneError, 1)

/-- Model of `utf8.AppendRune` on a non-negative rune `r`: its UTF-8 encoding; surrogates
and values above `MaxRune` are written as `RuneError`. -/
def encodeNat (r : Nat) : GoString :=
  if r ≤ 0x7F then [r]
  else if r ≤ 0x7FF then [0xC0 + r / 64, 0x80 + r % 64]
  else if r > 0x10FFFF ∨ (0xD800 ≤ r ∧ r ≤ 0xDFFF) then [0xEF, 0xBF, 0xBD]
  else if r ≤ 0xFFFF then [0xE0 + r / 4096, 0x80 + (r / 64) % 64, 0x80 + r % 64]
  else [0xF0 + r / 262144, 0x80 + (r / 4096) % 64, 0x80 + (r / 64) % 64, 0x80 + r % 64]

end utf8

/-- The bytes of a string literal of the source (its UTF-8 encoding). -/
def str (s : String) : GoString := s.toList.flatMap (fun c => utf8.encodeNat c.toNat)

namespace unicode

/-- Model of `unicode.ToLower`.  Runes up to `MaxASCII` are handled by the function
itself; for the others it consults the case tables of the package, which are
not part of the repository and are taken as the parameter `caseTable`. -/
def ToLower (caseTable : Int → Int) (r : Int) : Int :=
  if r ≤ 0x7F then
    if 65 ≤ r ∧ r ≤ 90 then r + 32 else r
  else caseTable r

end unicode

namespace strings

/-- Model of `strings.HasPrefix`. -/
def HasPrefix (s pre : GoString) : Bool :=
  decide (pre.length ≤ s.length) && (s.take pre.length == pre)

/-- Model of `strings.HasSuffix`. -/
def HasSuffix (s suffix : GoString) : Bool :=
  decide (suffix.length ≤ s.length) && (s.drop (s.length - suffix.length) == suffix)

/-- Model of `strings.TrimSuffix`. -/
def TrimSuffix (s suffix : GoString) : GoString :=
  if HasSuffix s suffix then s.take (s.length - suffix.length) else s

/-- The output a rune contributes in `strings.Map`: dropped when negative. -/
def writeRune (r : Int) : GoString :=
  if 0 ≤ r then utf8.encodeNat r.toNat else []

/-- Second loop of `strings.Map`: every remaining rune is mapped and written.
The fuel bounds the number of runes by the number of bytes. -/
def mapRest (mapping : Int → Int) : Nat → GoString → GoString
  | 0, _ => []
  | fuel + 1, s =>
    if s = [] then []
    else
      let d := utf8.DecodeRuneInString s
      writeRune (mapping d.1) ++ mapRest mapping fuel (s.drop d.2)

/-- First loop of `strings.Map`: runes are skipped while the mapping leaves them
unchanged (an invalid byte, which ranges as `RuneError` of width 1, never counts
as unchanged); `pre` is the prefix `s[:i]` already scanned. -/
def mapScan (mapping : Int → Int) : Nat → GoString → GoString → GoString
  | 0, pre, _ => pre
  | fuel + 1, pre, s =>
    if s = [] then pre
    else
      let d := utf8.DecodeRuneInString s
      let r := mapping d.1
      if r = d.1 ∧ d.1 ≠ utf8.RuneError then
        mapScan mapping fuel (pre ++ s.take d.2) (s.drop d.2)
      else if d.1 = utf8.RuneError ∧ d.2 ≠ 1 ∧ r = d.1 then
        mapScan mapping fuel (pre ++ s.take d.2) (s.drop d.2)
      else
        pre ++ writeRune r ++ mapRest mapping fuel (s.drop d.2)

/-- Model of `strings.Map`. -/
def Map (mapping : Int → Int) (s : GoString) : GoString :=
  mapScan mapping s.length [] s

/-- Model of `strings.ToLower`: strings made of ASCII bytes only are lowered byte by
byte; any other string goes through `Map(unicode.ToLower, s)`. -/
def ToLower (caseTable : Int → Int) (s : GoString) : GoString :=
  if s.all (fun c => decide (c < 0x80)) then
    s.map (fun c => if 65 ≤ c ∧ c ≤ 90 then c + 32 else c)
  else Map (unicode.ToLower caseTable) s

end strings

/-! ## `pkg/rules`: the blocklist engine -/

namespace rules

/-- Model of `lowerASCII`: the loop `if b[i] >= 'A' && b[i] <= 'Z' { b[i] += 'a' - 'A' }`
over the bytes of `s`. -/
def lowerASCII (s : GoString) : GoString :=
  s.map (fun b => if 65 ≤ b ∧ b ≤ 90 then (b + 32) % 256 else b)

/-- Model of `normalize` of `pkg/rules`. -/
def normalize (domain : GoString) : GoString :=
  if domain.length = 0 then domain
  else
    let domain :=
      if domain.getD (domain.length - 1) 0 = 46 then domain.take (domain.length - 1)
      else domain
    lowerASCII domain

/-- The key set of a `map[string]struct{}`. -/
abbrev StringSet := List GoString

/-- The assignment `m[k] = struct{}{}`. -/
def StringSet.put (m : StringSet) (k : GoString) : StringSet :=
  if k ∈ m then m else m ++ [k]

/-- Model of `RuleEngine`: the blocklist (the mutex is not modelled). -/
structure RuleEngine where
  blocklist : StringSet
deriving Repr

/-- The loop shared by `New` and `Set`: a fresh map filled with the normalised
domains. -/
def fill (domains : List GoString) : StringSet :=
  domains.foldl (fun m d => m.put (normalize d)) []

/-- Model of `New`. -/
def New (domains : List GoString) : RuleEngine :=
  { blocklist := fill domains }

/-- Model of `(*RuleEngine).ShouldBlock`. -/
def RuleEngine.ShouldBlock (r : RuleEngine) (domain : GoString) : Bool :=
  decide (normalize domain ∈ r.blocklist)

/-- Model of `(*RuleEngine).Set`. -/
def RuleEngine.Set (r : RuleEngine) (domains : List GoString) : RuleEngine :=
  { r with blocklist := fill domains }

end rules

/-! ## `pkg/events`: endpoint -/

namespace events

/-- Model of `BuildEndpoint`. -/
def BuildEndpoint (listen path : GoString) : GoString :=
  let addr := listen
  let addr := if strings.HasPrefix addr (str ":") then str "127.0.0.1" ++ addr else addr
  let addr :=
    if !strings.HasPrefix addr (str "http://") && !strings.HasPrefix addr (str "https://") then
      str "http://" ++ addr
    else addr
  let path := if !strings.HasPrefix path (str "/") then str "/" ++ path else path
  strings.TrimSuffix addr (str "/") ++ path

end events

/-! ## Byte slices and run-time faults -/

/-- A Go byte slice. -/
abbrev Bytes := List Nat

/-- The ways a modelled function can end without its normal result: the two
error values of `dns.Parse`, and the run-time panic of an index or slice
expression that is out of range. -/
inductive Failure where
  /-- The sentinel `dns.ErrNotDNS`. -/
  | ErrNotDNS
  /-- The error returned by `(*dns.Msg).Unpack`. -/
  | unpackError
  /-- Run-time panic: index or slice bounds out of range. -/
  | outOfRange
deriving DecidableEq, Repr

deriving instance DecidableEq for Except

/-- The index expression `b[i]`. -/
def index (b : Bytes) (i : Nat) : Except Failure Nat :=
  match b[i]? with
  | some x => .ok x
  | none => .error .outOfRange

/-- The slice expression `b[lo:hi]`.  The model bounds `hi` by the length of
`b`, which is at most the capacity Go checks against. -/
def sliceRange (b : Bytes) (lo hi : Nat) : Except Failure Bytes :=
  if lo ≤ hi ∧ hi ≤ b.length then .ok ((b.take hi).drop lo) else .error .outOfRange

/-- The slice expression `b[lo:]`. -/
def sliceFrom (b : Bytes) (lo : Nat) : Except Failure Bytes :=
  if lo ≤ b.length then .ok (b.drop lo) else .error .outOfRange

/-- The slice expression `b[:hi]`. -/
def sliceTo (b : Bytes) (hi : Nat) : Except Failure Bytes :=
  if hi ≤ b.length then .ok (b.take hi) else .error .outOfRange

/-- The assignment `b[i] = v`. -/
def assign (b : Bytes) (i v : Nat) : Except Failure Bytes :=
  if i < b.length then .ok (b.set i v) else .error .outOfRange

namespace binary

/-- Model of `binary.BigEndian.Uint16`: `uint16(b[1]) | uint16(b[0])<<8`, with
the bounds check on `b[1]` first. -/
def Uint16 (b : Bytes) : Except Failure Nat := do
  let b1 ← index b 1
  let b0 ← index b 0
  pure ((b1 ||| (b0 <<< 8)) % 65536)

end binary

/-! ## `cmd/dns-inspector`: checksum and marker -/

/-- Size of one frame slot. -/
def frameSize : Nat := 2048

/-- Magic value marking processed packets. -/
def KidosMagic : Nat := 0x4B494453

/-- The loop `for (sum >> 16) != 0 { sum = (sum & 0xFFFF) + (sum >> 16) }` on a
`uint32`, unrolled `fuel` times. -/
def foldCarry : Nat → Nat → Nat
  | 0, sum => sum
  | fuel + 1, sum =>
    if sum >>> 16 ≠ 0 then foldCarry fuel (((sum &&& 0xFFFF) + (sum >>> 16)) % 2 ^ 32)
    else sum

/-- Body of the first loop of `ipv4Checksum`:
`sum += uint32(binary.BigEndian.Uint16(header[i:]))`. -/
def ipv4ChecksumStep (header : Bytes) (sum i : Nat) : Except Failure Nat := do
  let t ← sliceFrom header i
  let w ← binary.Uint16 t
  pure ((sum + w) % 2 ^ 32)

/-- Model of `ipv4Checksum`.  The loop `for i := 0; i+1 < len(header); i += 2`
runs for `i = 2k`, `k < len(header)/2`.  The carry loop is given fuel 2, which a
`uint32` cannot exhaust (`foldCarry_exit`).  The result `^uint16(sum)` is
`0xFFFF` minus the low 16 bits of `sum`. -/
def ipv4Checksum (header : Bytes) : Except Failure Nat := do
  let sum ← (List.range (header.length / 2)).foldlM
    (fun sum k => ipv4ChecksumStep header sum (2 * k)) 0
  let sum ←
    if header.length % 2 = 1 then do
      let last ← index header (header.length - 1)
      pure ((sum + (last <<< 8) % 2 ^ 32) % 2 ^ 32)
    else pure sum
  let sum := foldCarry 2 sum
  pure (0xFFFF - sum % 65536)

/-- Model of `(*inspector).addMagicFlag`, on the frame of the descriptor; the
result is the frame afterwards (it is edited in place, `ipHeader` being
`frame[14:]`). -/
def addMagicFlag (frame : Bytes) : Except Failure Bytes := do
  if frame.length < 34 then pure frame
  else
    let f12 ← index frame 12
    if f12 ≠ 0x08 then pure frame
    else
      let f13 ← index frame 13
      if f13 ≠ 0x00 then pure frame
      else
        let ipHeader ← sliceFrom frame 14
        if ipHeader.length < 20 then pure frame
        else
          let b0 ← index ipHeader 0
          let headerLen := (b0 &&& 0x0F) * 4
          if headerLen < 20 ∨ ipHeader.length < headerLen then pure frame
          else
            let magic := (KidosMagic &&& 0xFFFF) % 65536
            let ipHeader ← assign ipHeader 4 ((magic >>> 8) % 256)
            let ipHeader ← assign ipHeader 5 (magic % 256)
            let ipHeader ← assign ipHeader 10 0
            let ipHeader ← assign ipHeader 11 0
            let header ← sliceTo ipHeader headerLen
            let csum ← ipv4Checksum header
            let ipHeader ← assign ipHeader 10 ((csum >>> 8) % 256)
            let ipHeader ← assign ipHeader 11 (csum % 256)
            pure (frame.take 14 ++ ipHeader)

/-! ## Go standard library: `net` -/

namespace net

/-- The constant `v4InV6Prefix`. -/
def v4InV6Prefix : Bytes := [0, 0, 0, 0, 0, 0, 0, 0, 0, 0, 0xff, 0xff]

/-- The constant `IPv6loopback`. -/
def IPv6loopback : Bytes := [0, 0, 0, 0, 0, 0, 0, 0, 0, 0, 0, 0, 0, 0, 0, 1]

/-- Model of `net.IPv4(a, b, c, d)`: the 16-byte form of an IPv4 address. -/
def IPv4 (a b c d : Nat) : Bytes := v4InV6Prefix ++ [a, b, c, d]

/-- Model of `IP.To4`: the 4-byte form of an IPv4 address, `none` standing for `nil`. -/
def To4 (ip : Bytes) : Option Bytes :=
  if ip.length = 4 then some ip
  else if ip.length = 16 ∧ ip.take 12 = v4InV6Prefix then some (ip.drop 12)
  else none

/-- Model of `IP.IsLoopback`. -/
def IsLoopback (ip : Bytes) : Bool :=
  match To4 ip with
  | some ip4 => ip4.getD 0 0 == 127
  | none => ip == IPv6loopback

/-- Model of `IP.IsLinkLocalUnicast`. -/
def IsLinkLocalUnicast (ip : Bytes) : Bool :=
  match To4 ip with
  | some ip4 => ip4.getD 0 0 == 169 && ip4.getD 1 0 == 254
  | none => ip.length == 16 && ip.getD 0 0 == 0xfe && (ip.getD 1 0 &&& 0xc0) == 0x80

/-- Model of `IP.IsLinkLocalMulticast`. -/
def IsLinkLocalMulticast (ip : Bytes) : Bool :=
  match To4 ip with
  | some ip4 => ip4.getD 0 0 == 224 && ip4.getD 1 0 == 0 && ip4.getD 2 0 == 0
  | none => ip.length == 16 && ip.getD 0 0 == 0xff && (ip.getD 1 0 &&& 0x0f) == 0x02

/-- The loop of the dotted-decimal parser (`parseIPv4Fields`) over the rest of
the text: `first` and `prevDot` say whether the byte is the first one and
whether the byte before it was a dot; `val`, `pos`, `digLen` and `fields` are
the variables of the loop. -/
def parseIPv4Loop : GoString → Bool → Bool → Nat → Nat → Nat → Bytes → Option Bytes
  | [], _, _, val, pos, _, fields => if pos < 3 then none else some (fields ++ [val])
  | c :: rest, first, prevDot, val, pos, digLen, fields =>
    if 48 ≤ c ∧ c ≤ 57 then
      if digLen = 1 ∧ val = 0 then none
      else if val * 10 + (c - 48) > 255 then none
      else parseIPv4Loop rest false false (val * 10 + (c - 48)) pos (digLen + 1) fields
    else if c = 46 then
      if first ∨ rest = [] ∨ prevDot then none
      else if pos = 3 then none
      else parseIPv4Loop rest false true 0 (pos + 1) 0 (fields ++ [val])
    else none

/-- Dotted-decimal IPv4 text to its four bytes. -/
def parseIPv4 (s : GoString) : Option Bytes := parseIPv4Loop s true false 0 0 0 []

/-- Model of `net.ParseIP`: the first `.` or `:` of the text decides between the
dotted-decimal parser and the IPv6 text parser; a `%` before both, or none of
the three, is an error.  The result is the 16-byte form.  The IPv6 text parser
is outside the repository and is the parameter `parseIPv6`. -/
def ParseIP (parseIPv6 : GoString → Option Bytes) (s : GoString) : Option Bytes :=
  match s.find? (fun c => c == 46 || c == 58 || c == 37) with
  | some 46 =>
    match parseIPv4 s with
    | some f => some (v4InV6Prefix ++ f)
    | none => none
  | some 58 => parseIPv6 s
  | _ => none

end net

/-! ## `pkg/dns`: normaliser and parser -/


namespace dns

/-- Model of `normalize` of `pkg/dns`: `strings.ToLower(strings.TrimSuffix(domain, "."))`. -/
def normalize (caseTable : Int → Int) (domain : GoString) : GoString :=
  strings.ToLower caseTable (strings.TrimSuffix domain (str "."))

/-- A question of a DNS message (`dns.Question` of the decoding library). -/
structure Question where
  Name : GoString
  Qtype : Nat
  Qclass : Nat
deriving DecidableEq, Repr

/-- A decoded DNS message (`dns.Msg` of the decoding library), as far as the
repository reads it. -/
structure Msg where
  Question : List Question
deriving DecidableEq, Repr

/-- Model of `Packet`. -/
structure Packet where
  Message : Msg
  Domain : GoString
  SourceIP : Bytes
  Destination : Bytes
  SourcePort : Nat
  DestPort : Nat
  Transport : GoString
  Direction : GoString
deriving DecidableEq, Repr

/-- Model of `Parse`.  The decoder `(*Msg).Unpack` of the DNS library and the Unicode
case table are outside the repository and are parameters: `unpack payload` is
`none` when the decoder returns an error. -/
def Parse (caseTable : Int → Int) (unpack : Bytes → Option Msg) (frame : Bytes) :
    Except Failure Packet := do
  if frame.length < 14 then .error .ErrNotDNS
  else
    let etherType ← (sliceRange frame 12 14 >>= binary.Uint16)
    if etherType ≠ 0x0800 then .error .ErrNotDNS
    else if frame.length < 34 then .error .ErrNotDNS
    else
      let b14 ← index frame 14
      let ipHeaderLen := (b14 &&& 0x0F) * 4
      if ipHeaderLen < 20 then .error .ErrNotDNS
      else
        let totalHeader := 14 + ipHeaderLen
        if frame.length < totalHeader then .error .ErrNotDNS
        else
          let proto ← index frame 23
          if proto ≠ 17 then .error .ErrNotDNS
          else
            let udpOffset := totalHeader
            if frame.length < udpOffset + 8 then .error .ErrNotDNS
            else
              let srcPort ← (sliceRange frame udpOffset (udpOffset + 2) >>= binary.Uint16)
              let dstPort ← (sliceRange frame (udpOffset + 2) (udpOffset + 4) >>= binary.Uint16)
              if srcPort ≠ 53 ∧ dstPort ≠ 53 then .error .ErrNotDNS
              else
                let udpLen ← (sliceRange frame (udpOffset + 4) (udpOffset + 6) >>= binary.Uint16)
                if udpLen < 8 ∨ frame.length < udpOffset + udpLen then .error .ErrNotDNS
                else
                  let payload ← sliceRange frame (udpOffset + 8) (udpOffset + udpLen)
                  if payload.length = 0 then .error .ErrNotDNS
                  else
                    match unpack payload with
                    | none => .error .unpackError
                    | some msg =>
                      let domain :=
                        match msg.Question with
                        | [] => str ""
                        | q :: _ => normalize caseTable q.Name
                      let direction := if srcPort = 53 then str "response" else str "query"
                      let src ← sliceRange frame 26 30
                      let dst ← sliceRange frame 30 34
                      pure {
                        Message := msg
                        Domain := domain
                        SourceIP := (net.To4 src).getD []
                        Destination := (net.To4 dst).getD []
                        SourcePort := srcPort
                        DestPort := dstPort
                        Transport := str "udp"
                        Direction := direction }

end dns

/-! ## `cmd/dns-inspector`: classification loop -/

/-- Model of `xdp.Desc`: a frame descriptor. -/
structure Desc where
  Addr : Nat
  Len : Nat
deriving DecidableEq, Repr

/-- Model of `events.PairCount`; the two counters are `uint64`. -/
structure PairCount where
  Category : GoString
  Internal : GoString
  External : GoString
  ExternalDomain : GoString
  Incoming : Nat
  Outgoing : Nat
deriving DecidableEq, Repr

/-- Model of `events.Event`, with the fields the inspector and the monitor fill;
`PairCounts` is the nil slice unless it is set. -/
structure Event where
  Kind : GoString
  Timestamp : Nat
  SourceIP : GoString
  DestinationIP : GoString
  Transport : GoString
  Direction : GoString
  Domain : GoString
  Action : GoString
  Reason : GoString
  PairCounts : List PairCount := []
deriving DecidableEq, Repr

/-- Model of `inspector`, as far as the classification loop reads it: the frame memory
of the socket (`socket.GetFrame`), the rule engine and `frameLen`; together with
what the loop takes from outside the repository (the DNS decoder, the Unicode
case table, `net.IP.String`). -/
structure inspector where
  GetFrame : Desc → Bytes
  rules : rules.RuleEngine
  frameLen : Nat
  unpack : Bytes → Option dns.Msg
  caseTable : Int → Int
  ipString : Bytes → GoString

/-- State of one iteration of `Run`: the two batches, and the events handed to
`publisher.Publish` so far, in call order. -/
structure Batches where
  allow : List Desc
  reuse : List Desc
  published : List Event
deriving DecidableEq, Repr

/-- The frame `Run` parses for a descriptor: `GetFrame(desc)`, cut to
`desc.Len` when that is within the slice. -/
def rxFrame (i : inspector) (desc : Desc) : Except Failure Bytes :=
  let frame := i.GetFrame desc
  if desc.Len ≤ frame.length then sliceTo frame desc.Len else .ok frame

/-- The `dns` event `Run` builds from a parsed packet, before the decision. -/
def dnsEvent (i : inspector) (now : Nat) (pkt : dns.Packet) : Event :=
  { Kind := str "dns"
    Timestamp := now
    SourceIP := i.ipString pkt.SourceIP
    DestinationIP := i.ipString pkt.Destination
    Transport := pkt.Transport
    Direction := pkt.Direction
    Domain := pkt.Domain
    Action := str ""
    Reason := str "" }

/-- Body of the loop `for _, desc := range rxDescs` of `(*inspector).Run`. -/
def classify (i : inspector) (now : Nat) (st : Batches) (desc : Desc) :
    Except Failure Batches := do
  let frame ← rxFrame i desc
  match dns.Parse i.caseTable i.unpack frame with
  | .error .outOfRange => .error .outOfRange
  | .error _ => pure { st with allow := st.allow ++ [desc] }
  | .ok pkt =>
    let ev := dnsEvent i now pkt
    if pkt.Direction = str "query" ∧ pkt.Domain ≠ str "" ∧
        i.rules.ShouldBlock pkt.Domain = true then
      let ev := { ev with Action := str "block", Reason := str "domain blocked" }
      let desc := { desc with Len := i.frameLen }
      pure { st with published := st.published ++ [ev], reuse := st.reuse ++ [desc] }
    else
      let ev := { ev with Action := str "allow", Reason := str "passed" }
      pure { st with published := st.published ++ [ev], allow := st.allow ++ [desc] }

/-- The classification loop of `Run` over a received batch, from empty
batches. -/
def classifyAll (i : inspector) (now : Nat) (published : List Event) (rxDescs : List Desc) :
    Except Failure Batches :=
  rxDescs.foldlM (classify i now) { allow := [], reuse := [], published := published }

/-- The loop `for idx := range reuse { reuse[idx].Len = i.frameLen }` that `Run`
applies to the `reuse` batch before it is posted to the fill ring. -/
def resetReuse (i : inspector) (reuse : List Desc) : List Desc :=
  reuse.map (fun d => { d with Len := i.frameLen })

/-- Model of the value `newInspector` returns, as far as the loop reads it:
`frameLen` is `uint32(frameSize)`. -/
def newInspector (GetFrame : Desc → Bytes) (engine : rules.RuleEngine)
    (unpack : Bytes → Option dns.Msg) (caseTable : Int → Int)
    (ipString : Bytes → GoString) : inspector :=
  { GetFrame := GetFrame
    rules := engine
    frameLen := frameSize % 2 ^ 32
    unpack := unpack
    caseTable := caseTable
    ipString := ipString }

/-! ## `cmd/monitor`: canonical pairs -/

/-- Model of `isPrivateIP`. -/
def isPrivateIP (parseIPv6 : GoString → Option Bytes) (ipStr : GoString) : Bool :=
  match net.ParseIP parseIPv6 ipStr with
  | none => false
  | some ip =>
    if net.IsLoopback ip || net.IsLinkLocalUnicast ip || net.IsLinkLocalMulticast ip then true
    else
      match net.To4 ip with
      | some ip4 =>
        if ip4.getD 0 0 = 10 then true
        else if ip4.getD 0 0 = 172 ∧ ip4.getD 1 0 ≥ 16 ∧ ip4.getD 1 0 ≤ 31 then true
        else if ip4.getD 0 0 = 192 ∧ ip4.getD 1 0 = 168 then true
        else if ip4.getD 0 0 = 169 ∧ ip4.getD 1 0 = 254 then true
        else false
      | none => false

/-- The five results of `canonicalPair`. -/
structure CanonicalPair where
  key : GoString
  internal : GoString
  external : GoString
  category : GoString
  direction : GoString
deriving DecidableEq, Repr

/-- Model of `canonicalPair`.  Strings are compared as Go compares them, byte by byte
in lexicographic order. -/
def canonicalPair (parseIPv6 : GoString → Option Bytes) (src dst : GoString) :
    CanonicalPair :=
  let srcPrivate := isPrivateIP parseIPv6 src
  let dstPrivate := isPrivateIP parseIPv6 dst
  let r : GoString × GoString × GoString × GoString :=
    if srcPrivate = true ∧ dstPrivate = false then
      (src, dst, str "external", str "outgoing")
    else if srcPrivate = false ∧ dstPrivate = true then
      (dst, src, str "external", str "incoming")
    else if srcPrivate = true ∧ dstPrivate = true then
      if src ≤ dst then (src, dst, str "internal", str "outgoing")
      else (dst, src, str "internal", str "incoming")
    else
      if src ≤ dst then (src, dst, str "external", str "outgoing")
      else (dst, src, str "external", str "incoming")
  { key := r.2.2.1 ++ str "|" ++ r.1 ++ str "|" ++ r.2.1
    internal := r.1
    external := r.2.1
    category := r.2.2.1
    direction := r.2.2.2 }

/-! ## `cmd/monitor`: pair counters -/

/-- Model of `pairStats`; the two counters are `uint64`. -/
structure pairStats where
  internal : GoString
  external : GoString
  category : GoString
  incoming : Nat
  outgoing : Nat
  domain : GoString
deriving DecidableEq, Repr

/-- Model of `map[string]*pairStats`: the entries, each key at most once. -/
abbrev PairMap := List (GoString × pairStats)

/-- The map read `counts[key]`; `none` is the nil pointer of an absent key. -/
def lookupPair : PairMap → GoString → Option pairStats
  | [], _ => none
  | (k, v) :: rest, key => if k = key then some v else lookupPair rest key

/-- The state of the map once the entry of `key` holds `stats`: the store
`counts[key] = stats` together with the writes through the stored pointer. -/
def storePair : PairMap → GoString → pairStats → PairMap
  | [], key, stats => [(key, stats)]
  | (k, v) :: rest, key, stats =>
    if k = key then (key, stats) :: rest else (k, v) :: storePair rest key stats

/-- Model of `updatePairCounts`; `dnsCache` is the map read `dnsCache[k]`, with
the empty string for an absent key. -/
def updatePairCounts (parseIPv6 : GoString → Option Bytes) (counts : PairMap)
    (src dst : GoString) (dnsCache : GoString → GoString) : PairMap :=
  let p := canonicalPair parseIPv6 src dst
  if p.key = str "" then counts
  else
    let stats : pairStats :=
      match lookupPair counts p.key with
      | some stats => stats
      | none =>
        { internal := p.internal, external := p.external, category := p.category
          incoming := 0, outgoing := 0, domain := str "" }
    let stats :=
      if p.direction = str "incoming" then
        { stats with incoming := (stats.incoming + 1) % 2 ^ 64 }
      else if p.direction = str "outgoing" then
        { stats with outgoing := (stats.outgoing + 1) % 2 ^ 64 }
      else stats
    let domain := dnsCache p.external
    let stats := if domain ≠ str "" then { stats with domain := domain } else stats
    storePair counts p.key stats

/-- One call of `updatePairCounts`: the two addresses and the DNS cache as it
stands at the time of the call. -/
structure PairCall where
  src : GoString
  dst : GoString
  dnsCache : GoString → GoString

/-- A sequence of `updatePairCounts` calls on the same map, in order. -/
def updatePairCountsAll (parseIPv6 : GoString → Option Bytes) (counts : PairMap)
    (calls : List PairCall) : PairMap :=
  calls.foldl (fun m c => updatePairCounts parseIPv6 m c.src c.dst c.dnsCache) counts

/-- The `less` closure that `publishPairCounts` hands to `sort.Slice`, on the two
elements it indexes; the totals are `uint64` sums. -/
def pairCountLess (x y : PairCount) : Bool :=
  let totalI := (x.Incoming + x.Outgoing) % 2 ^ 64
  let totalJ := (y.Incoming + y.Outgoing) % 2 ^ 64
  if totalI = totalJ then
    decide (x.Internal ++ str "->" ++ x.External < y.Internal ++ str "->" ++ y.External)
  else decide (totalI > totalJ)

/-- Model of `publishPairCounts`: the map as the function leaves it, and the
events handed to `publisher.Publish` so far.  `sortSlice` stands for
`sort.Slice` and `rangeOrder` for the order in which `range` visits the entries
of the map; `now` is the time stamp. -/
def publishPairCounts (sortSlice : (PairCount → PairCount → Bool) → List PairCount → List PairCount)
    (rangeOrder : PairMap → PairMap) (now : Nat) (published : List Event)
    (counts : PairMap) : PairMap × List Event :=
  if counts.length = 0 then (counts, published)
  else
    let out : List PairCount := (rangeOrder counts).map (fun e =>
      { Category := e.2.category
        Internal := e.2.internal
        External := e.2.external
        ExternalDomain := e.2.domain
        Incoming := e.2.incoming
        Outgoing := e.2.outgoing })
    let out := sortSlice pairCountLess out
    (counts, published ++
      [{ Kind := str "ip_pair_summary", Timestamp := now, SourceIP := str ""
         DestinationIP := str "", Transport := str "", Direction := str ""
         Domain := str "", Action := str "", Reason := str "", PairCounts := out }])

/-- The normalisation as the specification words it: one trailing `.` removed
if present, then every byte in `A..Z` replaced by the corresponding byte in
`a..z`, every other byte kept. -/
def normalizeSpec (d : GoString) : GoString :=
  (if d.getLast? = some 46 then d.dropLast else d).map
    (fun b => if 65 ≤ b ∧ b ≤ 90 then b + 32 else b)

/-- The address part of the event endpoint as the specification words it:
`127.0.0.1` in front of a listen address that starts with `:`, then `http://`
in front when the result has no scheme (neither `http://` nor `https://`). -/
def endpointAddrSpec (listen : GoString) : GoString :=
  let withHost := if listen.head? = some 58 then str "127.0.0.1" ++ listen else listen
  if withHost.take 7 = str "http://" ∨ withHost.take 8 = str "https://" then withHost
  else str "http://" ++ withHost

/-- The event endpoint as the specification words it: the address part followed
by `/api/events`. -/
def endpointSpec (listen : GoString) : GoString :=
  endpointAddrSpec listen ++ str "/api/events"

/-- A string made of ASCII bytes only. -/
def isASCII (d : GoString) : Prop := ∀ b ∈ d, b < 0x80

instance (d : GoString) : Decidable (isASCII d) := by
  unfold isASCII; infer_instance


/-! ## Auxiliary definitions used in the proofs -/

/-- Lowering of one byte, the shape shared by the normalisers. -/
def lowerByte (b : Nat) : Nat := if 65 ≤ b ∧ b ≤ 90 then b + 32 else b

/-- The sum of the big-endian 16-bit words of a byte sequence, an odd last byte
being the high byte of a last word; no reduction is applied. -/
def wordSum : Bytes → Nat
  | b0 :: b1 :: rest => b0 * 256 + b1 + wordSum rest
  | [b] => b * 256
  | [] => 0

/-- The `uint32` accumulator of `ipv4Checksum` after its first loop and the
odd-length step, started from `acc`. -/
def sum32 : Nat → Bytes → Nat
  | acc, b0 :: b1 :: rest => sum32 ((acc + (b1 ||| (b0 <<< 8)) % 65536) % 2 ^ 32) rest
  | acc, [b] => (acc + (b <<< 8) % 2 ^ 32) % 2 ^ 32
  | acc, [] => acc

/-- The first loop of `ipv4Checksum` and its odd-length step, from `acc`. -/
def sumPart (header : Bytes) (acc : Nat) : Except Failure Nat := do
  let sum ← (List.range (header.length / 2)).foldlM
    (fun sum k => ipv4ChecksumStep header sum (2 * k)) acc
  if header.length % 2 = 1 then do
    let last ← index header (header.length - 1)
    pure ((sum + (last <<< 8) % 2 ^ 32) % 2 ^ 32)
  else pure sum

/-- The IP header part of a frame after the four stores of `addMagicFlag` that
precede the checksum: marker in bytes 4 and 5, checksum field zeroed. -/
def markedZero (ip : Bytes) : Bytes :=
  (((ip.set 4 0x44).set 5 0x53).set 10 0).set 11 0

/-- The IP header part of a frame after all stores of `addMagicFlag`, `c` being
the checksum computed in between. -/
def markedWith (ip : Bytes) (c : Nat) : Bytes :=
  ((markedZero ip).set 10 ((c >>> 8) % 256)).set 11 (c % 256)

/-- The big-endian 16-bit value at offset `off` of a frame. -/
def be16At (frame : Bytes) (off : Nat) : Nat :=
  frame.getD off 0 * 256 + frame.getD (off + 1) 0

/-- The IHL nibble of the IPv4 header of a frame. -/
def ihlOf (frame : Bytes) : Nat := frame.getD 14 0 % 16

/-- Offset of the UDP header of a frame: `14 + IHL*4`. -/
def udpOffsetOf (frame : Bytes) : Nat := 14 + ihlOf frame * 4

/-- The UDP length field of a frame. -/
def udpLenOf (frame : Bytes) : Nat := be16At frame (udpOffsetOf frame + 4)

/-- The UDP body of a frame up to the UDP length:
`frame[udpOffset+8 : udpOffset+udpLen]`. -/
def payloadOf (frame : Bytes) : Bytes :=
  (frame.take (udpOffsetOf frame + udpLenOf frame)).drop (udpOffsetOf frame + 8)

/-- The packet `Parse` builds from a frame and its decoded message. -/
def packetOf (caseTable : Int → Int) (frame : Bytes) (msg : dns.Msg) : dns.Packet :=
  { Message := msg
    Domain :=
      match msg.Question with
      | [] => str ""
      | q :: _ => dns.normalize caseTable q.Name
    SourceIP := (frame.take 30).drop 26
    Destination := (frame.take 34).drop 30
    SourcePort := be16At frame (udpOffsetOf frame)
    DestPort := be16At frame (udpOffsetOf frame + 2)
    Transport := str "udp"
    Direction := if be16At frame (udpOffsetOf frame) = 53 then str "response" else str "query" }

/-- The structural conditions of the parser on a frame: Ethernet header with
EtherType `08 00`; at least 34 bytes; IHL*4 at least 20 and the IPv4 header
inside the frame; protocol 17; eight bytes of UDP header inside the frame;
source or destination port 53; UDP length at least 8 and inside the frame. -/
def structuralDNS (frame : Bytes) : Prop :=
  14 ≤ frame.length ∧ (frame.getD 12 0 = 0x08 ∧ frame.getD 13 0 = 0x00) ∧
  34 ≤ frame.length ∧
  20 ≤ ihlOf frame * 4 ∧ 14 + ihlOf frame * 4 ≤ frame.length ∧
  frame.getD 23 0 = 17 ∧
  14 + ihlOf frame * 4 + 8 ≤ frame.length ∧
  (be16At frame (udpOffsetOf frame) = 53 ∨ be16At frame (udpOffsetOf frame + 2) = 53) ∧
  8 ≤ udpLenOf frame ∧ udpOffsetOf frame + udpLenOf frame ≤ frame.length

instance (frame : Bytes) : Decidable (structuralDNS frame) := by
  unfold structuralDNS; infer_instance

/-- The frame `Run` parses for a descriptor, as a value: `GetFrame(desc)` cut to
`desc.Len` when that is within the slice. -/
def frameOf (i : inspector) (desc : Desc) : Bytes :=
  if desc.Len ≤ (i.GetFrame desc).length then (i.GetFrame desc).take desc.Len
  else i.GetFrame desc

/-- The decision of the classification loop on a descriptor: whether its frame
parses as a DNS query for a non-empty domain that the rule engine blocks. -/
def blockedDesc (i : inspector) (desc : Desc) : Bool :=
  match dns.Parse i.caseTable i.unpack (frameOf i desc) with
  | .ok pkt =>
    decide (pkt.Direction = str "query" ∧ pkt.Domain ≠ str "" ∧
      i.rules.ShouldBlock pkt.Domain = true)
  | .error _ => false

/-- The number of calls in a sequence whose canonical direction is `dir`. -/
def callsWithDirection (parseIPv6 : GoString → Option Bytes) (dir : GoString)
    (calls : List PairCall) : Nat :=
  calls.countP (fun c => decide ((canonicalPair parseIPv6 c.src c.dst).direction = dir))

/-- The state of the map after calls for one pair: empty before the first call,
afterwards one entry under `key` holding the two counts modulo `2 ^ 64`. -/
def pairInv (key internal external category : GoString) (nin nout : Nat)
    (m : PairMap) : Prop :=
  (nin + nout = 0 ∧ m = []) ∨
  (0 < nin + nout ∧ ∃ stats : pairStats, m = [(key, stats)] ∧
    stats.incoming = nin % 2 ^ 64 ∧ stats.outgoing = nout % 2 ^ 64 ∧
    stats.internal = internal ∧ stats.external = external ∧ stats.category = category)

/-- The aggregate of a map entry as a summary element, fields copied. -/
def toPairCount (stats : pairStats) : PairCount :=
  { Category := stats.category
    Internal := stats.internal
    External := stats.external
    ExternalDomain := stats.domain
    Incoming := stats.incoming
    Outgoing := stats.outgoing }

/-- The total of a summary element as the comparator computes it. -/
def pairTotal (x : PairCount) : Nat := (x.Incoming + x.Outgoing) % 2 ^ 64

/-- The tie-break string `internal + "->" + external` of a summary element. -/
def pairLabel (x : PairCount) : GoString := x.Internal ++ str "->" ++ x.External

/-- A strict weak ordering: what `sort.Slice` asks of its `less` argument. -/
def strictWeakOrder (less : PairCount → PairCount → Bool) : Prop :=
  (∀ x, less x x = false) ∧
  (∀ x y z, less x y = true → less y z = true → less x z = true) ∧
  (∀ x y z, less x y = true → less x z = true ∨ less z y = true)

/-- The contract of `sort.Slice`: given a strict weak ordering, the slice is
rearranged so that no element is `less` than one before it. -/
def sortContract
    (sortSlice : (PairCount → PairCount → Bool) → List PairCount → List PairCount) : Prop :=
  ∀ less xs, strictWeakOrder less →
    (sortSlice less xs).Perm xs ∧ (sortSlice less xs).Pairwise (fun x y => less y x = false)

/-- The summary order of the specification: larger total first, equal totals by
label ascending. -/
def summaryOrder (total : PairCount → Nat) (x y : PairCount) : Prop :=
  total y < total x ∨ (total x = total y ∧ pairLabel x ≤ pairLabel y)

/-- A Unicode scalar value: a code point up to `MaxRune` that is not a
surrogate.  Every rune that decoding a string yields is one. -/
def validRune (r : Int) : Prop := 0 ≤ r ∧ r ≤ 0x10FFFF ∧ ¬ (0xD800 ≤ r ∧ r ≤ 0xDFFF)

/-- What `utf8.DecodeRuneInString` guarantees of its result `d` on a non-empty
string `s`: a scalar value, a width within the string, and, unless the result
is the `(RuneError, 1)` of an invalid byte, that the bytes consumed are the
encoding of the rune. -/
def decoded (d : Int × Nat) (s : GoString) : Prop :=
  validRune d.1 ∧ 1 ≤ d.2 ∧ d.2 ≤ s.length ∧
    ((d.1 ≠ utf8.RuneError ∨ d.2 ≠ 1) → utf8.encodeNat d.1.toNat = s.take d.2)

/-- `strings.Map` as the rewriting of every rune of the string. -/
def mapAll (mapping : Int → Int) (s : GoString) : GoString :=
  strings.mapRest mapping s.length s

/-- What is taken from the case tables of package `unicode`, which are not part
of the repository: on a scalar value above `MaxASCII` the lower-case mapping
yields a scalar value, never the rune `.`, and a rune that `unicode.ToLower`
leaves as it is. -/
def caseContract (caseTable : Int → Int) : Prop :=
  ∀ r, validRune r → 0x7F < r →
    validRune (caseTable r) ∧ caseTable r ≠ 46 ∧
      unicode.ToLower caseTable (caseTable r) = caseTable r

/-- The event published for a blocked query. -/
def blockEvent (i : inspector) (now : Nat) (pkt : dns.Packet) : Event :=
  { dnsEvent i now pkt with Action := str "block", Reason := str "domain blocked" }

/-- The event published for a forwarded DNS frame. -/
def allowEvent (i : inspector) (now : Nat) (pkt : dns.Packet) : Event :=
  { dnsEvent i now pkt with Action := str "allow", Reason := str "passed" }

/-- Every element is a byte. -/
def isBytes (b : Bytes) : Prop := ∀ x ∈ b, x < 256

instance (b : Bytes) : Decidable (isBytes b) := by
  unfold isBytes; infer_instance

/-! ## Sample inputs -/

/-- A 20-byte IPv4 header with a correct checksum field (`b8 61`). -/
def sampleHeader : Bytes :=
  [0x45, 0x00, 0x00, 0x73, 0x00, 0x00, 0x40, 0x00, 0x40, 0x11, 0xb8, 0x61,
   0xc0, 0xa8, 0x00, 0x01, 0xc0, 0xa8, 0x00, 0xc7]

/-- A 20-byte IPv4 header (10.0.0.5 to 93.184.19.29) whose checksum field holds
`ff ff` and whose other words add up to `0xFFFF`. -/
def onesHeader : Bytes :=
  [0x45, 0x00, 0x00, 0x14, 0x00, 0x00, 0x00, 0x00, 0x40, 0x11, 0xff, 0xff,
   10, 0, 0, 5, 93, 184, 19, 29]

/-- An Ethernet frame with an IPv4 header without options (IHL 5), UDP from
10.0.0.5:54321 to 1.1.1.1:53 and 13 bytes of UDP body. -/
def sampleFrame : Bytes :=
  [0x02, 0, 0, 0, 0, 0x01, 0x02, 0, 0, 0, 0, 0x02, 0x08, 0x00,
   0x45, 0x00, 0x00, 0x29, 0x1c, 0x46, 0x40, 0x00, 0x40, 0x11, 0x00, 0x00,
   10, 0, 0, 5, 1, 1, 1, 1,
   0xd4, 0x31, 0x00, 0x35, 0x00, 0x15, 0x00, 0x00,
   0x12, 0x34, 0x01, 0x00, 0x00, 0x01, 0x00, 0x00, 0x00, 0x00, 0x00, 0x00, 0x00]

/-- The same traffic with a 4-byte IPv4 option (IHL 6, 24 header bytes). -/
def sampleOptionsFrame : Bytes :=
  [0x02, 0, 0, 0, 0, 0x01, 0x02, 0, 0, 0, 0, 0x02, 0x08, 0x00,
   0x46, 0x00, 0x00, 0x2d, 0x1c, 0x46, 0x40, 0x00, 0x40, 0x11, 0x00, 0x00,
   10, 0, 0, 5, 1, 1, 1, 1, 0x01, 0x01, 0x01, 0x00,
   0xd4, 0x31, 0x00, 0x35, 0x00, 0x15, 0x00, 0x00,
   0x12, 0x34, 0x01, 0x00, 0x00, 0x01, 0x00, 0x00, 0x00, 0x00, 0x00, 0x00, 0x00]

/-- A DNS response from 1.1.1.1:53 to 10.0.0.5:54321 (IHL 5, protocol 17) with
a 12-byte UDP body, a DNS header announcing no question. -/
def sampleResponseFrame : Bytes :=
  [0x02, 0, 0, 0, 0, 0x02, 0x02, 0, 0, 0, 0, 0x01, 0x08, 0x00,
   0x45, 0x00, 0x00, 0x28, 0x1c, 0x46, 0x40, 0x00, 0x40, 0x11, 0x00, 0x00,
   1, 1, 1, 1, 10, 0, 0, 5,
   0x00, 0x35, 0xd4, 0x31, 0x00, 0x14, 0x00, 0x00,
   0x12, 0x34, 0x81, 0x80, 0x00, 0x00, 0x00, 0x00, 0x00, 0x00, 0x00, 0x00]

/-- The packet the parser is to return for `sampleResponseFrame`. -/
def sampleResponsePacket : dns.Packet :=
  { Message := { Question := [] }
    Domain := str ""
    SourceIP := [1, 1, 1, 1]
    Destination := [10, 0, 0, 5]
    SourcePort := 53
    DestPort := 54321
    Transport := str "udp"
    Direction := str "response" }

/-- An ARP request in an Ethernet frame (EtherType `08 06`), 42 bytes. -/
def sampleArpFrame : Bytes :=
  [0xff, 0xff, 0xff, 0xff, 0xff, 0xff, 0x02, 0, 0, 0, 0, 0x01, 0x08, 0x06,
   0x00, 0x01, 0x08, 0x00, 0x06, 0x04, 0x00, 0x01,
   0x02, 0, 0, 0, 0, 0x01, 10, 0, 0, 5,
   0, 0, 0, 0, 0, 0, 10, 0, 0, 1]

/-- A stand-in for the DNS decoder: it rejects a body shorter than the 12-byte
DNS header, returns no question when the QDCOUNT bytes are zero, and otherwise
the single question `Example.COM.`. -/
def sampleUnpack (body : Bytes) : Option dns.Msg :=
  if body.length < 12 then none
  else if body.getD 4 0 = 0 ∧ body.getD 5 0 = 0 then some { Question := [] }
  else some { Question := [{ Name := str "Example.COM.", Qtype := 1, Qclass := 1 }] }

/-- A stand-in for `net.IP.String` on four-byte addresses: dotted decimal. -/
def sampleIPString (ip : Bytes) : GoString :=
  (str ".").intercalate (ip.map (fun b => (Nat.toDigits 10 b).map Char.toNat))

/-- Frame memory with `sampleFrame` at address 0, `sampleResponseFrame` at
address 2048 and `sampleArpFrame` everywhere else. -/
def sampleGetFrame (d : Desc) : Bytes :=
  if d.Addr = 0 then sampleFrame
  else if d.Addr = 2048 then sampleResponseFrame
  else sampleArpFrame

/-- An inspector over the sample frame memory whose blocklist is `example.com`. -/
def sampleInspector : inspector :=
  newInspector sampleGetFrame (rules.New [str "example.com"]) sampleUnpack (fun r => r)
    sampleIPString

/-- A received batch: the query, the response and the ARP frame. -/
def sampleBatch : List Desc :=
  [{ Addr := 0, Len := 55 }, { Addr := 2048, Len := 54 }, { Addr := 4096, Len := 42 }]

/-- Three frames `10.0.0.5 -> 93.184.216.34` and one frame back, the reverse
frame third, with an empty DNS cache. -/
def sampleCalls : List PairCall :=
  [{ src := str "10.0.0.5", dst := str "93.184.216.34", dnsCache := fun _ => str "" },
   { src := str "10.0.0.5", dst := str "93.184.216.34", dnsCache := fun _ => str "" },
   { src := str "93.184.216.34", dst := str "10.0.0.5", dnsCache := fun _ => str "" },
   { src := str "10.0.0.5", dst := str "93.184.216.34", dnsCache := fun _ => str "" }]

/-- A sorting function that meets the contract of `sort.Slice`: insertion
sort. -/
def sampleSort (less : PairCount → PairCount → Bool) (xs : List PairCount) : List PairCount :=
  List.insertionSort (fun x y => less y x = false) xs

/-- A map with three aggregates, of totals 4, 7 and 4. -/
def sampleCounts : PairMap :=
  [(str "external|10.0.0.5|93.184.216.34",
    { internal := str "10.0.0.5", external := str "93.184.216.34", category := str "external"
      incoming := 1, outgoing := 3, domain := str "example.com" }),
   (str "internal|10.0.0.2|10.0.0.7",
    { internal := str "10.0.0.2", external := str "10.0.0.7", category := str "internal"
      incoming := 5, outgoing := 2, domain := str "" }),
   (str "external|10.0.0.5|1.1.1.1",
    { internal := str "10.0.0.5", external := str "1.1.1.1", category := str "external"
      incoming := 2, outgoing := 2, domain := str "" })]

/-- The Latin-1 part of the lower-case table: `U+00C0..U+00DE` without the
multiplication sign `U+00D7` go 32 up, every other rune is kept. -/
def sampleCaseTable (r : Int) : Int :=
  if 0xC0 ≤ r ∧ r ≤ 0xDE ∧ r ≠ 0xD7 then r + 32 else r

/-! # Theorems -/

/-! ## Normalisation -/

section Normalisation

private theorem eq_nil_or_snoc {α : Type} (d : List α) :
    d = [] ∨ ∃ l a, d = l ++ [a] := by
  rcases List.eq_nil_or_concat d with h | ⟨l, a, h⟩
  · exact Or.inl h
  · exact Or.inr ⟨l, a, by rw [h, List.concat_eq_append]⟩

private theorem normalizeSpec_def (d : GoString) :
    normalizeSpec d = (if d.getLast? = some 46 then d.dropLast else d).map lowerByte := rfl

private theorem lowerASCII_eq (s : GoString) : rules.lowerASCII s = s.map lowerByte := by
  unfold rules.lowerASCII
  apply List.map_congr_left
  intro b _
  simp only [lowerByte]
  split
  · omega
  · rfl

private theorem lowerByte_idem (b : Nat) : lowerByte (lowerByte b) = lowerByte b := by
  unfold lowerByte
  split_ifs <;> omega

private theorem lowerByte_eq_dot (b : Nat) : lowerByte b = 46 ↔ b = 46 := by
  unfold lowerByte
  split <;> omega

private theorem lowerByte_ascii (b : Nat) (h : b < 0x80) : lowerByte b < 0x80 := by
  unfold lowerByte
  split <;> omega

private theorem str_dot : str "." = [46] := by decide

private theorem trimSuffix_dot (d : GoString) :
    strings.TrimSuffix d (str ".") = if d.getLast? = some 46 then d.dropLast else d := by
  rw [str_dot]
  rcases eq_nil_or_snoc d with h | ⟨l, a, h⟩
  · subst h; decide
  · subst h
    simp [strings.TrimSuffix, strings.HasSuffix, List.dropLast_concat]

private theorem rules_normalize_spec (d : GoString) : rules.normalize d = normalizeSpec d := by
  rw [normalizeSpec_def]
  rcases eq_nil_or_snoc d with h | ⟨l, a, h⟩
  · subst h; decide
  · subst h
    simp [rules.normalize, lowerASCII_eq, List.dropLast_concat, List.getD_eq_getElem?_getD]

private theorem toLower_ascii (caseTable : Int → Int) (s : GoString) (h : isASCII s) :
    strings.ToLower caseTable s = s.map lowerByte := by
  unfold strings.ToLower
  rw [if_pos]
  · rfl
  · simpa [List.all_eq_true, isASCII] using h

private theorem isASCII_trim (d : GoString) (h : isASCII d) :
    isASCII (if d.getLast? = some 46 then d.dropLast else d) := by
  split
  · intro b hb
    exact h b (List.mem_of_mem_dropLast hb)
  · exact h

private theorem dns_normalize_spec (caseTable : Int → Int) (d : GoString) (h : isASCII d) :
    dns.normalize caseTable d = normalizeSpec d := by
  unfold dns.normalize
  rw [trimSuffix_dot, toLower_ascii caseTable _ (isASCII_trim d h), normalizeSpec_def]

private theorem normalizeSpec_ascii (d : GoString) (h : isASCII d) :
    isASCII (normalizeSpec d) := by
  rw [normalizeSpec_def]
  intro b hb
  rcases List.mem_map.1 hb with ⟨c, hc, rfl⟩
  exact lowerByte_ascii c (isASCII_trim d h c hc)

private theorem normalizeSpec_nil : normalizeSpec [] = [] := by decide

private theorem normalizeSpec_concat (l : GoString) (a : Nat) :
    normalizeSpec (l ++ [a]) =
      if a = 46 then l.map lowerByte else l.map lowerByte ++ [lowerByte a] := by
  rw [normalizeSpec_def]
  by_cases h : a = 46 <;> simp [h, List.dropLast_concat]

/-- Lowering a string that does not end in a dot gives a fixed point of the
reference normalisation. -/
private theorem normalizeSpec_map (l : GoString) (h : l.getLast? ≠ some 46) :
    normalizeSpec (l.map lowerByte) = l.map lowerByte := by
  rcases eq_nil_or_snoc l with h0 | ⟨l2, b, h0⟩
  · subst h0; decide
  · subst h0
    have hb : b ≠ 46 := by simpa using h
    have hb2 : lowerByte b ≠ 46 := fun hc => hb ((lowerByte_eq_dot b).1 hc)
    rw [List.map_append, List.map_singleton, normalizeSpec_concat, if_neg hb2, lowerByte_idem]
    simp [lowerByte_idem]

private theorem str_dotdot : str ".." = [46, 46] := by decide

private theorem normalizeSpec_idem (d : GoString)
    (h : strings.HasSuffix d (str "..") = false) :
    normalizeSpec (normalizeSpec d) = normalizeSpec d := by
  rw [str_dotdot] at h
  rcases eq_nil_or_snoc d with h0 | ⟨l, a, h0⟩
  · subst h0; decide
  · subst h0
    rw [normalizeSpec_concat]
    by_cases ha : a = 46
    · subst ha
      rw [if_pos rfl]
      apply normalizeSpec_map
      rcases eq_nil_or_snoc l with h1 | ⟨l2, b, h1⟩
      · subst h1; simp
      · subst h1
        intro hc
        have hb : b = 46 := by simpa using hc
        subst hb
        simp [strings.HasSuffix] at h
    · rw [if_neg ha]
      have := normalizeSpec_map (l ++ [a]) (by simpa using ha)
      simpa using this

private theorem normalizeSpec_congr (y d : GoString)
    (h : y.map lowerByte = d.map lowerByte) : normalizeSpec y = normalizeSpec d := by
  rcases eq_nil_or_snoc y with hy | ⟨l, a, hy⟩
  · subst hy
    have : d = [] := by simpa using h.symm
    subst this; rfl
  · subst hy
    rcases eq_nil_or_snoc d with hd | ⟨l2, b, hd⟩
    · subst hd; simp at h
    · subst hd
      have hlen : (l.map lowerByte).length = (l2.map lowerByte).length := by
        have := congrArg List.length h
        simpa using this
      rw [List.map_append, List.map_append] at h
      obtain ⟨h1, h2⟩ := List.append_inj h hlen
      have hab : lowerByte a = lowerByte b := by simpa using h2
      have hdot : a = 46 ↔ b = 46 := by
        rw [← lowerByte_eq_dot a, ← lowerByte_eq_dot b, hab]
      rw [normalizeSpec_concat, normalizeSpec_concat, h1, hab]
      by_cases ha : a = 46
      · rw [if_pos ha, if_pos (hdot.1 ha)]
      · rw [if_neg ha, if_neg (fun hb => ha (hdot.2 hb))]

private theorem mem_fill_aux (ds : List GoString) (m : rules.StringSet) (k : GoString) :
    k ∈ ds.foldl (fun m d => m.put (rules.normalize d)) m ↔
      k ∈ m ∨ ∃ d ∈ ds, k = rules.normalize d := by
  induction ds generalizing m with
  | nil => simp
  | cons d ds ih =>
    rw [List.foldl_cons, ih]
    unfold rules.StringSet.put
    by_cases hm : rules.normalize d ∈ m
    · rw [if_pos hm]
      constructor
      · rintro (h | ⟨e, he, rfl⟩)
        · exact Or.inl h
        · exact Or.inr ⟨e, List.mem_cons_of_mem _ he, rfl⟩
      · rintro (h | ⟨e, he, rfl⟩)
        · exact Or.inl h
        · rcases List.mem_cons.1 he with rfl | he
          · exact Or.inl hm
          · exact Or.inr ⟨e, he, rfl⟩
    · rw [if_neg hm]
      constructor
      · rintro (h | ⟨e, he, rfl⟩)
        · rcases List.mem_append.1 h with h | h
          · exact Or.inl h
          · exact Or.inr ⟨d, List.mem_cons_self _ _, by simpa using h⟩
        · exact Or.inr ⟨e, List.mem_cons_of_mem _ he, rfl⟩
      · rintro (h | ⟨e, he, rfl⟩)
        · exact Or.inl (List.mem_append_left _ h)
        · rcases List.mem_cons.1 he with rfl | he
          · exact Or.inl (List.mem_append_right _ (List.mem_singleton_self _))
          · exact Or.inr ⟨e, he, rfl⟩

private theorem mem_fill (ds : List GoString) (k : GoString) :
    k ∈ rules.fill ds ↔ ∃ d ∈ ds, k = rules.normalize d := by
  unfold rules.fill
  rw [mem_fill_aux]
  simp

private theorem encodeNat_ne_ff (n : Nat) : utf8.encodeNat n ≠ [0xFF] := by
  unfold utf8.encodeNat
  split_ifs <;> simp; omega

end Normalisation

/-- C7. Blocklist membership with symmetric normalisation: on the engine built
by `New ds`, and on any engine after `Set ds` whatever it held before,
`ShouldBlock x` holds exactly when `normalize x = normalize d` for some `d` in
`ds`.  In particular an `x` equal to an entry modulo ASCII letter case, or equal
to it under the reference normalisation (case and one optional trailing dot), is
blocked; the blocklist `ads.example` blocks `ads.example.` and `ADS.Example`. -/
theorem rules_ShouldBlock_iff (ds : List GoString) (x : GoString) (r : rules.RuleEngine) :
    ((rules.New ds).ShouldBlock x = true ↔ ∃ d ∈ ds, rules.normalize x = rules.normalize d) ∧
    ((r.Set ds).ShouldBlock x = true ↔ ∃ d ∈ ds, rules.normalize x = rules.normalize d) ∧
    (∀ d ∈ ds, rules.lowerASCII x = rules.lowerASCII d → (rules.New ds).ShouldBlock x = true) ∧
    (∀ d ∈ ds, normalizeSpec x = normalizeSpec d → (rules.New ds).ShouldBlock x = true) ∧
    (rules.New [str "ads.example"]).ShouldBlock (str "ads.example.") = true ∧
    (rules.New [str "ads.example"]).ShouldBlock (str "ADS.Example") = true := by
  have key : ∀ e : rules.RuleEngine, e.blocklist = rules.fill ds →
      (e.ShouldBlock x = true ↔ ∃ d ∈ ds, rules.normalize x = rules.normalize d) := by
    intro e he
    unfold rules.RuleEngine.ShouldBlock
    rw [decide_eq_true_iff, he, mem_fill]
  refine ⟨key _ rfl, key _ rfl, ?_, ?_, by decide, by decide⟩
  · intro d hd h
    refine (key _ rfl).2 ⟨d, hd, ?_⟩
    rw [rules_normalize_spec, rules_normalize_spec]
    apply normalizeSpec_congr
    rw [← lowerASCII_eq, ← lowerASCII_eq, h]
  · intro d hd h
    refine (key _ rfl).2 ⟨d, hd, ?_⟩
    rw [rules_normalize_spec, rules_normalize_spec, h]

private theorem encodeNat_1 (v : Nat) (h : v ≤ 0x7F) : utf8.encodeNat v = [v] := by
  unfold utf8.encodeNat
  split_ifs
  rfl

private theorem encodeNat_2 (v : Nat) (h1 : 0x7F < v) (h2 : v ≤ 0x7FF) :
    utf8.encodeNat v = [0xC0 + v / 64, 0x80 + v % 64] := by
  unfold utf8.encodeNat
  split_ifs <;> first | rfl | omega

private theorem encodeNat_3 (v : Nat) (h1 : 0x7FF < v) (h2 : v ≤ 0xFFFF)
    (h3 : ¬ (0xD800 ≤ v ∧ v ≤ 0xDFFF)) :
    utf8.encodeNat v = [0xE0 + v / 4096, 0x80 + (v / 64) % 64, 0x80 + v % 64] := by
  unfold utf8.encodeNat
  split_ifs <;> first | rfl | omega

private theorem encodeNat_4 (v : Nat) (h1 : 0xFFFF < v) (h2 : v ≤ 0x10FFFF) :
    utf8.encodeNat v =
      [0xF0 + v / 262144, 0x80 + (v / 4096) % 64, 0x80 + (v / 64) % 64, 0x80 + v % 64] := by
  unfold utf8.encodeNat
  split_ifs <;> first | rfl | omega

private theorem decoded_err (s0 : Nat) (rest : GoString) :
    decoded (utf8.RuneError, 1) (s0 :: rest) := by
  have hv : validRune utf8.RuneError := by
    unfold validRune utf8.RuneError; omega
  refine ⟨hv, le_refl _, by simp, ?_⟩
  intro h
  rcases h with h | h <;> exact absurd rfl h

private theorem decoded_1 (s0 : Nat) (rest : GoString) (h : s0 < 0x80) :
    decoded ((s0 : Int), 1) (s0 :: rest) := by
  refine ⟨⟨by omega, by omega, by omega⟩, le_refl _, by simp, ?_⟩
  intro _
  show utf8.encodeNat (Int.toNat (s0 : Int)) = _
  rw [Int.toNat_natCast, encodeNat_1 s0 (by omega)]
  rfl

private theorem decoded_2 (s0 s1 : Nat) (rest : GoString) (h0 : ¬ s0 < 0xC2) (h1 : s0 < 0xE0)
    (hc : utf8.isCont s1 = true) :
    decoded (((s0 % 32 * 64 + s1 % 64 : Nat) : Int), 2) (s0 :: s1 :: rest) := by
  simp only [utf8.isCont, Bool.and_eq_true, decide_eq_true_eq] at hc
  refine ⟨⟨by omega, by omega, by omega⟩, by omega, by simp, ?_⟩
  intro _
  show utf8.encodeNat (Int.toNat ((s0 % 32 * 64 + s1 % 64 : Nat) : Int)) = _
  rw [Int.toNat_natCast, encodeNat_2 _ (by omega) (by omega)]
  show _ = [s0, s1]
  congr 1
  · omega
  · congr 1; omega

private theorem decoded_3 (s0 s1 s2 : Nat) (rest : GoString) (h0 : ¬ s0 < 0xE0) (h1 : s0 < 0xF0)
    (hlo : (if s0 = 0xE0 then 0xA0 else 0x80) ≤ s1)
    (hhi : s1 ≤ (if s0 = 0xED then 0x9F else 0xBF))
    (hc : utf8.isCont s2 = true) :
    decoded (((s0 % 16 * 4096 + s1 % 64 * 64 + s2 % 64 : Nat) : Int), 3)
      (s0 :: s1 :: s2 :: rest) := by
  simp only [utf8.isCont, Bool.and_eq_true, decide_eq_true_eq] at hc
  have hlo' : 0x80 ≤ s1 ∧ (s0 = 0xE0 → 0xA0 ≤ s1) := by
    split_ifs at hlo <;> constructor <;> omega
  have hhi' : s1 ≤ 0xBF ∧ (s0 = 0xED → s1 ≤ 0x9F) := by
    split_ifs at hhi <;> constructor <;> omega
  clear hlo hhi
  obtain ⟨l1, l2⟩ := hlo'
  obtain ⟨u1, u2⟩ := hhi'
  have hv1 : 0x7FF < s0 % 16 * 4096 + s1 % 64 * 64 + s2 % 64 := by
    by_cases he : s0 = 0xE0
    · have := l2 he; omega
    · omega
  have hv2 : s0 % 16 * 4096 + s1 % 64 * 64 + s2 % 64 ≤ 0xFFFF := by omega
  have hv3 : ¬ (0xD800 ≤ s0 % 16 * 4096 + s1 % 64 * 64 + s2 % 64 ∧
      s0 % 16 * 4096 + s1 % 64 * 64 + s2 % 64 ≤ 0xDFFF) := by
    by_cases he : s0 = 0xED
    · have := u2 he; omega
    · omega
  refine ⟨⟨by omega, by omega, by omega⟩, by omega, by simp, ?_⟩
  intro _
  show utf8.encodeNat (Int.toNat ((s0 % 16 * 4096 + s1 % 64 * 64 + s2 % 64 : Nat) : Int)) = _
  rw [Int.toNat_natCast, encodeNat_3 _ hv1 hv2 hv3]
  show _ = [s0, s1, s2]
  congr 1
  · omega
  · congr 1
    · omega
    · congr 1; omega

private theorem decoded_4 (s0 s1 s2 s3 : Nat) (rest : GoString) (h0 : ¬ s0 < 0xF0) (h1 : s0 < 0xF5)
    (hlo : (if s0 = 0xF0 then 0x90 else 0x80) ≤ s1)
    (hhi : s1 ≤ (if s0 = 0xF4 then 0x8F else 0xBF))
    (hc2 : utf8.isCont s2 = true) (hc3 : utf8.isCont s3 = true) :
    decoded (((s0 % 8 * 262144 + s1 % 64 * 4096 + s2 % 64 * 64 + s3 % 64 : Nat) : Int), 4)
      (s0 :: s1 :: s2 :: s3 :: rest) := by
  simp only [utf8.isCont, Bool.and_eq_true, decide_eq_true_eq] at hc2 hc3
  have hlo' : 0x80 ≤ s1 ∧ (s0 = 0xF0 → 0x90 ≤ s1) := by
    split_ifs at hlo <;> constructor <;> omega
  have hhi' : s1 ≤ 0xBF ∧ (s0 = 0xF4 → s1 ≤ 0x8F) := by
    split_ifs at hhi <;> constructor <;> omega
  clear hlo hhi
  obtain ⟨l1, l2⟩ := hlo'
  obtain ⟨u1, u2⟩ := hhi'
  have hv1 : 0xFFFF < s0 % 8 * 262144 + s1 % 64 * 4096 + s2 % 64 * 64 + s3 % 64 := by
    by_cases he : s0 = 0xF0
    · have := l2 he; omega
    · omega
  have hv2 : s0 % 8 * 262144 + s1 % 64 * 4096 + s2 % 64 * 64 + s3 % 64 ≤ 0x10FFFF := by
    by_cases he : s0 = 0xF4
    · have := u2 he; omega
    · omega
  refine ⟨⟨by omega, by omega, by omega⟩, by omega, by simp, ?_⟩
  intro _
  show utf8.encodeNat
    (Int.toNat ((s0 % 8 * 262144 + s1 % 64 * 4096 + s2 % 64 * 64 + s3 % 64 : Nat) : Int)) = _
  rw [Int.toNat_natCast, encodeNat_4 _ hv1 hv2]
  show _ = [s0, s1, s2, s3]
  congr 1
  · omega
  · congr 1
    · omega
    · congr 1
      · omega
      · congr 1; omega

private theorem decoded_ite (c : Prop) [Decidable c] (a b : Int × Nat) (s : GoString)
    (ha : c → decoded a s) (hb : ¬ c → decoded b s) : decoded (if c then a else b) s := by
  split_ifs with h
  · exact ha h
  · exact hb h

private theorem decode_decoded (s0 : Nat) (rest : GoString) :
    decoded (utf8.DecodeRuneInString (s0 :: rest)) (s0 :: rest) := by
  rcases rest with _ | ⟨s1, _ | ⟨s2, _ | ⟨s3, rest⟩⟩⟩
  · simp only [utf8.DecodeRuneInString]
    refine decoded_ite _ _ _ _ (fun a1 => decoded_1 _ _ a1) (fun _ => ?_)
    refine decoded_ite _ _ _ _ (fun _ => decoded_err _ _) (fun _ => ?_)
    refine decoded_ite _ _ _ _ (fun _ => decoded_err _ _) (fun _ => ?_)
    refine decoded_ite _ _ _ _ (fun _ => decoded_err _ _) (fun _ => ?_)
    exact decoded_ite _ _ _ _ (fun _ => decoded_err _ _) (fun _ => decoded_err _ _)
  · simp only [utf8.DecodeRuneInString]
    refine decoded_ite _ _ _ _ (fun a1 => decoded_1 _ _ a1) (fun _ => ?_)
    refine decoded_ite _ _ _ _ (fun _ => decoded_err _ _) (fun a2 => ?_)
    refine decoded_ite _ _ _ _ (fun a3 => ?_) (fun _ => ?_)
    · exact decoded_ite _ _ _ _ (fun a4 => decoded_2 _ _ _ a2 a3 a4) (fun _ => decoded_err _ _)
    refine decoded_ite _ _ _ _ (fun _ => decoded_err _ _) (fun _ => ?_)
    exact decoded_ite _ _ _ _ (fun _ => decoded_err _ _) (fun _ => decoded_err _ _)
  · simp only [utf8.DecodeRuneInString]
    refine decoded_ite _ _ _ _ (fun a1 => decoded_1 _ _ a1) (fun _ => ?_)
    refine decoded_ite _ _ _ _ (fun _ => decoded_err _ _) (fun a2 => ?_)
    refine decoded_ite _ _ _ _ (fun a3 => ?_) (fun a3 => ?_)
    · exact decoded_ite _ _ _ _ (fun a4 => decoded_2 _ _ _ a2 a3 a4) (fun _ => decoded_err _ _)
    refine decoded_ite _ _ _ _ (fun a5 => ?_) (fun _ => ?_)
    · refine decoded_ite _ _ _ _ (fun a6 => ?_) (fun _ => decoded_err _ _)
      simp only [Bool.and_eq_true, decide_eq_true_eq] at a6
      exact decoded_3 _ _ _ _ a3 a5 a6.1.1 a6.1.2 a6.2
    exact decoded_ite _ _ _ _ (fun _ => decoded_err _ _) (fun _ => decoded_err _ _)
  · simp only [utf8.DecodeRuneInString]
    refine decoded_ite _ _ _ _ (fun a1 => decoded_1 _ _ a1) (fun _ => ?_)
    refine decoded_ite _ _ _ _ (fun _ => decoded_err _ _) (fun a2 => ?_)
    refine decoded_ite _ _ _ _ (fun a3 => ?_) (fun a3 => ?_)
    · exact decoded_ite _ _ _ _ (fun a4 => decoded_2 _ _ _ a2 a3 a4) (fun _ => decoded_err _ _)
    refine decoded_ite _ _ _ _ (fun a5 => ?_) (fun a5 => ?_)
    · refine decoded_ite _ _ _ _ (fun a6 => ?_) (fun _ => decoded_err _ _)
      simp only [Bool.and_eq_true, decide_eq_true_eq] at a6
      exact decoded_3 _ _ _ _ a3 a5 a6.1.1 a6.1.2 a6.2
    refine decoded_ite _ _ _ _ (fun a7 => ?_) (fun _ => decoded_err _ _)
    refine decoded_ite _ _ _ _ (fun a8 => ?_) (fun _ => decoded_err _ _)
    simp only [Bool.and_eq_true, decide_eq_true_eq] at a8
    exact decoded_4 _ _ _ _ _ a5 a7 a8.1.1.1 a8.1.1.2 a8.1.2 a8.2

private theorem decode_1 (s0 : Nat) (t : GoString) (h : s0 < 0x80) :
    utf8.DecodeRuneInString (s0 :: t) = ((s0 : Int), 1) := by
  simp only [utf8.DecodeRuneInString]
  rw [if_pos h]

private theorem decode_2 (s0 s1 : Nat) (t : GoString) (h0 : ¬ s0 < 0xC2) (h1 : s0 < 0xE0)
    (hc : utf8.isCont s1 = true) :
    utf8.DecodeRuneInString (s0 :: s1 :: t) = (((s0 % 32 * 64 + s1 % 64 : Nat) : Int), 2) := by
  have a1 : ¬ s0 < 0x80 := by omega
  simp only [utf8.DecodeRuneInString]
  rw [if_neg a1, if_neg h0, if_pos h1, if_pos hc]

private theorem decode_3 (s0 s1 s2 : Nat) (t : GoString) (h0 : ¬ s0 < 0xE0) (h1 : s0 < 0xF0)
    (hlo : (if s0 = 0xE0 then 0xA0 else 0x80) ≤ s1)
    (hhi : s1 ≤ (if s0 = 0xED then 0x9F else 0xBF))
    (hc : utf8.isCont s2 = true) :
    utf8.DecodeRuneInString (s0 :: s1 :: s2 :: t) =
      (((s0 % 16 * 4096 + s1 % 64 * 64 + s2 % 64 : Nat) : Int), 3) := by
  have a1 : ¬ s0 < 0x80 := by omega
  have a2 : ¬ s0 < 0xC2 := by omega
  have hcond : (decide ((if s0 = 0xE0 then 0xA0 else 0x80) ≤ s1) &&
      decide (s1 ≤ (if s0 = 0xED then 0x9F else 0xBF)) && utf8.isCont s2) = true := by
    rw [Bool.and_eq_true, Bool.and_eq_true, decide_eq_true_eq, decide_eq_true_eq]
    exact ⟨⟨hlo, hhi⟩, hc⟩
  simp only [utf8.DecodeRuneInString]
  rw [if_neg a1, if_neg a2, if_neg h0, if_pos h1, if_pos hcond]

private theorem decode_4 (s0 s1 s2 s3 : Nat) (t : GoString) (h0 : ¬ s0 < 0xF0) (h1 : s0 < 0xF5)
    (hlo : (if s0 = 0xF0 then 0x90 else 0x80) ≤ s1)
    (hhi : s1 ≤ (if s0 = 0xF4 then 0x8F else 0xBF))
    (hc2 : utf8.isCont s2 = true) (hc3 : utf8.isCont s3 = true) :
    utf8.DecodeRuneInString (s0 :: s1 :: s2 :: s3 :: t) =
      (((s0 % 8 * 262144 + s1 % 64 * 4096 + s2 % 64 * 64 + s3 % 64 : Nat) : Int), 4) := by
  have a1 : ¬ s0 < 0x80 := by omega
  have a2 : ¬ s0 < 0xC2 := by omega
  have a3 : ¬ s0 < 0xE0 := by omega
  have hcond : (decide ((if s0 = 0xF0 then 0x90 else 0x80) ≤ s1) &&
      decide (s1 ≤ (if s0 = 0xF4 then 0x8F else 0xBF)) && utf8.isCont s2 &&
      utf8.isCont s3) = true := by
    rw [Bool.and_eq_true, Bool.and_eq_true, Bool.and_eq_true, decide_eq_true_eq,
      decide_eq_true_eq]
    exact ⟨⟨⟨hlo, hhi⟩, hc2⟩, hc3⟩
  simp only [utf8.DecodeRuneInString]
  rw [if_neg a1, if_neg a2, if_neg a3, if_neg h0, if_pos h1, if_pos hcond]

private theorem isCont_low (x : Nat) : utf8.isCont (0x80 + x % 64) = true := by
  simp only [utf8.isCont, Bool.and_eq_true, decide_eq_true_eq]
  omega

/-- Decoding what `encodeNat` wrote for a scalar value gives the value back. -/
private theorem decode_encode (v : Nat) (hv : validRune (v : Int)) (t : GoString) :
    utf8.DecodeRuneInString (utf8.encodeNat v ++ t) = ((v : Int), (utf8.encodeNat v).length) := by
  obtain ⟨_, hmax, hsur⟩ := hv
  have hmax' : v ≤ 0x10FFFF := by omega
  have hsur' : ¬ (0xD800 ≤ v ∧ v ≤ 0xDFFF) := by omega
  by_cases h1 : v ≤ 0x7F
  · rw [encodeNat_1 v h1]
    exact decode_1 v t (by omega)
  by_cases h2 : v ≤ 0x7FF
  · rw [encodeNat_2 v (by omega) h2]
    show utf8.DecodeRuneInString ((0xC0 + v / 64) :: (0x80 + v % 64) :: t) = _
    rw [decode_2 _ _ _ (by omega) (by omega) (isCont_low v)]
    have e : (0xC0 + v / 64) % 32 * 64 + (0x80 + v % 64) % 64 = v := by omega
    rw [e]
    rfl
  by_cases h3 : v ≤ 0xFFFF
  · rw [encodeNat_3 v (by omega) h3 hsur']
    show utf8.DecodeRuneInString
      ((0xE0 + v / 4096) :: (0x80 + (v / 64) % 64) :: (0x80 + v % 64) :: t) = _
    have hlo : (if 0xE0 + v / 4096 = 0xE0 then 0xA0 else 0x80) ≤ 0x80 + (v / 64) % 64 := by
      split_ifs <;> omega
    have hhi : 0x80 + (v / 64) % 64 ≤ (if 0xE0 + v / 4096 = 0xED then 0x9F else 0xBF) := by
      split_ifs <;> omega
    rw [decode_3 _ _ _ _ (by omega) (by omega) hlo hhi (isCont_low v)]
    have e : (0xE0 + v / 4096) % 16 * 4096 + (0x80 + (v / 64) % 64) % 64 * 64 +
        (0x80 + v % 64) % 64 = v := by omega
    rw [e]
    rfl
  · rw [encodeNat_4 v (by omega) hmax']
    show utf8.DecodeRuneInString
      ((0xF0 + v / 262144) :: (0x80 + (v / 4096) % 64) :: (0x80 + (v / 64) % 64) ::
        (0x80 + v % 64) :: t) = _
    have hlo : (if 0xF0 + v / 262144 = 0xF0 then 0x90 else 0x80) ≤ 0x80 + (v / 4096) % 64 := by
      split_ifs <;> omega
    have hhi : 0x80 + (v / 4096) % 64 ≤ (if 0xF0 + v / 262144 = 0xF4 then 0x8F else 0xBF) := by
      split_ifs <;> omega
    rw [decode_4 _ _ _ _ _ (by omega) (by omega) hlo hhi (isCont_low _) (isCont_low v)]
    have e : (0xF0 + v / 262144) % 8 * 262144 + (0x80 + (v / 4096) % 64) % 64 * 4096 +
        (0x80 + (v / 64) % 64) % 64 * 64 + (0x80 + v % 64) % 64 = v := by omega
    rw [e]
    rfl

private theorem decode_width (s : GoString) (h : s ≠ []) :
    1 ≤ (utf8.DecodeRuneInString s).2 ∧ (utf8.DecodeRuneInString s).2 ≤ s.length := by
  rcases s with _ | ⟨s0, rest⟩
  · exact absurd rfl h
  · exact ⟨(decode_decoded s0 rest).2.1, (decode_decoded s0 rest).2.2.1⟩

private theorem drop_decode_length (s : GoString) (h : s ≠ []) :
    (s.drop (utf8.DecodeRuneInString s).2).length < s.length := by
  have hw := decode_width s h
  have hl : 0 < s.length := List.length_pos.mpr h
  rw [List.length_drop]
  omega

private theorem mapRest_nil (f : Int → Int) (n : Nat) : strings.mapRest f n [] = [] := by
  cases n <;> simp [strings.mapRest]

private theorem mapRest_succ (f : Int → Int) (n : Nat) (s : GoString) (h : s ≠ []) :
    strings.mapRest f (n + 1) s =
      strings.writeRune (f (utf8.DecodeRuneInString s).1) ++
        strings.mapRest f n (s.drop (utf8.DecodeRuneInString s).2) := by
  simp only [strings.mapRest]
  rw [if_neg h]

private theorem mapRest_fuel (f : Int → Int) :
    ∀ (n m : Nat) (s : GoString), s.length ≤ n → s.length ≤ m →
      strings.mapRest f n s = strings.mapRest f m s
  | 0, m, s, hn, _ => by
    have hs : s = [] := List.length_eq_zero.mp (by omega)
    subst hs
    rw [mapRest_nil, mapRest_nil]
  | n + 1, 0, s, _, hm => by
    have hs : s = [] := List.length_eq_zero.mp (by omega)
    subst hs
    rw [mapRest_nil, mapRest_nil]
  | n + 1, m + 1, s, hn, hm => by
    by_cases hs : s = []
    · subst hs
      rw [mapRest_nil, mapRest_nil]
    · have hl := drop_decode_length s hs
      rw [mapRest_succ f n s hs, mapRest_succ f m s hs,
        mapRest_fuel f n m _ (by omega) (by omega)]

private theorem mapRest_eq_mapAll (f : Int → Int) (n : Nat) (s : GoString) (h : s.length ≤ n) :
    strings.mapRest f n s = mapAll f s :=
  mapRest_fuel f n s.length s h (le_refl _)

private theorem mapAll_nil (f : Int → Int) : mapAll f [] = [] := mapRest_nil f _

private theorem mapAll_step (f : Int → Int) (s : GoString) (h : s ≠ []) :
    mapAll f s =
      strings.writeRune (f (utf8.DecodeRuneInString s).1) ++
        mapAll f (s.drop (utf8.DecodeRuneInString s).2) := by
  have hl : 0 < s.length := List.length_pos.mpr h
  have hd := drop_decode_length s h
  obtain ⟨n, hn⟩ : ∃ n, s.length = n + 1 := ⟨s.length - 1, by omega⟩
  unfold mapAll
  rw [hn, mapRest_succ f n s h]
  congr 1
  exact mapRest_fuel f _ _ _ (by omega) (le_refl _)

/-- The first loop of `strings.Map` writes what the second would have. -/
private theorem mapScan_eq (f : Int → Int) :
    ∀ (n : Nat) (pre s : GoString), strings.mapScan f n pre s = pre ++ strings.mapRest f n s
  | 0, pre, s => by simp [strings.mapScan, strings.mapRest]
  | n + 1, pre, s => by
    by_cases hs : s = []
    · subst hs
      simp [strings.mapScan, mapRest_nil]
    · rw [mapRest_succ f n s hs]
      simp only [strings.mapScan]
      rw [if_neg hs]
      obtain ⟨s0, rest, rfl⟩ : ∃ s0 rest, s = s0 :: rest := by
        rcases s with _ | ⟨s0, rest⟩
        · exact absurd rfl hs
        · exact ⟨s0, rest, rfl⟩
      have hd := decode_decoded s0 rest
      have keep : ((utf8.DecodeRuneInString (s0 :: rest)).1 ≠ utf8.RuneError ∨
          (utf8.DecodeRuneInString (s0 :: rest)).2 ≠ 1) →
          f (utf8.DecodeRuneInString (s0 :: rest)).1 = (utf8.DecodeRuneInString (s0 :: rest)).1 →
          strings.writeRune (f (utf8.DecodeRuneInString (s0 :: rest)).1) =
            (s0 :: rest).take (utf8.DecodeRuneInString (s0 :: rest)).2 := by
        intro hv hf
        rw [hf]
        unfold strings.writeRune
        rw [if_pos hd.1.1]
        exact hd.2.2.2 hv
      split_ifs with c1 c2
      · rw [mapScan_eq f n, keep (Or.inl c1.2) c1.1, List.append_assoc]
      · rw [mapScan_eq f n, keep (Or.inr c2.2.1) c2.2.2, List.append_assoc]
      · rw [List.append_assoc]

private theorem Map_eq (f : Int → Int) (s : GoString) : strings.Map f s = mapAll f s := by
  unfold strings.Map mapAll
  rw [mapScan_eq, List.nil_append]

private theorem mapAll_ascii (tbl : Int → Int) :
    ∀ s : GoString, isASCII s → mapAll (unicode.ToLower tbl) s = s.map lowerByte
  | [], _ => mapAll_nil _
  | b :: rest, h => by
    have hb : b < 0x80 := h b (List.mem_cons_self _ _)
    have hrest : isASCII rest := fun x hx => h x (List.mem_cons_of_mem _ hx)
    rw [mapAll_step _ _ (List.cons_ne_nil _ _), decode_1 b rest hb]
    show strings.writeRune (unicode.ToLower tbl (b : Int)) ++
      mapAll (unicode.ToLower tbl) rest = _
    rw [mapAll_ascii tbl rest hrest, List.map_cons]
    have hw : strings.writeRune (unicode.ToLower tbl (b : Int)) = [lowerByte b] := by
      unfold unicode.ToLower strings.writeRune lowerByte
      rw [if_pos (by omega)]
      by_cases hu : 65 ≤ b ∧ b ≤ 90
      · have hu' : (65 : Int) ≤ (b : Int) ∧ (b : Int) ≤ 90 := by omega
        rw [if_pos hu', if_pos hu, if_pos (by omega)]
        have e : ((b : Int) + 32).toNat = b + 32 := by omega
        rw [e, encodeNat_1 _ (by omega)]
      · have hu' : ¬ ((65 : Int) ≤ (b : Int) ∧ (b : Int) ≤ 90) := by omega
        rw [if_neg hu', if_neg hu, if_pos (by omega), Int.toNat_natCast,
          encodeNat_1 _ (by omega)]
    rw [hw]
    rfl

private theorem ToLower_eq (tbl : Int → Int) (s : GoString) :
    strings.ToLower tbl s = mapAll (unicode.ToLower tbl) s := by
  unfold strings.ToLower
  split_ifs with h
  · have ha : isASCII s := by simpa [List.all_eq_true, isASCII] using h
    rw [mapAll_ascii tbl s ha]
    rfl
  · exact Map_eq _ s

/-- Under the contract, `unicode.ToLower` keeps scalar values, is idempotent on
them, and yields `.` only from `.`. -/
private theorem toLower_rune (tbl : Int → Int) (ht : caseContract tbl) (r : Int) (hr : validRune r) :
    validRune (unicode.ToLower tbl r) ∧
    unicode.ToLower tbl (unicode.ToLower tbl r) = unicode.ToLower tbl r ∧
    (unicode.ToLower tbl r = 46 → r = 46) := by
  by_cases h : r ≤ 0x7F
  · obtain ⟨h0, _, _⟩ := hr
    by_cases hu : 65 ≤ r ∧ r ≤ 90
    · have e : unicode.ToLower tbl r = r + 32 := by
        unfold unicode.ToLower; rw [if_pos h, if_pos hu]
      have e2 : unicode.ToLower tbl (r + 32) = r + 32 := by
        unfold unicode.ToLower; rw [if_pos (by omega), if_neg (by omega)]
      rw [e, e2]
      refine ⟨⟨by omega, by omega, by omega⟩, rfl, ?_⟩
      intro hc; omega
    · have e : unicode.ToLower tbl r = r := by
        unfold unicode.ToLower; rw [if_pos h, if_neg hu]
      rw [e, e]
      exact ⟨⟨by omega, by omega, by omega⟩, rfl, fun hc => hc⟩
  · have e : unicode.ToLower tbl r = tbl r := by
      unfold unicode.ToLower; rw [if_neg h]
    obtain ⟨c1, c2, c3⟩ := ht r hr (by omega)
    rw [e]
    exact ⟨c1, c3, fun hc => absurd hc c2⟩

private theorem decode_valid (s : GoString) (h : s ≠ []) : validRune (utf8.DecodeRuneInString s).1 := by
  rcases s with _ | ⟨s0, rest⟩
  · exact absurd rfl h
  · exact (decode_decoded s0 rest).1

private theorem writeRune_valid (r : Int) (hr : validRune r) :
    strings.writeRune r = utf8.encodeNat r.toNat := by
  unfold strings.writeRune
  rw [if_pos hr.1]

private theorem encodeNat_ne_nil (v : Nat) : utf8.encodeNat v ≠ [] := by
  unfold utf8.encodeNat
  split_ifs <;> simp

/-- Rewriting what was written for a scalar value that the mapping fixes. -/
private theorem mapAll_encode (f : Int → Int) (r : Int) (hr : validRune r) (t : GoString) :
    mapAll f (utf8.encodeNat r.toNat ++ t) = strings.writeRune (f r) ++ mapAll f t := by
  have hne : utf8.encodeNat r.toNat ++ t ≠ [] := by
    intro hc
    exact encodeNat_ne_nil _ (List.append_eq_nil.mp hc).1
  have hcast : ((r.toNat : Nat) : Int) = r := Int.toNat_of_nonneg hr.1
  have hdec := decode_encode r.toNat (by rw [hcast]; exact hr) t
  rw [mapAll_step f _ hne, hdec]
  show strings.writeRune (f ((r.toNat : Nat) : Int)) ++
    mapAll f (List.drop (utf8.encodeNat r.toNat).length (utf8.encodeNat r.toNat ++ t)) = _
  rw [hcast, List.drop_left]

private theorem mapAll_idem (tbl : Int → Int) (ht : caseContract tbl) :
    ∀ (n : Nat) (s : GoString), s.length ≤ n →
      mapAll (unicode.ToLower tbl) (mapAll (unicode.ToLower tbl) s) =
        mapAll (unicode.ToLower tbl) s
  | 0, s, hn => by
    have hs : s = [] := List.length_eq_zero.mp (by omega)
    subst hs
    rw [mapAll_nil, mapAll_nil]
  | n + 1, s, hn => by
    by_cases hs : s = []
    · subst hs
      rw [mapAll_nil, mapAll_nil]
    · have hl := drop_decode_length s hs
      obtain ⟨v1, v2, _⟩ := toLower_rune tbl ht _ (decode_valid s hs)
      rw [mapAll_step _ s hs, writeRune_valid _ v1, mapAll_encode _ _ v1, v2,
        writeRune_valid _ v1, mapAll_idem tbl ht n _ (by omega)]

private theorem encodeNat_last (v : Nat) (h : (utf8.encodeNat v).getLast? = some 46) : v = 46 := by
  unfold utf8.encodeNat at h
  split_ifs at h <;> simp at h <;> omega

/-- Lowering keeps a string that does not end in a dot from ending in one. -/
private theorem mapAll_last (tbl : Int → Int) (ht : caseContract tbl) :
    ∀ (n : Nat) (s : GoString), s.length ≤ n → s ≠ [] → s.getLast? ≠ some 46 →
      mapAll (unicode.ToLower tbl) s ≠ [] ∧
        (mapAll (unicode.ToLower tbl) s).getLast? ≠ some 46
  | 0, s, hn, hs, _ => absurd (List.length_eq_zero.mp (by omega)) hs
  | n + 1, s, hn, hs, hlast => by
    have hl := drop_decode_length s hs
    have hval := decode_valid s hs
    obtain ⟨v1, _, v3⟩ := toLower_rune tbl ht _ hval
    rw [mapAll_step _ s hs, writeRune_valid _ v1]
    have hne := encodeNat_ne_nil (unicode.ToLower tbl (utf8.DecodeRuneInString s).1).toNat
    refine ⟨fun hc => hne (List.append_eq_nil.mp hc).1, ?_⟩
    by_cases hrest : s.drop (utf8.DecodeRuneInString s).2 = []
    · rw [hrest, mapAll_nil, List.append_nil]
      intro hc
      have h46 := encodeNat_last _ hc
      have hr : unicode.ToLower tbl (utf8.DecodeRuneInString s).1 = 46 := by
        have := Int.toNat_of_nonneg v1.1
        omega
      have hd46 := v3 hr
      obtain ⟨s0, rest, rfl⟩ : ∃ s0 rest, s = s0 :: rest := by
        rcases s with _ | ⟨s0, rest⟩
        · exact absurd rfl hs
        · exact ⟨s0, rest, rfl⟩
      have hdd := decode_decoded s0 rest
      have henc := hdd.2.2.2 (Or.inl (by rw [hd46]; decide))
      rw [hd46] at henc
      have e46 : utf8.encodeNat (Int.toNat 46) = [46] := by decide
      rw [e46] at henc
      have hw : (utf8.DecodeRuneInString (s0 :: rest)).2 = 1 := by
        have := congrArg List.length henc
        rw [List.length_take] at this
        have := hdd.2.2.1
        simp only [List.length_singleton] at *
        omega
      rw [hw] at hrest henc
      have hrest' : rest = [] := by simpa using hrest
      subst hrest'
      have : s0 = 46 := by simpa using henc.symm
      subst this
      exact hlast rfl
    · have hlast' : (s.drop (utf8.DecodeRuneInString s).2).getLast? ≠ some 46 := by
        intro hc
        apply hlast
        rw [← List.take_append_drop (utf8.DecodeRuneInString s).2 s,
          List.getLast?_append_of_ne_nil _ hrest]
        exact hc
      obtain ⟨i1, i2⟩ := mapAll_last tbl ht n _ (by omega) hrest hlast'
      rw [List.getLast?_append_of_ne_nil _ i1]
      exact i2

private theorem trim_last (d : GoString) (h : strings.HasSuffix d (str "..") = false) :
    (if d.getLast? = some 46 then d.dropLast else d).getLast? ≠ some 46 := by
  rw [str_dotdot] at h
  rcases eq_nil_or_snoc d with h0 | ⟨l, a, h0⟩
  · subst h0; simp
  · subst h0
    by_cases ha : a = 46
    · subst ha
      rcases eq_nil_or_snoc l with h1 | ⟨l2, b, h1⟩
      · subst h1; simp
      · subst h1
        intro hc
        have hb : b = 46 := by simpa [List.dropLast_concat] using hc
        subst hb
        simp [strings.HasSuffix] at h
    · simp [ha]

/-- The parser normaliser is idempotent on a string that does not end in two
dots, given the contract of the case tables. -/
private theorem dns_normalize_idem (caseTable : Int → Int) (ht : caseContract caseTable)
    (d : GoString) (h : strings.HasSuffix d (str "..") = false) :
    dns.normalize caseTable (dns.normalize caseTable d) = dns.normalize caseTable d := by
  have hy := trim_last d h
  unfold dns.normalize
  simp only [ToLower_eq, trimSuffix_dot]
  generalize (if d.getLast? = some 46 then d.dropLast else d) = y at hy ⊢
  by_cases hnil : y = []
  · subst hnil
    simp [mapAll_nil]
  · obtain ⟨_, z2⟩ := mapAll_last caseTable ht y.length y (le_refl _) hnil hy
    rw [if_neg z2]
    exact mapAll_idem caseTable ht y.length y (le_refl _)

private theorem sampleCaseTable_contract : caseContract sampleCaseTable := by
  intro r hr h7
  obtain ⟨h0, hmax, hsur⟩ := hr
  unfold unicode.ToLower sampleCaseTable validRune
  by_cases hc : 0xC0 ≤ r ∧ r ≤ 0xDE ∧ r ≠ 0xD7
  · rw [if_pos hc, if_neg (by omega), if_neg (by omega)]
    refine ⟨⟨by omega, by omega, by omega⟩, by omega, rfl⟩
  · rw [if_neg hc, if_neg (by omega), if_neg hc]
    refine ⟨⟨h0, hmax, hsur⟩, by omega, rfl⟩

/-- C8, as the specification states it, fails: a string ending in two dots
loses one dot at each application, for the policy normaliser and, whatever
the case table, for the parser normaliser. -/
theorem normalize_idempotent_counterexample :
    rules.normalize (rules.normalize (str "..")) ≠ rules.normalize (str "..") ∧
    ¬ ∃ caseTable : Int → Int,
      dns.normalize caseTable (dns.normalize caseTable (str "..")) =
        dns.normalize caseTable (str "..") := by
  refine ⟨by decide, ?_⟩
  rintro ⟨tbl, h⟩
  have h1 : dns.normalize tbl (str "..") = [46] := by
    rw [dns_normalize_spec tbl _ (by decide)]; decide
  have h2 : dns.normalize tbl [46] = [] := by
    rw [dns_normalize_spec tbl _ (by decide)]; decide
  rw [h1, h2] at h
  exact absurd h (by decide)

/-- C8, amended. Normalisation is idempotent on every string that does not end
in two dots: for the policy normaliser, and for the parser normaliser, given
what the case tables of package `unicode` guarantee (a lower-case mapping that
yields scalar values, never the rune `.`, and only runes it leaves as they
are); on ASCII strings the parser normaliser is idempotent whatever the
tables; and both normalisers send `EXAMPLE.COM.` to `example.com`. -/
theorem normalize_idempotent (caseTable : Int → Int) (d : GoString)
    (h : strings.HasSuffix d (str "..") = false) :
    rules.normalize (rules.normalize d) = rules.normalize d ∧
    (caseContract caseTable →
      dns.normalize caseTable (dns.normalize caseTable d) = dns.normalize caseTable d) ∧
    (isASCII d →
      dns.normalize caseTable (dns.normalize caseTable d) = dns.normalize caseTable d) ∧
    rules.normalize (str "EXAMPLE.COM.") = str "example.com" ∧
    dns.normalize caseTable (str "EXAMPLE.COM.") = str "example.com" := by
  refine ⟨?_, ?_, ?_, by decide, ?_⟩
  · rw [rules_normalize_spec, rules_normalize_spec, normalizeSpec_idem d h]
  · intro ht
    exact dns_normalize_idem caseTable ht d h
  · intro ha
    rw [dns_normalize_spec caseTable d ha,
      dns_normalize_spec caseTable _ (normalizeSpec_ascii d ha), normalizeSpec_idem d h]
  · rw [dns_normalize_spec caseTable _ (by decide)]; decide

/-- C8 witness: `É.COM.` does not end in two dots and is not ASCII; with the
Latin-1 part of the case table the parser normaliser sends it to `é.com`, which
it leaves as it is; the same for the invalid byte in `A\xff.`, which is
rewritten as U+FFFD once and then kept. -/
theorem normalize_idempotent_witness :
    strings.HasSuffix (str "É.COM.") (str "..") = false ∧
    caseContract sampleCaseTable ∧
    dns.normalize sampleCaseTable (str "É.COM.") = str "é.com" ∧
    dns.normalize sampleCaseTable [0x41, 0xFF, 0x2E] = [0x61, 0xEF, 0xBF, 0xBD] ∧
    dns.normalize sampleCaseTable [0x61, 0xEF, 0xBF, 0xBD] = [0x61, 0xEF, 0xBF, 0xBD] ∧
    rules.normalize (rules.normalize (str "É.COM.")) = rules.normalize (str "É.COM.") ∧
    dns.normalize sampleCaseTable (dns.normalize sampleCaseTable (str "É.COM.")) =
      dns.normalize sampleCaseTable (str "É.COM.") :=
  ⟨by decide, sampleCaseTable_contract, by decide, by decide, by decide,
   (normalize_idempotent sampleCaseTable (str "É.COM.") (by decide)).1,
   (normalize_idempotent sampleCaseTable (str "É.COM.") (by decide)).2.1
     sampleCaseTable_contract⟩

/-- C9, as the specification states it, fails for the parser normaliser: on a
string with a byte that is not ASCII, `strings.ToLower` goes through
`strings.Map`, which does not keep an invalid byte.  Whatever the case table,
the strings `A\xff` and `\xff` are not sent to `a\xff` and `\xff`, so the parser
normaliser differs there from the reference definition and from the policy
normaliser. -/
theorem dns_normalize_spec_counterexample :
    (¬ ∃ caseTable : Int → Int,
      dns.normalize caseTable [0x41, 0xFF] = normalizeSpec [0x41, 0xFF]) ∧
    (¬ ∃ caseTable : Int → Int,
      dns.normalize caseTable [0x41, 0xFF] = rules.normalize [0x41, 0xFF]) ∧
    (¬ ∃ caseTable : Int → Int, dns.normalize caseTable [0xFF] = normalizeSpec [0xFF]) ∧
    normalizeSpec [0x41, 0xFF] = [0x61, 0xFF] ∧ rules.normalize [0x41, 0xFF] = [0x61, 0xFF] := by
  have hnorm : ∀ tbl : Int → Int,
      dns.normalize tbl [0xFF] = strings.writeRune (tbl 0xFFFD) := by
    intro tbl
    simp [dns.normalize, str, utf8.encodeNat, strings.TrimSuffix, strings.HasSuffix,
      strings.ToLower, strings.Map, strings.mapScan, strings.mapRest,
      utf8.DecodeRuneInString, utf8.RuneError, unicode.ToLower]
  have hnorm2 : ∀ tbl : Int → Int,
      dns.normalize tbl [0x41, 0xFF] = 0x61 :: strings.writeRune (tbl 0xFFFD) := by
    intro tbl
    simp [dns.normalize, str, utf8.encodeNat, strings.TrimSuffix, strings.HasSuffix,
      strings.ToLower, strings.Map, strings.mapScan, strings.mapRest, strings.writeRune,
      utf8.DecodeRuneInString, utf8.RuneError, unicode.ToLower]
  have hne : ∀ tbl : Int → Int, strings.writeRune (tbl 0xFFFD) ≠ [0xFF] := by
    intro tbl
    unfold strings.writeRune
    split
    · exact encodeNat_ne_ff _
    · simp
  refine ⟨?_, ?_, ?_, by decide, by decide⟩
  · rintro ⟨tbl, h⟩
    rw [hnorm2] at h
    have h2 : normalizeSpec [0x41, 0xFF] = [0x61, 0xFF] := by decide
    rw [h2] at h
    exact hne tbl (List.cons.inj h).2
  · rintro ⟨tbl, h⟩
    rw [hnorm2] at h
    have h2 : rules.normalize [0x41, 0xFF] = [0x61, 0xFF] := by decide
    rw [h2] at h
    exact hne tbl (List.cons.inj h).2
  · rintro ⟨tbl, h⟩
    rw [hnorm] at h
    exact hne tbl (h.trans (by decide))

/-- C9, amended. The policy normaliser equals the reference definition on every
string; the parser normaliser equals it on every ASCII string (whatever the
case table), so the two normalisers agree on every ASCII string. -/
theorem normalize_refines_spec (caseTable : Int → Int) (d : GoString) :
    rules.normalize d = normalizeSpec d ∧
    (isASCII d → dns.normalize caseTable d = normalizeSpec d ∧
      dns.normalize caseTable d = rules.normalize d) := by
  refine ⟨rules_normalize_spec d, fun ha => ⟨dns_normalize_spec caseTable d ha, ?_⟩⟩
  rw [dns_normalize_spec caseTable d ha, rules_normalize_spec]

/-! ## Checksum -/

section Checksum

private theorem uint16_cons (b0 b1 : Nat) (rest : Bytes) :
    binary.Uint16 (b0 :: b1 :: rest) = .ok ((b1 ||| (b0 <<< 8)) % 65536) := by
  simp [binary.Uint16, index, bind, Except.bind, pure, Except.pure]

private theorem be16_eq (b0 b1 : Nat) (h0 : b0 < 256) (h1 : b1 < 256) :
    (b1 ||| (b0 <<< 8)) % 65536 = b0 * 256 + b1 := by
  have h : 2 ^ 8 * b0 + b1 = 2 ^ 8 * b0 ||| b1 := Nat.mul_add_lt_is_or (by omega) b0
  rw [Nat.shiftLeft_eq, Nat.lor_comm, Nat.mul_comm, ← h]
  omega

private theorem step_zero (b0 b1 : Nat) (rest : Bytes) (acc : Nat) :
    ipv4ChecksumStep (b0 :: b1 :: rest) acc (2 * 0) =
      .ok ((acc + (b1 ||| (b0 <<< 8)) % 65536) % 2 ^ 32) := by
  simp [ipv4ChecksumStep, sliceFrom, uint16_cons, bind, Except.bind, pure, Except.pure]

private theorem step_shift (b0 b1 : Nat) (rest : Bytes) (acc k : Nat) :
    ipv4ChecksumStep (b0 :: b1 :: rest) acc (2 * (k + 1)) =
      ipv4ChecksumStep rest acc (2 * k) := by
  have h : 2 * (k + 1) = 2 * k + 1 + 1 := by omega
  simp [ipv4ChecksumStep, sliceFrom, h]

private theorem loop_cons2 (b0 b1 : Nat) (rest : Bytes) (acc : Nat) :
    (List.range (rest.length / 2 + 1)).foldlM
        (fun sum k => ipv4ChecksumStep (b0 :: b1 :: rest) sum (2 * k)) acc =
      (List.range (rest.length / 2)).foldlM
        (fun sum k => ipv4ChecksumStep rest sum (2 * k))
        ((acc + (b1 ||| (b0 <<< 8)) % 65536) % 2 ^ 32) := by
  rw [List.range_succ_eq_map, List.foldlM_cons, step_zero]
  simp only [bind, Except.bind]
  rw [List.foldlM_map]
  simp only [Nat.succ_eq_add_one, step_shift]

private theorem sumPart_cons2 (b0 b1 : Nat) (rest : Bytes) (acc : Nat) :
    sumPart (b0 :: b1 :: rest) acc =
      sumPart rest ((acc + (b1 ||| (b0 <<< 8)) % 65536) % 2 ^ 32) := by
  unfold sumPart
  have hlen : (b0 :: b1 :: rest).length / 2 = rest.length / 2 + 1 := by
    simp only [List.length_cons]; omega
  have hodd : (b0 :: b1 :: rest).length % 2 = rest.length % 2 := by
    simp only [List.length_cons]; omega
  rw [hlen, hodd, loop_cons2]
  have hidx : rest.length % 2 = 1 →
      index (b0 :: b1 :: rest) ((b0 :: b1 :: rest).length - 1) = index rest (rest.length - 1) := by
    intro h
    have : (b0 :: b1 :: rest).length - 1 = (rest.length - 1) + 1 + 1 := by
      simp only [List.length_cons]; omega
    rw [this]
    simp [index]
  by_cases h : rest.length % 2 = 1
  · simp only [h, if_true, hidx h]
  · simp only [h, if_false]

private theorem sumPart_eq : ∀ (header : Bytes) (acc : Nat),
    sumPart header acc = .ok (sum32 acc header)
  | [], _ => by simp [sumPart, sum32, bind, Except.bind, pure, Except.pure]
  | [_], _ => by simp [sumPart, sum32, index, bind, Except.bind, pure, Except.pure]
  | b0 :: b1 :: rest, acc => by
    rw [sumPart_cons2, sumPart_eq rest, sum32]

/-- The checksum routine never faults, and its value is the complement of the
folded accumulator. -/
private theorem ipv4Checksum_eq (header : Bytes) :
    ipv4Checksum header = .ok (0xFFFF - foldCarry 2 (sum32 0 header) % 65536) := by
  have h := sumPart_eq header 0
  unfold sumPart at h
  unfold ipv4Checksum
  by_cases hodd : header.length % 2 = 1
  · simp only [hodd, if_true] at h ⊢
    cases hl : (List.range (header.length / 2)).foldlM
        (fun sum k => ipv4ChecksumStep header sum (2 * k)) 0 with
    | error e => rw [hl] at h; cases h
    | ok v =>
      rw [hl] at h
      cases hi : index header (header.length - 1) with
      | error e => simp [hi, bind, Except.bind] at h
      | ok w =>
        simp only [hi, bind, Except.bind, pure, Except.pure] at h ⊢
        injection h with h
        rw [h]
  · simp only [hodd, if_false] at h ⊢
    cases hl : (List.range (header.length / 2)).foldlM
        (fun sum k => ipv4ChecksumStep header sum (2 * k)) 0 with
    | error e => rw [hl] at h; cases h
    | ok v =>
      rw [hl] at h
      simp only [bind, Except.bind, pure, Except.pure] at h ⊢
      injection h with h
      rw [h]

private theorem isBytes_cons {x : Nat} {l : Bytes} (h : isBytes (x :: l)) :
    x < 256 ∧ isBytes l :=
  ⟨h x (List.mem_cons_self _ _), fun y hy => h y (List.mem_cons_of_mem _ hy)⟩

private theorem isBytes_append {l1 l2 : Bytes} (h1 : isBytes l1) (h2 : isBytes l2) :
    isBytes (l1 ++ l2) := by
  intro x hx
  rcases List.mem_append.1 hx with h | h
  · exact h1 x h
  · exact h2 x h

private theorem isBytes_append_left {l1 l2 : Bytes} (h : isBytes (l1 ++ l2)) : isBytes l1 :=
  fun x hx => h x (List.mem_append_left _ hx)

private theorem isBytes_append_right {l1 l2 : Bytes} (h : isBytes (l1 ++ l2)) : isBytes l2 :=
  fun x hx => h x (List.mem_append_right _ hx)

/-- Without `uint32` overflow the accumulator is the plain sum of the words. -/
private theorem sum32_eq : ∀ (header : Bytes) (acc : Nat), isBytes header →
    acc + wordSum header < 2 ^ 32 → sum32 acc header = acc + wordSum header
  | [], acc, _, _ => by simp [sum32, wordSum]
  | [b], acc, hb, h => by
    have hb0 := (isBytes_cons hb).1
    simp only [sum32, wordSum, Nat.shiftLeft_eq] at h ⊢
    omega
  | b0 :: b1 :: rest, acc, hb, h => by
    have hb0 := (isBytes_cons hb).1
    have hb1 := (isBytes_cons (isBytes_cons hb).2).1
    have hr := (isBytes_cons (isBytes_cons hb).2).2
    simp only [wordSum] at h
    rw [sum32, be16_eq b0 b1 hb0 hb1, wordSum]
    have hm : (acc + (b0 * 256 + b1)) % 2 ^ 32 = acc + (b0 * 256 + b1) := by omega
    rw [hm, sum32_eq rest _ hr (by omega)]
    omega

private theorem wordSum_le : ∀ (header : Bytes), isBytes header →
    wordSum header ≤ 65535 * ((header.length + 1) / 2)
  | [], _ => by simp [wordSum]
  | [b], hb => by
    have hb0 := (isBytes_cons hb).1
    simp only [wordSum, List.length_singleton]
    omega
  | b0 :: b1 :: rest, hb => by
    have hb0 := (isBytes_cons hb).1
    have hb1 := (isBytes_cons (isBytes_cons hb).2).1
    have hr := wordSum_le rest (isBytes_cons (isBytes_cons hb).2).2
    simp only [wordSum, List.length_cons]
    omega

private theorem wordSum_cons2 (b0 b1 : Nat) (rest : Bytes) :
    wordSum (b0 :: b1 :: rest) = b0 * 256 + b1 + wordSum rest := by
  rw [wordSum]

private theorem wordSum_append : ∀ (pre x : Bytes), pre.length % 2 = 0 →
    wordSum (pre ++ x) = wordSum pre + wordSum x
  | [], x, _ => by simp [wordSum]
  | [b], x, h => by simp at h
  | b0 :: b1 :: rest, x, h => by
    have hr : rest.length % 2 = 0 := by
      simp only [List.length_cons] at h; omega
    have e : (b0 :: b1 :: rest) ++ x = b0 :: b1 :: (rest ++ x) := rfl
    rw [e, wordSum_cons2, wordSum_cons2, wordSum_append rest x hr]
    omega

private theorem and_ffff (s : Nat) : s &&& 0xFFFF = s % 65536 :=
  Nat.and_pow_two_sub_one_eq_mod s 16

/-- The carry loop on a `uint32`, in closed form. -/
private theorem foldCarry_two (s : Nat) (h : s < 2 ^ 32) :
    foldCarry 2 s =
      if s < 65536 then s
      else if s % 65536 + s / 65536 < 65536 then s % 65536 + s / 65536
      else s % 65536 + s / 65536 - 65535 := by
  have e16 : (2 : Nat) ^ 16 = 65536 := by norm_num
  have e32 : (2 : Nat) ^ 32 = 4294967296 := by norm_num
  rw [e32] at h
  simp only [foldCarry, and_ffff, Nat.shiftRight_eq_div_pow, e16, e32]
  have ht : (s % 65536 + s / 65536) % 4294967296 = s % 65536 + s / 65536 :=
    Nat.mod_eq_of_lt (by omega)
  rw [ht]
  obtain hsmall | hbig := Nat.lt_or_ge s 65536
  · have c1 : ¬ (s / 65536 ≠ 0) := by omega
    rw [if_neg c1, if_pos hsmall]
  · have c1 : s / 65536 ≠ 0 := by omega
    have c2 : ¬ s < 65536 := by omega
    rw [if_pos c1, if_neg c2]
    have htb : s % 65536 + s / 65536 ≤ 131070 := by omega
    generalize s % 65536 + s / 65536 = t at *
    obtain h2 | h2 := Nat.lt_or_ge t 65536
    · have c3 : ¬ (t / 65536 ≠ 0) := by omega
      rw [if_neg c3, if_pos h2]
    · have hd : t / 65536 = 1 := by omega
      have hm : t % 65536 = t - 65536 := by omega
      have c3 : t / 65536 ≠ 0 := by omega
      have c4 : ¬ t < 65536 := by omega
      rw [if_pos c3, if_neg c4, hd, hm]
      omega

/-- The carry loop has ended after two rounds on any `uint32`. -/
private theorem foldCarry_exit (s : Nat) (h : s < 2 ^ 32) :
    foldCarry 2 s >>> 16 = 0 ∧ foldCarry 2 s < 65536 := by
  have h2 : foldCarry 2 s < 65536 := by
    rw [foldCarry_two s h]
    split_ifs <;> omega
  refine ⟨?_, h2⟩
  rw [Nat.shiftRight_eq_div_pow]
  exact Nat.div_eq_of_lt h2

private theorem foldCarry_mod (s : Nat) (h : s < 2 ^ 32) :
    foldCarry 2 s % 65535 = s % 65535 := by
  rw [foldCarry_two s h]
  split_ifs <;> omega

private theorem foldCarry_eq_zero (s : Nat) (h : s < 2 ^ 32) :
    foldCarry 2 s = 0 ↔ s = 0 := by
  rw [foldCarry_two s h]
  split_ifs <;> omega

/-- A positive multiple of `0xFFFF` folds to `0xFFFF`. -/
private theorem foldCarry_multiple (s : Nat) (h : s < 2 ^ 32) (hpos : 0 < s)
    (hm : s % 65535 = 0) : foldCarry 2 s = 65535 := by
  have h1 := (foldCarry_exit s h).2
  have h2 := foldCarry_mod s h
  have h3 := foldCarry_eq_zero s h
  omega

/-- On a header of at most 60 bytes the checksum is the complement of the
folded sum of its words. -/
private theorem ipv4Checksum_value (header : Bytes) (hb : isBytes header)
    (hlen : header.length ≤ 60) :
    ipv4Checksum header = .ok (0xFFFF - foldCarry 2 (wordSum header)) ∧
      wordSum header < 2 ^ 32 := by
  have hle := wordSum_le header hb
  have hlt : wordSum header < 2 ^ 32 := by
    have : (header.length + 1) / 2 ≤ 30 := by omega
    have e32 : (2 : Nat) ^ 32 = 4294967296 := by norm_num
    omega
  refine ⟨?_, hlt⟩
  rw [ipv4Checksum_eq, sum32_eq header 0 hb (by omega), Nat.zero_add,
    Nat.mod_eq_of_lt (foldCarry_exit _ hlt).2]

/-- Sum of the words of a header around its checksum field. -/
private theorem wordSum_field (pre post : Bytes) (a b : Nat) (hpre : pre.length = 10) :
    wordSum (pre ++ a :: b :: post) = wordSum pre + wordSum post + (a * 256 + b) := by
  rw [wordSum_append pre _ (by omega), wordSum_cons2]
  omega

private theorem isBytes_field {pre post : Bytes} {a b : Nat} (hpre : isBytes pre)
    (hpost : isBytes post) (ha : a < 256) (hb : b < 256) :
    isBytes (pre ++ a :: b :: post) := by
  intro x hx
  rcases List.mem_append.1 hx with h | h
  · exact hpre x h
  · rcases List.mem_cons.1 h with rfl | h
    · exact ha
    · rcases List.mem_cons.1 h with rfl | h
      · exact hb
      · exact hpost x h

/-- Writing the computed checksum into the zeroed field gives a header whose
words fold to `0xFFFF`. -/
private theorem checksum_fill (pre post : Bytes) (hpre : pre.length = 10)
    (hb1 : isBytes pre) (hb2 : isBytes post) (hlen : pre.length + 2 + post.length ≤ 60)
    (hpos : 0 < wordSum pre + wordSum post) (c : Nat)
    (hc : ipv4Checksum (pre ++ 0 :: 0 :: post) = .ok c) :
    ipv4Checksum (pre ++ ((c >>> 8) % 256) :: (c % 256) :: post) = .ok 0 ∧
      foldCarry 2 (wordSum (pre ++ ((c >>> 8) % 256) :: (c % 256) :: post)) = 0xFFFF := by
  have hz : isBytes (pre ++ 0 :: 0 :: post) :=
    isBytes_field hb1 hb2 (by omega) (by omega)
  have hv := ipv4Checksum_value _ hz (by simp only [List.length_append, List.length_cons]; omega)
  rw [wordSum_field pre post 0 0 hpre] at hv
  obtain ⟨hv1, hv2⟩ := hv
  rw [hv1] at hc
  injection hc with hc
  have e32 : (2 : Nat) ^ 32 = 4294967296 := by norm_num
  rw [e32] at hv2
  have hS0 : wordSum pre + wordSum post + (0 * 256 + 0) = wordSum pre + wordSum post := by omega
  rw [hS0] at hc hv2
  have hlt : wordSum pre + wordSum post < 2 ^ 32 := by omega
  have f1 := (foldCarry_exit _ hlt).2
  have f2 := foldCarry_mod _ hlt
  have f3 := foldCarry_eq_zero _ hlt
  generalize foldCarry 2 (wordSum pre + wordSum post) = f0 at hc f1 f2 f3
  have hc8 : c >>> 8 = c / 256 := by rw [Nat.shiftRight_eq_div_pow]
  have hword : (c >>> 8) % 256 * 256 + c % 256 = c := by rw [hc8]; omega
  have h1 : isBytes (pre ++ ((c >>> 8) % 256) :: (c % 256) :: post) :=
    isBytes_field hb1 hb2 (Nat.mod_lt _ (by omega)) (Nat.mod_lt _ (by omega))
  have hv' := ipv4Checksum_value _ h1
    (by simp only [List.length_append, List.length_cons]; omega)
  rw [wordSum_field pre post _ _ hpre, hword] at hv' ⊢
  have hfold : foldCarry 2 (wordSum pre + wordSum post + c) = 65535 := by
    apply foldCarry_multiple
    · omega
    · omega
    · omega
  rw [hfold] at hv'
  exact ⟨hv'.1, hfold⟩

/-- Recomputing the checksum of a valid header over the zeroed field gives back
the stored field, unless that field is `0xFFFF`. -/
private theorem checksum_roundtrip (pre post : Bytes) (c0 c1 : Nat) (hpre : pre.length = 10)
    (hb : isBytes (pre ++ c0 :: c1 :: post)) (hlen : pre.length + 2 + post.length ≤ 60)
    (hvalid : ipv4Checksum (pre ++ c0 :: c1 :: post) = .ok 0)
    (hne : c0 * 256 + c1 ≠ 0xFFFF) :
    ipv4Checksum (pre ++ 0 :: 0 :: post) = .ok (c0 * 256 + c1) := by
  have hb1 : isBytes pre := isBytes_append_left hb
  have hb2' := isBytes_append_right hb
  have hc0 := (isBytes_cons hb2').1
  have hc1 := (isBytes_cons (isBytes_cons hb2').2).1
  have hb2 : isBytes post := (isBytes_cons (isBytes_cons hb2').2).2
  have hv := ipv4Checksum_value _ hb
    (by simp only [List.length_append, List.length_cons]; omega)
  rw [wordSum_field pre post c0 c1 hpre] at hv
  obtain ⟨hv1, hv2⟩ := hv
  rw [hv1] at hvalid
  injection hvalid with hvalid
  have hz : isBytes (pre ++ 0 :: 0 :: post) :=
    isBytes_field hb1 hb2 (by omega) (by omega)
  have hw := ipv4Checksum_value _ hz
    (by simp only [List.length_append, List.length_cons]; omega)
  rw [wordSum_field pre post 0 0 hpre] at hw
  obtain ⟨hw1, hw2⟩ := hw
  rw [hw1]
  have hS0 : wordSum pre + wordSum post + (0 * 256 + 0) = wordSum pre + wordSum post := by omega
  rw [hS0] at hw2 ⊢
  have g1 := (foldCarry_exit _ hv2).2
  have g2 := foldCarry_mod _ hv2
  have g3 := foldCarry_eq_zero _ hv2
  have f1 := (foldCarry_exit _ hw2).2
  have f2 := foldCarry_mod _ hw2
  have f3 := foldCarry_eq_zero _ hw2
  generalize foldCarry 2 (wordSum pre + wordSum post + (c0 * 256 + c1)) = f at hvalid g1 g2 g3
  generalize foldCarry 2 (wordSum pre + wordSum post) = f0 at f1 f2 f3 ⊢
  generalize wordSum pre + wordSum post = S0 at *
  congr 1
  omega

private theorem getD_field (pre post : Bytes) (c0 c1 : Nat) (hpre : pre.length = 10) :
    (pre ++ c0 :: c1 :: post).getD 10 0 = c0 ∧ (pre ++ c0 :: c1 :: post).getD 11 0 = c1 := by
  constructor
  · rw [List.getD_eq_getElem?_getD, List.getElem?_append_right (by omega), hpre]; rfl
  · rw [List.getD_eq_getElem?_getD, List.getElem?_append_right (by omega), hpre]; simp

/-- A slice of at least twelve bytes, split around bytes 10 and 11. -/
private theorem split_field (h : Bytes) (hlen : 12 ≤ h.length) :
    ∃ pre c0 c1 post, h = pre ++ c0 :: c1 :: post ∧ pre.length = 10 ∧
      c0 = h.getD 10 0 ∧ c1 = h.getD 11 0 := by
  have h1 : h = h.take 10 ++ h.drop 10 := (List.take_append_drop 10 h).symm
  have hl : (h.take 10).length = 10 := by rw [List.length_take]; omega
  have hd : (h.drop 10).length = h.length - 10 := List.length_drop 10 h
  match hm : h.drop 10, hd with
  | [], hd => simp at hd; omega
  | [_], hd => simp at hd; omega
  | c0 :: c1 :: post, _ =>
    have e : h = h.take 10 ++ c0 :: c1 :: post := by rw [← hm]; exact h1
    have g := getD_field (h.take 10) post c0 c1 hl
    rw [← e] at g
    exact ⟨h.take 10, c0, c1, post, e, hl, g.1.symm, g.2.symm⟩

private theorem set_field (pre post : Bytes) (c0 c1 a b : Nat) (hpre : pre.length = 10) :
    ((pre ++ c0 :: c1 :: post).set 10 a).set 11 b = pre ++ a :: b :: post := by
  have e10 : (pre ++ c0 :: c1 :: post).set 10 a = pre ++ a :: c1 :: post := by
    rw [List.set_append_right _ _ (by omega), hpre]; rfl
  have e11 : (pre ++ a :: c1 :: post).set 11 b = pre ++ a :: b :: post := by
    rw [List.set_append_right _ _ (by omega), hpre]; rfl
  rw [e10, e11]

private theorem index_ok {b : Bytes} {i : Nat} (h : i < b.length) :
    index b i = .ok (b.getD i 0) := by
  unfold index
  rw [List.getD_eq_getElem?_getD, List.getElem?_eq_getElem h]
  rfl

private theorem sliceFrom_ok {b : Bytes} {lo : Nat} (h : lo ≤ b.length) :
    sliceFrom b lo = .ok (b.drop lo) := by
  unfold sliceFrom; rw [if_pos h]

private theorem sliceTo_ok {b : Bytes} {hi : Nat} (h : hi ≤ b.length) :
    sliceTo b hi = .ok (b.take hi) := by
  unfold sliceTo; rw [if_pos h]

private theorem sliceRange_ok {b : Bytes} {lo hi : Nat} (h1 : lo ≤ hi) (h2 : hi ≤ b.length) :
    sliceRange b lo hi = .ok ((b.take hi).drop lo) := by
  unfold sliceRange; rw [if_pos ⟨h1, h2⟩]

private theorem assign_ok {b : Bytes} {i : Nat} (v : Nat) (h : i < b.length) :
    assign b i v = .ok (b.set i v) := by
  unfold assign; rw [if_pos h]

private theorem getD_drop (b : Bytes) (k i : Nat) : (b.drop k).getD i 0 = b.getD (k + i) 0 := by
  simp [List.getD_eq_getElem?_getD, List.getElem?_drop]

private theorem and_0f (x : Nat) : x &&& 0x0F = x % 16 :=
  Nat.and_pow_two_sub_one_eq_mod x 4

private theorem magic_bytes :
    (((KidosMagic &&& 0xFFFF) % 65536) >>> 8) % 256 = 0x44 ∧
      (KidosMagic &&& 0xFFFF) % 65536 % 256 = 0x53 := by decide

/-- What `addMagicFlag` does to a frame that passes its guards. -/
private theorem addMagicFlag_ok (frame : Bytes) (hlen : 34 ≤ frame.length)
    (h12 : frame.getD 12 0 = 0x08) (h13 : frame.getD 13 0 = 0x00)
    (hihl : 5 ≤ frame.getD 14 0 % 16)
    (hfit : 14 + frame.getD 14 0 % 16 * 4 ≤ frame.length) :
    ∃ c, ipv4Checksum ((markedZero (frame.drop 14)).take (frame.getD 14 0 % 16 * 4)) = .ok c ∧
      addMagicFlag frame = .ok (frame.take 14 ++ markedWith (frame.drop 14) c) := by
  obtain ⟨c, hc⟩ : ∃ c, ipv4Checksum
      ((markedZero (frame.drop 14)).take (frame.getD 14 0 % 16 * 4)) = .ok c :=
    ⟨_, ipv4Checksum_eq _⟩
  refine ⟨c, hc, ?_⟩
  have hd : (frame.drop 14).length = frame.length - 14 := List.length_drop 14 frame
  have hb0 : (frame.drop 14).getD 0 0 = frame.getD 14 0 := getD_drop frame 14 0
  unfold addMagicFlag
  rw [if_neg (by omega), index_ok (by omega : 12 < frame.length), h12]
  simp only [bind, Except.bind, pure, Except.pure, ne_eq, not_true_eq_false, if_false]
  rw [index_ok (by omega : 13 < frame.length), h13]
  simp only [ne_eq, not_true_eq_false, if_false]
  rw [sliceFrom_ok (by omega : 14 ≤ frame.length)]
  simp only []
  rw [if_neg (by omega), index_ok (by omega : 0 < (frame.drop 14).length), hb0]
  simp only [and_0f]
  rw [if_neg (by omega), magic_bytes.1, magic_bytes.2]
  rw [assign_ok _ (by omega)]
  simp only []
  rw [assign_ok _ (by rw [List.length_set]; omega)]
  simp only []
  rw [assign_ok _ (by rw [List.length_set, List.length_set]; omega)]
  simp only []
  rw [assign_ok _ (by rw [List.length_set, List.length_set, List.length_set]; omega)]
  simp only []
  rw [sliceTo_ok (by simp only [List.length_set]; omega)]
  simp only []
  have hc' := hc
  unfold markedZero at hc'
  rw [hc']
  simp only []
  rw [assign_ok _ (by simp only [List.length_set]; omega)]
  simp only []
  rw [assign_ok _ (by simp only [List.length_set]; omega)]
  rfl

private theorem wordSum_ge : ∀ (l : Bytes) (k : Nat), 256 * l.getD (2 * k) 0 ≤ wordSum l
  | [], k => by simp
  | [b], 0 => by simp [wordSum]; omega
  | [b], k + 1 => by
    have : 2 * (k + 1) = 2 * k + 1 + 1 := by omega
    simp [this]
  | b0 :: b1 :: rest, 0 => by simp [wordSum]; omega
  | b0 :: b1 :: rest, k + 1 => by
    have e : 2 * (k + 1) = 2 * k + 1 + 1 := by omega
    have ih := wordSum_ge rest k
    rw [wordSum_cons2, e]
    simp only [List.getD_eq_getElem?_getD, List.getElem?_cons_succ] at ih ⊢
    omega

private theorem isBytes_set {l : Bytes} (h : isBytes l) (i v : Nat) (hv : v < 256) :
    isBytes (l.set i v) := by
  intro x hx
  rcases List.mem_or_eq_of_mem_set hx with h1 | h1
  · exact h x h1
  · rw [h1]; exact hv

private theorem isBytes_take {l : Bytes} (h : isBytes l) (n : Nat) : isBytes (l.take n) :=
  fun x hx => h x (List.mem_of_mem_take hx)

private theorem isBytes_drop {l : Bytes} (h : isBytes l) (n : Nat) : isBytes (l.drop n) :=
  fun x hx => h x (List.mem_of_mem_drop hx)

/-- The header of a marked frame, split around its checksum field. -/
private theorem marked_header (ip : Bytes) (n : Nat) (hb : isBytes ip) (hn : 20 ≤ n)
    (hfit : n ≤ ip.length) :
    ∃ pre post, pre.length = 10 ∧ isBytes pre ∧ isBytes post ∧
      pre.length + 2 + post.length = n ∧ 0 < wordSum pre + wordSum post ∧
      (markedZero ip).take n = pre ++ 0 :: 0 :: post ∧
      ∀ c, (markedWith ip c).take n = pre ++ ((c >>> 8) % 256) :: (c % 256) :: post := by
  have hH : (((ip.set 4 0x44).set 5 0x53).take n).length = n := by
    rw [List.length_take, List.length_set, List.length_set]; omega
  obtain ⟨pre, c0, c1, post, hsplit, hpre, -, -⟩ :=
    split_field (((ip.set 4 0x44).set 5 0x53).take n) (by omega)
  have hbH : isBytes (((ip.set 4 0x44).set 5 0x53).take n) :=
    isBytes_take (isBytes_set (isBytes_set hb 4 0x44 (by omega)) 5 0x53 (by omega)) n
  rw [hsplit] at hbH hH
  have hb1 : isBytes pre := isBytes_append_left hbH
  have hb2 : isBytes post := (isBytes_cons (isBytes_cons (isBytes_append_right hbH)).2).2
  have h4 : pre.getD 4 0 = 0x44 := by
    have e1 : (pre ++ c0 :: c1 :: post).getD 4 0 = pre.getD 4 0 := by
      simp only [List.getD_eq_getElem?_getD]
      rw [List.getElem?_append_left (by omega)]
    rw [← e1, ← hsplit]
    simp only [List.getD_eq_getElem?_getD, List.getElem?_take, List.getElem?_set,
      List.length_set]
    rw [if_pos (by omega), if_neg (by omega), if_pos trivial, if_pos (by omega)]
    rfl
  have hge := wordSum_ge pre 2
  refine ⟨pre, post, hpre, hb1, hb2, ?_, ?_, ?_, ?_⟩
  · simp only [List.length_append, List.length_cons] at hH
    omega
  · have e4 : 2 * 2 = 4 := rfl
    rw [e4, h4] at hge
    omega
  · unfold markedZero
    rw [List.set_take, List.set_take, hsplit, set_field pre post c0 c1 0 0 hpre]
  · intro c
    unfold markedWith markedZero
    rw [List.set_take, List.set_take, List.set_take, List.set_take, hsplit,
      set_field pre post c0 c1 0 0 hpre, set_field pre post 0 0 _ _ hpre]

end Checksum

/-- C2. Marker checksum validity: on every frame that passes the guards of the
marker step (at least 34 bytes, EtherType `08 00`, IHL at least 5, the IHL*4
header bytes inside the frame), `addMagicFlag` returns a frame of the same
length with the same IHL whose IPv4 header, all IHL*4 bytes of it, has words
that fold to `0xFFFF`, and on which `ipv4Checksum` returns 0. -/
theorem addMagicFlag_checksum_valid (frame : Bytes) (hb : isBytes frame)
    (hlen : 34 ≤ frame.length)
    (h12 : frame.getD 12 0 = 0x08) (h13 : frame.getD 13 0 = 0x00)
    (hihl : 5 ≤ frame.getD 14 0 % 16)
    (hfit : 14 + frame.getD 14 0 % 16 * 4 ≤ frame.length) :
    ∃ marked, addMagicFlag frame = .ok marked ∧
      marked.length = frame.length ∧
      marked.getD 14 0 = frame.getD 14 0 ∧
      ((marked.drop 14).take (frame.getD 14 0 % 16 * 4)).length = frame.getD 14 0 % 16 * 4 ∧
      foldCarry 2 (wordSum ((marked.drop 14).take (frame.getD 14 0 % 16 * 4))) = 0xFFFF ∧
      ipv4Checksum ((marked.drop 14).take (frame.getD 14 0 % 16 * 4)) = .ok 0 := by
  obtain ⟨c, hc, hm⟩ := addMagicFlag_ok frame hlen h12 h13 hihl hfit
  have hd : (frame.drop 14).length = frame.length - 14 := List.length_drop 14 frame
  have ht : (frame.take 14).length = 14 := by rw [List.length_take]; omega
  obtain ⟨pre, post, hpre, hb1, hb2, hn, hpos, hz, hw⟩ :=
    marked_header (frame.drop 14) (frame.getD 14 0 % 16 * 4) (isBytes_drop hb 14)
      (by omega) (by omega)
  have hdrop : (frame.take 14 ++ markedWith (frame.drop 14) c).drop 14 =
      markedWith (frame.drop 14) c := by
    rw [List.drop_append_of_le_length (by omega), List.drop_of_length_le (by omega)]
    rfl
  have hmlen : (markedWith (frame.drop 14) c).length = frame.length - 14 := by
    simp only [markedWith, markedZero, List.length_set]; exact hd
  rw [hz] at hc
  have hfill := checksum_fill pre post hpre hb1 hb2 (by omega) hpos c hc
  refine ⟨_, hm, ?_, ?_, ?_, ?_, ?_⟩
  · rw [List.length_append, ht, hmlen]; omega
  · simp only [List.getD_eq_getElem?_getD]
    rw [List.getElem?_append_right (by omega), ht]
    simp only [markedWith, markedZero, Nat.sub_self, List.getElem?_set]
    rw [if_neg (by omega), if_neg (by omega), if_neg (by omega), if_neg (by omega),
      if_neg (by omega), if_neg (by omega), List.getElem?_drop]
  · rw [hdrop, List.length_take, hmlen]; omega
  · rw [hdrop, hw c]; exact hfill.2
  · rw [hdrop, hw c]; exact hfill.1

/-- C2 witness: a frame with IHL 6 passes the guards; its 24 header bytes
verify after the marker step. -/
theorem addMagicFlag_checksum_valid_witness :
    ∃ marked, addMagicFlag sampleOptionsFrame = .ok marked ∧
      marked.length = sampleOptionsFrame.length ∧
      marked.getD 14 0 = 0x46 ∧
      ((marked.drop 14).take 24).length = 24 ∧
      foldCarry 2 (wordSum ((marked.drop 14).take 24)) = 0xFFFF ∧
      ipv4Checksum ((marked.drop 14).take 24) = .ok 0 :=
  addMagicFlag_checksum_valid sampleOptionsFrame (by decide) (by decide) (by decide)
    (by decide) (by decide) (by decide)

/-- C3, as the specification states it, fails: `sampleFrame` passes the guards
of the marker step, and afterwards its bytes 16 and 17 (the total-length field)
still hold `00 29`, not `49 44`; the marker `44 53` is in bytes 18 and 19. -/
theorem addMagicFlag_marker_counterexample :
    (34 ≤ sampleFrame.length ∧ sampleFrame.getD 12 0 = 0x08 ∧ sampleFrame.getD 13 0 = 0x00 ∧
      5 ≤ sampleFrame.getD 14 0 % 16 ∧
      14 + sampleFrame.getD 14 0 % 16 * 4 ≤ sampleFrame.length) ∧
    (addMagicFlag sampleFrame).map
      (fun m => (m.getD 16 0, m.getD 17 0, m.getD 18 0, m.getD 19 0)) =
        .ok (0x00, 0x29, 0x44, 0x53) ∧
    ¬ ∃ marked, addMagicFlag sampleFrame = .ok marked ∧
      marked.getD 16 0 = 0x49 ∧ marked.getD 17 0 = 0x44 := by
  refine ⟨by decide, by decide, ?_⟩
  rintro ⟨marked, hm, h16, -⟩
  have h : addMagicFlag sampleFrame = .ok
      [2, 0, 0, 0, 0, 1, 2, 0, 0, 0, 0, 2, 8, 0, 69, 0, 0, 41, 68, 83, 64, 0, 64, 17, 234, 106,
       10, 0, 0, 5, 1, 1, 1, 1, 212, 49, 0, 53, 0, 21, 0, 0, 18, 52, 1, 0, 0, 1, 0, 0, 0, 0,
       0, 0, 0] := by decide
  rw [h] at hm
  injection hm with hm
  subst hm
  exact absurd h16 (by decide)

/-- C3, amended. Marker value and position: on every frame that passes the
guards of the marker step, after `addMagicFlag` the IPv4 identification field
(IP-header octets 4-5, frame bytes 18-19) holds the low 16 bits of
`KIDS = 0x4B494453`, that is the bytes `44 53` (`0x4453`); the total-length
field (frame bytes 16-17) is unchanged. -/
theorem addMagicFlag_marker (frame : Bytes) (hlen : 34 ≤ frame.length)
    (h12 : frame.getD 12 0 = 0x08) (h13 : frame.getD 13 0 = 0x00)
    (hihl : 5 ≤ frame.getD 14 0 % 16)
    (hfit : 14 + frame.getD 14 0 % 16 * 4 ≤ frame.length) :
    ∃ marked, addMagicFlag frame = .ok marked ∧
      marked.getD 18 0 = 0x44 ∧ marked.getD 19 0 = 0x53 ∧
      marked.getD 18 0 * 256 + marked.getD 19 0 = KidosMagic % 65536 ∧
      marked.getD 16 0 = frame.getD 16 0 ∧ marked.getD 17 0 = frame.getD 17 0 := by
  obtain ⟨c, -, hm⟩ := addMagicFlag_ok frame hlen h12 h13 hihl hfit
  have hd : (frame.drop 14).length = frame.length - 14 := List.length_drop 14 frame
  have ht : (frame.take 14).length = 14 := by rw [List.length_take]; omega
  have hget : ∀ j, (frame.take 14 ++ markedWith (frame.drop 14) c).getD (14 + j) 0 =
      (markedWith (frame.drop 14) c).getD j 0 := by
    intro j
    simp only [List.getD_eq_getElem?_getD]
    rw [List.getElem?_append_right (by omega), ht, Nat.add_sub_cancel_left]
  have g18 : (frame.take 14 ++ markedWith (frame.drop 14) c).getD 18 0 = 0x44 := by
    rw [hget 4]
    simp only [List.getD_eq_getElem?_getD, markedWith, markedZero, List.getElem?_set,
      List.length_set]
    rw [if_neg (by omega), if_neg (by omega), if_neg (by omega), if_neg (by omega),
      if_neg (by omega), if_pos trivial, if_pos (by omega)]
    rfl
  have g19 : (frame.take 14 ++ markedWith (frame.drop 14) c).getD 19 0 = 0x53 := by
    rw [hget 5]
    simp only [List.getD_eq_getElem?_getD, markedWith, markedZero, List.getElem?_set,
      List.length_set]
    rw [if_neg (by omega), if_neg (by omega), if_neg (by omega), if_neg (by omega),
      if_pos trivial, if_pos (by omega)]
    rfl
  have gsame : ∀ j, j < 4 → (frame.take 14 ++ markedWith (frame.drop 14) c).getD (14 + j) 0 =
      frame.getD (14 + j) 0 := by
    intro j hj
    rw [hget j]
    simp only [List.getD_eq_getElem?_getD, markedWith, markedZero, List.getElem?_set]
    rw [if_neg (by omega), if_neg (by omega), if_neg (by omega), if_neg (by omega),
      if_neg (by omega), if_neg (by omega), List.getElem?_drop]
  refine ⟨_, hm, g18, g19, ?_, gsame 2 (by omega), gsame 3 (by omega)⟩
  rw [g18, g19]
  decide

/-- C3 witness: `sampleFrame` passes the guards of the marker step. -/
theorem addMagicFlag_marker_witness :
    ∃ marked, addMagicFlag sampleFrame = .ok marked ∧
      marked.getD 18 0 = 0x44 ∧ marked.getD 19 0 = 0x53 ∧
      marked.getD 18 0 * 256 + marked.getD 19 0 = KidosMagic % 65536 ∧
      marked.getD 16 0 = 0x00 ∧ marked.getD 17 0 = 0x29 :=
  addMagicFlag_marker sampleFrame (by decide) (by decide) (by decide) (by decide) (by decide)

/-- C4, as the specification states it, fails: `onesHeader` is a 20-byte IPv4
header whose stored checksum `0xFFFF` verifies, yet the checksum of the header
with bytes 10-11 zeroed is `0x0000`. -/
theorem ipv4Checksum_roundtrip_counterexample :
    isBytes onesHeader ∧ onesHeader.length = 20 ∧
    ipv4Checksum onesHeader = .ok 0 ∧
    onesHeader.getD 10 0 * 256 + onesHeader.getD 11 0 = 0xFFFF ∧
    ipv4Checksum ((onesHeader.set 10 0).set 11 0) = .ok 0 ∧
    ipv4Checksum ((onesHeader.set 10 0).set 11 0) ≠
      .ok (onesHeader.getD 10 0 * 256 + onesHeader.getD 11 0) := by
  decide

/-- C4, amended. Internet checksum round trip: for every header `h` of length
20, 24, ..., 60 whose stored checksum verifies (`ipv4Checksum h` is 0) and whose
checksum field is not `0xFFFF`, `ipv4Checksum` of `h` with bytes 10-11 set to
zero is the big-endian value stored in bytes 10-11 of `h`. -/
theorem ipv4Checksum_roundtrip (h : Bytes) (hb : isBytes h)
    (hlen : 20 ≤ h.length ∧ h.length ≤ 60 ∧ h.length % 4 = 0)
    (hvalid : ipv4Checksum h = .ok 0)
    (hne : h.getD 10 0 * 256 + h.getD 11 0 ≠ 0xFFFF) :
    ipv4Checksum ((h.set 10 0).set 11 0) = .ok (h.getD 10 0 * 256 + h.getD 11 0) := by
  obtain ⟨pre, c0, c1, post, hsplit, hpre, h0, h1⟩ := split_field h (by omega)
  rw [← h0, ← h1] at hne ⊢
  have hl : pre.length + 2 + post.length = h.length := by
    rw [hsplit]; simp only [List.length_append, List.length_cons]; omega
  rw [hsplit] at hb hvalid ⊢
  rw [set_field pre post c0 c1 0 0 hpre]
  exact checksum_roundtrip pre post c0 c1 hpre hb (by omega) hvalid hne

/-- C4 witness: `sampleHeader` is valid and stores `0xB861`. -/
theorem ipv4Checksum_roundtrip_witness :
    ipv4Checksum sampleHeader = .ok 0 ∧
    ipv4Checksum ((sampleHeader.set 10 0).set 11 0) = .ok 0xB861 :=
  ⟨by decide,
   ipv4Checksum_roundtrip sampleHeader (by decide) (by decide) (by decide) (by decide)⟩

/-! ## Parser -/

section Parser

private theorem slice2 (frame : Bytes) (lo : Nat) (h : lo + 2 ≤ frame.length) :
    (frame.take (lo + 2)).drop lo = [frame.getD lo 0, frame.getD (lo + 1) 0] := by
  apply List.ext_getElem?
  intro i
  rw [List.getElem?_drop, List.getElem?_take]
  match i with
  | 0 =>
    rw [if_pos (by omega)]
    simp only [Nat.add_zero, List.getD_eq_getElem?_getD, List.getElem?_cons_zero]
    rw [List.getElem?_eq_getElem (by omega)]; rfl
  | 1 =>
    rw [if_pos (by omega)]
    simp only [List.getD_eq_getElem?_getD, List.getElem?_cons_succ, List.getElem?_cons_zero]
    rw [List.getElem?_eq_getElem (by omega)]; rfl
  | k + 2 =>
    rw [if_neg (by omega)]
    simp

private theorem sliceRange2 (frame : Bytes) (lo hi : Nat) (hhi : hi = lo + 2)
    (h : hi ≤ frame.length) :
    sliceRange frame lo hi = .ok [frame.getD lo 0, frame.getD (lo + 1) 0] := by
  subst hhi
  rw [sliceRange_ok (by omega) h, slice2 frame lo h]

private theorem getD_lt (frame : Bytes) (hb : isBytes frame) (i : Nat) :
    frame.getD i 0 < 256 := by
  rw [List.getD_eq_getElem?_getD]
  by_cases h : i < frame.length
  · rw [List.getElem?_eq_getElem h]
    exact hb _ (List.getElem_mem _)
  · rw [List.getElem?_eq_none (by omega)]
    simp

private theorem uint16_pair (frame : Bytes) (hb : isBytes frame) (lo : Nat) :
    binary.Uint16 [frame.getD lo 0, frame.getD (lo + 1) 0] = .ok (be16At frame lo) := by
  rw [uint16_cons, be16_eq _ _ (getD_lt frame hb lo) (getD_lt frame hb (lo + 1))]
  rfl

/-- The EtherType word is `0x0800` exactly when bytes 12 and 13 are `08 00`. -/
private theorem etherType_iff (frame : Bytes) (hb : isBytes frame) :
    be16At frame 12 = 0x0800 ↔ frame.getD 12 0 = 0x08 ∧ frame.getD 13 0 = 0x00 := by
  have h0 := getD_lt frame hb 12
  have h1 := getD_lt frame hb 13
  show frame.getD 12 0 * 256 + frame.getD 13 0 = 0x0800 ↔ _
  constructor
  · intro h; constructor <;> omega
  · rintro ⟨a, b⟩; rw [a, b]

/-- The parser as a chain of tests on the bytes of the frame: no index or slice
expression faults. -/
private theorem Parse_chain (caseTable : Int → Int) (unpack : Bytes → Option dns.Msg)
    (frame : Bytes) (hb : isBytes frame) :
    dns.Parse caseTable unpack frame =
      if frame.length < 14 then .error .ErrNotDNS
      else if be16At frame 12 ≠ 0x0800 then .error .ErrNotDNS
      else if frame.length < 34 then .error .ErrNotDNS
      else if ihlOf frame * 4 < 20 then .error .ErrNotDNS
      else if frame.length < udpOffsetOf frame then .error .ErrNotDNS
      else if frame.getD 23 0 ≠ 17 then .error .ErrNotDNS
      else if frame.length < udpOffsetOf frame + 8 then .error .ErrNotDNS
      else if be16At frame (udpOffsetOf frame) ≠ 53 ∧
          be16At frame (udpOffsetOf frame + 2) ≠ 53 then .error .ErrNotDNS
      else if udpLenOf frame < 8 ∨ frame.length < udpOffsetOf frame + udpLenOf frame then
        .error .ErrNotDNS
      else if (payloadOf frame).length = 0 then .error .ErrNotDNS
      else
        match unpack (payloadOf frame) with
        | none => .error .unpackError
        | some msg => .ok (packetOf caseTable frame msg) := by
  unfold dns.Parse
  simp only [bind, Except.bind]
  by_cases c1 : frame.length < 14
  · rw [if_pos c1, if_pos c1]
  rw [if_neg c1, if_neg c1, sliceRange2 frame 12 14 rfl (by omega)]
  simp only []
  rw [uint16_pair frame hb 12]
  simp only []
  by_cases c2 : be16At frame 12 ≠ 0x0800
  · rw [if_pos c2, if_pos c2]
  rw [if_neg c2, if_neg c2]
  by_cases c3 : frame.length < 34
  · rw [if_pos c3, if_pos c3]
  rw [if_neg c3, if_neg c3, index_ok (by omega : 14 < frame.length)]
  simp only [and_0f]
  have e1 : frame.getD 14 0 % 16 = ihlOf frame := rfl
  have e2 : 14 + ihlOf frame * 4 = udpOffsetOf frame := rfl
  rw [e1]
  by_cases c4 : ihlOf frame * 4 < 20
  · rw [if_pos c4, if_pos c4]
  rw [if_neg c4, if_neg c4, e2]
  by_cases c5 : frame.length < udpOffsetOf frame
  · rw [if_pos c5, if_pos c5]
  rw [if_neg c5, if_neg c5, index_ok (by omega : 23 < frame.length)]
  simp only []
  by_cases c6 : frame.getD 23 0 ≠ 17
  · rw [if_pos c6, if_pos c6]
  rw [if_neg c6, if_neg c6]
  by_cases c7 : frame.length < udpOffsetOf frame + 8
  · rw [if_pos c7, if_pos c7]
  rw [if_neg c7, if_neg c7,
    sliceRange2 frame (udpOffsetOf frame) (udpOffsetOf frame + 2) rfl (by omega)]
  simp only []
  rw [uint16_pair frame hb (udpOffsetOf frame)]
  simp only []
  rw [sliceRange2 frame (udpOffsetOf frame + 2) (udpOffsetOf frame + 4) rfl (by omega)]
  simp only []
  rw [uint16_pair frame hb (udpOffsetOf frame + 2)]
  simp only []
  by_cases c8 : be16At frame (udpOffsetOf frame) ≠ 53 ∧ be16At frame (udpOffsetOf frame + 2) ≠ 53
  · rw [if_pos c8, if_pos c8]
  rw [if_neg c8, if_neg c8,
    sliceRange2 frame (udpOffsetOf frame + 4) (udpOffsetOf frame + 6) rfl (by omega)]
  simp only []
  rw [uint16_pair frame hb (udpOffsetOf frame + 4)]
  simp only []
  have e3 : be16At frame (udpOffsetOf frame + 4) = udpLenOf frame := rfl
  rw [e3]
  by_cases c9 : udpLenOf frame < 8 ∨ frame.length < udpOffsetOf frame + udpLenOf frame
  · rw [if_pos c9, if_pos c9]
  rw [if_neg c9, if_neg c9, sliceRange_ok (by omega) (by omega)]
  simp only []
  have e4 : (frame.take (udpOffsetOf frame + udpLenOf frame)).drop (udpOffsetOf frame + 8) =
      payloadOf frame := rfl
  rw [e4]
  by_cases c10 : (payloadOf frame).length = 0
  · rw [if_pos c10, if_pos c10]
  rw [if_neg c10, if_neg c10]
  cases hu : unpack (payloadOf frame) with
  | none => rfl
  | some msg =>
    simp only []
    rw [sliceRange_ok (by omega) (by omega), sliceRange_ok (by omega) (by omega)]
    simp only [pure, Except.pure]
    have l1 : ((frame.take 30).drop 26).length = 4 := by
      rw [List.length_drop, List.length_take]; omega
    have l2 : ((frame.take 34).drop 30).length = 4 := by
      rw [List.length_drop, List.length_take]; omega
    unfold packetOf net.To4
    rw [if_pos l1, if_pos l2]
    rfl

/-- On a frame that fails a structural condition the parser returns
`ErrNotDNS`. -/
private theorem Parse_not_structural (caseTable : Int → Int) (unpack : Bytes → Option dns.Msg)
    (frame : Bytes) (hb : isBytes frame) (h : ¬ structuralDNS frame) :
    dns.Parse caseTable unpack frame = .error .ErrNotDNS := by
  rw [Parse_chain caseTable unpack frame hb]
  have e2 : udpOffsetOf frame = 14 + ihlOf frame * 4 := rfl
  by_cases c1 : frame.length < 14
  · rw [if_pos c1]
  rw [if_neg c1]
  by_cases c2 : be16At frame 12 ≠ 0x0800
  · rw [if_pos c2]
  rw [if_neg c2]
  by_cases c3 : frame.length < 34
  · rw [if_pos c3]
  rw [if_neg c3]
  by_cases c4 : ihlOf frame * 4 < 20
  · rw [if_pos c4]
  rw [if_neg c4]
  by_cases c5 : frame.length < udpOffsetOf frame
  · rw [if_pos c5]
  rw [if_neg c5]
  by_cases c6 : frame.getD 23 0 ≠ 17
  · rw [if_pos c6]
  rw [if_neg c6]
  by_cases c7 : frame.length < udpOffsetOf frame + 8
  · rw [if_pos c7]
  rw [if_neg c7]
  by_cases c8 : be16At frame (udpOffsetOf frame) ≠ 53 ∧ be16At frame (udpOffsetOf frame + 2) ≠ 53
  · rw [if_pos c8]
  rw [if_neg c8]
  by_cases c9 : udpLenOf frame < 8 ∨ frame.length < udpOffsetOf frame + udpLenOf frame
  · rw [if_pos c9]
  exfalso
  apply h
  have hE := (etherType_iff frame hb).1 (not_not.1 c2)
  refine ⟨by omega, hE, by omega, by omega, by omega, not_not.1 c6, by omega, ?_,
    by omega, by omega⟩
  by_cases hs : be16At frame (udpOffsetOf frame) = 53
  · exact Or.inl hs
  · exact Or.inr (not_not.1 (fun hd => c8 ⟨hs, hd⟩))

/-- On a frame that meets the structural conditions the parser returns
`ErrNotDNS` for an empty UDP body and otherwise what the decoder decides. -/
private theorem Parse_structural (caseTable : Int → Int) (unpack : Bytes → Option dns.Msg)
    (frame : Bytes) (hb : isBytes frame) (h : structuralDNS frame) :
    dns.Parse caseTable unpack frame =
      if (payloadOf frame).length = 0 then .error .ErrNotDNS
      else
        match unpack (payloadOf frame) with
        | none => .error .unpackError
        | some msg => .ok (packetOf caseTable frame msg) := by
  rw [Parse_chain caseTable unpack frame hb]
  obtain ⟨h1, hE, h3, h4, h5, h6, h7, h8, h9, h10⟩ := h
  have e2 : udpOffsetOf frame = 14 + ihlOf frame * 4 := rfl
  have hE' := (etherType_iff frame hb).2 hE
  have n1 : ¬ frame.length < 14 := by omega
  have n3 : ¬ frame.length < 34 := by omega
  have n4 : ¬ ihlOf frame * 4 < 20 := by omega
  have n5 : ¬ frame.length < udpOffsetOf frame := by omega
  have n7 : ¬ frame.length < udpOffsetOf frame + 8 := by omega
  have n8 : ¬ (be16At frame (udpOffsetOf frame) ≠ 53 ∧
      be16At frame (udpOffsetOf frame + 2) ≠ 53) := by
    rintro ⟨a, b⟩
    rcases h8 with h8 | h8
    · exact a h8
    · exact b h8
  have n9 : ¬ (udpLenOf frame < 8 ∨ frame.length < udpOffsetOf frame + udpLenOf frame) := by
    omega
  rw [if_neg n1, if_neg (not_not.2 hE'), if_neg n3, if_neg n4, if_neg n5,
    if_neg (not_not.2 h6), if_neg n7, if_neg n8, if_neg n9]

end Parser

/-- C5. Parser acceptance condition: on every byte frame, with a decoder that
rejects the empty message, `Parse` returns a packet exactly when the structural
conditions hold (length at least 14 and EtherType `08 00`; length at least 34;
IHL*4 at least 20 and at most the bytes after the Ethernet header; protocol 17;
eight more bytes for the UDP header; source or destination port 53; UDP length
at least 8 and inside the frame) and the decoder accepts the UDP body
`frame[udpOffset+8 : udpOffset+udpLen]`.  Whenever a structural condition fails
the result is `ErrNotDNS`; so it is for every frame of length 13 and for every
frame whose EtherType is not `08 00`. -/
theorem Parse_accepts_iff (caseTable : Int → Int) (unpack : Bytes → Option dns.Msg)
    (frame : Bytes) (hb : isBytes frame) (hempty : unpack [] = none) :
    ((∃ pkt, dns.Parse caseTable unpack frame = .ok pkt) ↔
      (14 ≤ frame.length ∧ (frame.getD 12 0 = 0x08 ∧ frame.getD 13 0 = 0x00) ∧
       34 ≤ frame.length ∧
       20 ≤ ihlOf frame * 4 ∧ 14 + ihlOf frame * 4 ≤ frame.length ∧
       frame.getD 23 0 = 17 ∧
       14 + ihlOf frame * 4 + 8 ≤ frame.length ∧
       (be16At frame (udpOffsetOf frame) = 53 ∨ be16At frame (udpOffsetOf frame + 2) = 53) ∧
       8 ≤ udpLenOf frame ∧ udpOffsetOf frame + udpLenOf frame ≤ frame.length) ∧
      (unpack ((frame.take (udpOffsetOf frame + udpLenOf frame)).drop
        (udpOffsetOf frame + 8))).isSome = true) ∧
    (¬ structuralDNS frame → dns.Parse caseTable unpack frame = .error .ErrNotDNS) ∧
    (frame.length = 13 → dns.Parse caseTable unpack frame = .error .ErrNotDNS) ∧
    (¬ (frame.getD 12 0 = 0x08 ∧ frame.getD 13 0 = 0x00) →
      dns.Parse caseTable unpack frame = .error .ErrNotDNS) := by
  have hns := Parse_not_structural caseTable unpack frame hb
  refine ⟨?_, hns, ?_, ?_⟩
  · show _ ↔ structuralDNS frame ∧ (unpack (payloadOf frame)).isSome = true
    constructor
    · rintro ⟨pkt, hp⟩
      by_cases hs : structuralDNS frame
      · refine ⟨hs, ?_⟩
        rw [Parse_structural caseTable unpack frame hb hs] at hp
        by_cases h0 : (payloadOf frame).length = 0
        · rw [if_pos h0] at hp; cases hp
        · rw [if_neg h0] at hp
          cases hu : unpack (payloadOf frame) with
          | none => rw [hu] at hp; cases hp
          | some msg => rfl
      · rw [hns hs] at hp; cases hp
    · rintro ⟨hs, hu⟩
      rw [Parse_structural caseTable unpack frame hb hs]
      have h0 : ¬ (payloadOf frame).length = 0 := by
        intro h0
        rw [List.length_eq_zero.1 h0, hempty] at hu
        cases hu
      rw [if_neg h0]
      cases hm : unpack (payloadOf frame) with
      | none => rw [hm] at hu; cases hu
      | some msg => exact ⟨_, rfl⟩
  · intro h13
    apply hns
    rintro ⟨h1, -⟩
    omega
  · intro hE
    apply hns
    rintro ⟨-, h2, -⟩
    exact hE h2

/-- C5 witness: `sampleFrame` is accepted with the stand-in decoder. -/
theorem Parse_accepts_iff_witness :
    isBytes sampleFrame ∧ sampleUnpack [] = none ∧
    ∃ pkt, dns.Parse (fun r => r) sampleUnpack sampleFrame = .ok pkt :=
  ⟨by decide, by decide,
   (Parse_accepts_iff (fun r => r) sampleUnpack sampleFrame (by decide) (by decide)).1.2
     (by decide)⟩

private theorem slice4 (frame : Bytes) (lo : Nat) (h : lo + 4 ≤ frame.length) :
    (frame.take (lo + 4)).drop lo =
      [frame.getD lo 0, frame.getD (lo + 1) 0, frame.getD (lo + 2) 0, frame.getD (lo + 3) 0] := by
  apply List.ext_getElem?
  intro i
  rw [List.getElem?_drop, List.getElem?_take]
  match i with
  | 0 =>
    rw [if_pos (by omega)]
    simp only [Nat.add_zero, List.getD_eq_getElem?_getD, List.getElem?_cons_zero]
    rw [List.getElem?_eq_getElem (by omega)]; rfl
  | 1 =>
    rw [if_pos (by omega)]
    simp only [List.getD_eq_getElem?_getD, List.getElem?_cons_succ, List.getElem?_cons_zero]
    rw [List.getElem?_eq_getElem (by omega)]; rfl
  | 2 =>
    rw [if_pos (by omega)]
    simp only [List.getD_eq_getElem?_getD, List.getElem?_cons_succ, List.getElem?_cons_zero]
    rw [List.getElem?_eq_getElem (by omega)]; rfl
  | 3 =>
    rw [if_pos (by omega)]
    simp only [List.getD_eq_getElem?_getD, List.getElem?_cons_succ, List.getElem?_cons_zero]
    rw [List.getElem?_eq_getElem (by omega)]; rfl
  | k + 4 =>
    rw [if_neg (by omega)]
    simp

/-- C6. Parser field extraction: whenever `Parse` returns a packet for a byte
frame, its `SourceIP` is frame bytes 26..29 and its `Destination` bytes 30..33
(whatever the IHL), `SourcePort` and `DestPort` are the big-endian words at
`udpOffset` and `udpOffset+2`, `Transport` is `udp`, `Direction` is `response`
when `SourcePort` is 53 (also when both ports are 53) and `query` otherwise,
`Message` is the decoded UDP body, and `Domain` is the normalised name of its
first question, or empty when it has no question. -/
theorem Parse_fields (caseTable : Int → Int) (unpack : Bytes → Option dns.Msg)
    (frame : Bytes) (hb : isBytes frame) (pkt : dns.Packet)
    (h : dns.Parse caseTable unpack frame = .ok pkt) :
    pkt.SourceIP =
      [frame.getD 26 0, frame.getD 27 0, frame.getD 28 0, frame.getD 29 0] ∧
    pkt.Destination =
      [frame.getD 30 0, frame.getD 31 0, frame.getD 32 0, frame.getD 33 0] ∧
    pkt.SourcePort = be16At frame (14 + ihlOf frame * 4) ∧
    pkt.DestPort = be16At frame (14 + ihlOf frame * 4 + 2) ∧
    pkt.Transport = str "udp" ∧
    (pkt.SourcePort = 53 → pkt.Direction = str "response") ∧
    (pkt.SourcePort ≠ 53 → pkt.Direction = str "query") ∧
    unpack ((frame.take (udpOffsetOf frame + udpLenOf frame)).drop (udpOffsetOf frame + 8)) =
      some pkt.Message ∧
    (pkt.Message.Question = [] → pkt.Domain = str "") ∧
    (∀ q rest, pkt.Message.Question = q :: rest →
      pkt.Domain = dns.normalize caseTable q.Name) := by
  by_cases hs : structuralDNS frame
  · rw [Parse_structural caseTable unpack frame hb hs] at h
    by_cases h0 : (payloadOf frame).length = 0
    · rw [if_pos h0] at h; cases h
    · rw [if_neg h0] at h
      cases hu : unpack (payloadOf frame) with
      | none => rw [hu] at h; cases h
      | some msg =>
        rw [hu] at h
        injection h with h
        subst h
        have h34 : 34 ≤ frame.length := hs.2.2.1
        refine ⟨slice4 frame 26 (by omega), slice4 frame 30 (by omega), rfl, rfl, rfl,
          ?_, ?_, hu, ?_, ?_⟩
        · intro h53
          have h53' : be16At frame (udpOffsetOf frame) = 53 := h53
          show (if be16At frame (udpOffsetOf frame) = 53 then str "response" else str "query") = _
          rw [if_pos h53']
        · intro h53
          have h53' : ¬ be16At frame (udpOffsetOf frame) = 53 := h53
          show (if be16At frame (udpOffsetOf frame) = 53 then str "response" else str "query") = _
          rw [if_neg h53']
        · intro hq
          show (match msg.Question with
            | [] => str ""
            | q :: _ => dns.normalize caseTable q.Name) = _
          have hq' : msg.Question = [] := hq
          rw [hq']
        · intro q rest hq
          show (match msg.Question with
            | [] => str ""
            | q :: _ => dns.normalize caseTable q.Name) = _
          have hq' : msg.Question = q :: rest := hq
          rw [hq']
  · rw [Parse_not_structural caseTable unpack frame hb hs] at h
    cases h

/-- C6 witness: the response frame (IHL 5, protocol 17, source port 53) whose
message has no question parses with an empty domain and direction `response`. -/
theorem Parse_fields_witness :
    dns.Parse (fun r => r) sampleUnpack sampleResponseFrame = .ok sampleResponsePacket ∧
    sampleResponsePacket.Domain = str "" ∧
    sampleResponsePacket.Direction = str "response" :=
  ⟨by decide, by decide,
   (Parse_fields (fun r => r) sampleUnpack sampleResponseFrame (by decide)
     sampleResponsePacket (by decide)).2.2.2.2.2.1 (by decide)⟩

/-! ## Classification -/

private theorem rxFrame_ok (i : inspector) (desc : Desc) :
    rxFrame i desc = .ok (frameOf i desc) := by
  unfold rxFrame frameOf
  by_cases h : desc.Len ≤ (i.GetFrame desc).length
  · simp only [h, if_true, sliceTo]
  · simp only [h, if_false]

private theorem classify_error (i : inspector) (now : Nat) (st : Batches) (desc : Desc)
    (e : Failure) (he : dns.Parse i.caseTable i.unpack (frameOf i desc) = .error e)
    (hne : e ≠ .outOfRange) :
    classify i now st desc = .ok { st with allow := st.allow ++ [desc] } := by
  unfold classify
  rw [rxFrame_ok]
  simp only [bind, Except.bind]
  rw [he]
  cases e with
  | ErrNotDNS => rfl
  | unpackError => rfl
  | outOfRange => exact absurd rfl hne

private theorem classify_ok (i : inspector) (now : Nat) (st : Batches) (desc : Desc)
    (pkt : dns.Packet) (hp : dns.Parse i.caseTable i.unpack (frameOf i desc) = .ok pkt) :
    classify i now st desc =
      if pkt.Direction = str "query" ∧ pkt.Domain ≠ str "" ∧
          i.rules.ShouldBlock pkt.Domain = true then
        .ok { allow := st.allow
              reuse := st.reuse ++ [{ desc with Len := i.frameLen }]
              published := st.published ++ [blockEvent i now pkt] }
      else
        .ok { allow := st.allow ++ [desc]
              reuse := st.reuse
              published := st.published ++ [allowEvent i now pkt] } := by
  unfold classify
  rw [rxFrame_ok]
  simp only [bind, Except.bind]
  rw [hp]
  simp only []
  split <;> rfl

/-- C1. Inspector classification, for every descriptor, frame memory and policy
set.  The frame handed to the parser is `GetFrame(desc)` cut to `desc.Len`.
If `Parse` returns an error, the descriptor is appended to `allow` and nothing
is published.  If `Parse` returns a packet, exactly one event is published, of
kind `dns` and filled from the packet; the descriptor goes to `reuse` (with
`Len` reset) with `action=block`, `reason=domain blocked` exactly when the
direction is `query`, the domain is not empty and `ShouldBlock(Domain)` holds,
and in every other case, every response included, it goes to `allow` with
`action=allow`, `reason=passed`.  On a byte frame `Parse` ends in one of these
two ways. -/
theorem classify_contract (i : inspector) (now : Nat) (st : Batches) (desc : Desc) :
    rxFrame i desc = .ok (frameOf i desc) ∧
    (∀ e, dns.Parse i.caseTable i.unpack (frameOf i desc) = .error e → e ≠ .outOfRange →
      classify i now st desc =
        .ok { allow := st.allow ++ [desc], reuse := st.reuse, published := st.published }) ∧
    (∀ pkt, dns.Parse i.caseTable i.unpack (frameOf i desc) = .ok pkt →
      ∃ ev st', classify i now st desc = .ok st' ∧
        st'.published = st.published ++ [ev] ∧
        ev.Kind = str "dns" ∧ ev.Timestamp = now ∧
        ev.SourceIP = i.ipString pkt.SourceIP ∧ ev.DestinationIP = i.ipString pkt.Destination ∧
        ev.Transport = pkt.Transport ∧ ev.Direction = pkt.Direction ∧ ev.Domain = pkt.Domain ∧
        ((st'.reuse = st.reuse ++ [{ desc with Len := i.frameLen }] ∧ st'.allow = st.allow ∧
            ev.Action = str "block" ∧ ev.Reason = str "domain blocked") ↔
          (pkt.Direction = str "query" ∧ pkt.Domain ≠ str "" ∧
            i.rules.ShouldBlock pkt.Domain = true)) ∧
        (¬ (pkt.Direction = str "query" ∧ pkt.Domain ≠ str "" ∧
            i.rules.ShouldBlock pkt.Domain = true) →
          st'.allow = st.allow ++ [desc] ∧ st'.reuse = st.reuse ∧
            ev.Action = str "allow" ∧ ev.Reason = str "passed") ∧
        (pkt.Direction = str "response" →
          st'.allow = st.allow ++ [desc] ∧ st'.reuse = st.reuse ∧
            ev.Action = str "allow" ∧ ev.Reason = str "passed")) ∧
    (isBytes (frameOf i desc) →
      dns.Parse i.caseTable i.unpack (frameOf i desc) ≠ .error .outOfRange) := by
  refine ⟨rxFrame_ok i desc, ?_, ?_, ?_⟩
  · intro e he hne
    exact classify_error i now st desc e he hne
  · intro pkt hp
    have hc := classify_ok i now st desc pkt hp
    by_cases hb : pkt.Direction = str "query" ∧ pkt.Domain ≠ str "" ∧
        i.rules.ShouldBlock pkt.Domain = true
    · rw [if_pos hb] at hc
      refine ⟨blockEvent i now pkt, _, hc, rfl, rfl, rfl, rfl, rfl, rfl, rfl, rfl, ?_, ?_, ?_⟩
      · exact ⟨fun _ => hb, fun _ => ⟨rfl, rfl, rfl, rfl⟩⟩
      · intro hn; exact absurd hb hn
      · intro hr
        rw [hr] at hb
        exact absurd hb.1 (by decide)
    · rw [if_neg hb] at hc
      refine ⟨allowEvent i now pkt, _, hc, rfl, rfl, rfl, rfl, rfl, rfl, rfl, rfl, ?_, ?_, ?_⟩
      · constructor
        · rintro ⟨-, -, ha, -⟩
          have ha' : str "allow" = str "block" := ha
          exact absurd ha' (by decide)
        · intro h; exact absurd h hb
      · intro _; exact ⟨rfl, rfl, rfl, rfl⟩
      · intro _; exact ⟨rfl, rfl, rfl, rfl⟩
  · intro hb hfault
    by_cases hs : structuralDNS (frameOf i desc)
    · rw [Parse_structural i.caseTable i.unpack _ hb hs] at hfault
      by_cases h0 : (payloadOf (frameOf i desc)).length = 0
      · rw [if_pos h0] at hfault; cases hfault
      · rw [if_neg h0] at hfault
        cases hu : i.unpack (payloadOf (frameOf i desc)) with
        | none => rw [hu] at hfault; cases hfault
        | some msg => rw [hu] at hfault; cases hfault
    · rw [Parse_not_structural i.caseTable i.unpack _ hb hs] at hfault
      cases hfault

/-! ## Canonical pairs -/

private theorem isPrivateIP_dotted (parseIPv6 : GoString → Option Bytes) (s : GoString)
    (h : s.find? (fun c => c == 46 || c == 58 || c == 37) = some 46) :
    isPrivateIP parseIPv6 s = isPrivateIP (fun _ => none) s := by
  unfold isPrivateIP net.ParseIP
  rw [h]

private theorem canonicalPair_dotted (parseIPv6 : GoString → Option Bytes) (src dst : GoString)
    (hs : src.find? (fun c => c == 46 || c == 58 || c == 37) = some 46)
    (hd : dst.find? (fun c => c == 46 || c == 58 || c == 37) = some 46) :
    canonicalPair parseIPv6 src dst = canonicalPair (fun _ => none) src dst := by
  unfold canonicalPair
  rw [isPrivateIP_dotted parseIPv6 src hs, isPrivateIP_dotted parseIPv6 dst hd]

/-- C10. Canonical pair table, for every `(src, dst)` and whatever the IPv6 text
parser: (a) `src` private, `dst` not: internal `src`, external `dst`, category
`external`, direction `outgoing`; (b) `src` not private, `dst` private: internal
`dst`, external `src`, category `external`, direction `incoming`; (c) both
private: internal the smaller and external the larger of the two strings,
category `internal`, direction `outgoing` if `src <= dst` and `incoming`
otherwise; (d) neither private: as (c) with category `external`; always
`key = category + "|" + internal + "|" + external`.  And `10.0.0.7 -> 10.0.0.2`
gives key `internal|10.0.0.2|10.0.0.7` and direction `incoming`. -/
theorem canonicalPair_table (parseIPv6 : GoString → Option Bytes) (src dst : GoString) :
    (isPrivateIP parseIPv6 src = true → isPrivateIP parseIPv6 dst = false →
      (canonicalPair parseIPv6 src dst).internal = src ∧
      (canonicalPair parseIPv6 src dst).external = dst ∧
      (canonicalPair parseIPv6 src dst).category = str "external" ∧
      (canonicalPair parseIPv6 src dst).direction = str "outgoing") ∧
    (isPrivateIP parseIPv6 src = false → isPrivateIP parseIPv6 dst = true →
      (canonicalPair parseIPv6 src dst).internal = dst ∧
      (canonicalPair parseIPv6 src dst).external = src ∧
      (canonicalPair parseIPv6 src dst).category = str "external" ∧
      (canonicalPair parseIPv6 src dst).direction = str "incoming") ∧
    (isPrivateIP parseIPv6 src = true → isPrivateIP parseIPv6 dst = true →
      (canonicalPair parseIPv6 src dst).internal = min src dst ∧
      (canonicalPair parseIPv6 src dst).external = max src dst ∧
      (canonicalPair parseIPv6 src dst).category = str "internal" ∧
      (canonicalPair parseIPv6 src dst).direction =
        if src ≤ dst then str "outgoing" else str "incoming") ∧
    (isPrivateIP parseIPv6 src = false → isPrivateIP parseIPv6 dst = false →
      (canonicalPair parseIPv6 src dst).internal = min src dst ∧
      (canonicalPair parseIPv6 src dst).external = max src dst ∧
      (canonicalPair parseIPv6 src dst).category = str "external" ∧
      (canonicalPair parseIPv6 src dst).direction =
        if src ≤ dst then str "outgoing" else str "incoming") ∧
    (canonicalPair parseIPv6 src dst).key =
      (canonicalPair parseIPv6 src dst).category ++ str "|" ++
        (canonicalPair parseIPv6 src dst).internal ++ str "|" ++
        (canonicalPair parseIPv6 src dst).external ∧
    (canonicalPair parseIPv6 (str "10.0.0.7") (str "10.0.0.2")).key =
      str "internal|10.0.0.2|10.0.0.7" ∧
    (canonicalPair parseIPv6 (str "10.0.0.7") (str "10.0.0.2")).direction = str "incoming" := by
  refine ⟨?_, ?_, ?_, ?_, rfl, ?_, ?_⟩
  · intro hs hd
    simp [canonicalPair, hs, hd]
  · intro hs hd
    simp [canonicalPair, hs, hd]
  · intro hs hd
    by_cases h : src ≤ dst
    · simp [canonicalPair, hs, hd, h]
    · have h' : dst ≤ src := le_of_lt (lt_of_not_le h)
      simp [canonicalPair, hs, hd, h, h']
  · intro hs hd
    by_cases h : src ≤ dst
    · simp [canonicalPair, hs, hd, h]
    · have h' : dst ≤ src := le_of_lt (lt_of_not_le h)
      simp [canonicalPair, hs, hd, h, h']
  · rw [canonicalPair_dotted parseIPv6 _ _ (by decide) (by decide)]
    decide
  · rw [canonicalPair_dotted parseIPv6 _ _ (by decide) (by decide)]
    decide

private theorem canonicalPair_orientation (parseIPv6 : GoString → Option Bytes)
    (src dst : GoString) :
    (canonicalPair parseIPv6 dst src).key = (canonicalPair parseIPv6 src dst).key ∧
    (canonicalPair parseIPv6 dst src).internal = (canonicalPair parseIPv6 src dst).internal ∧
    (canonicalPair parseIPv6 dst src).external = (canonicalPair parseIPv6 src dst).external ∧
    (canonicalPair parseIPv6 dst src).category = (canonicalPair parseIPv6 src dst).category := by
  cases hs : isPrivateIP parseIPv6 src <;> cases hd : isPrivateIP parseIPv6 dst
  · rcases lt_trichotomy src dst with h | h | h
    · have h1 : src ≤ dst := le_of_lt h
      have h2 : ¬ dst ≤ src := not_le_of_lt h
      simp [canonicalPair, hs, hd, h1, h2]
    · subst h; simp
    · have h1 : dst ≤ src := le_of_lt h
      have h2 : ¬ src ≤ dst := not_le_of_lt h
      simp [canonicalPair, hs, hd, h1, h2]
  · simp [canonicalPair, hs, hd]
  · simp [canonicalPair, hs, hd]
  · rcases lt_trichotomy src dst with h | h | h
    · have h1 : src ≤ dst := le_of_lt h
      have h2 : ¬ dst ≤ src := not_le_of_lt h
      simp [canonicalPair, hs, hd, h1, h2]
    · subst h; simp
    · have h1 : dst ≤ src := le_of_lt h
      have h2 : ¬ src ≤ dst := not_le_of_lt h
      simp [canonicalPair, hs, hd, h1, h2]

private theorem canonicalPair_direction (parseIPv6 : GoString → Option Bytes)
    (src dst : GoString) (h : isPrivateIP parseIPv6 src = isPrivateIP parseIPv6 dst) :
    (canonicalPair parseIPv6 src dst).direction =
      if src ≤ dst then str "outgoing" else str "incoming" := by
  cases hd : isPrivateIP parseIPv6 dst <;> rw [hd] at h <;>
    by_cases hle : src ≤ dst <;> simp [canonicalPair, h, hd, hle]

/-- C11, as the specification states it, fails when the two addresses are the
same string: `10.0.0.1` is private, and the pair `10.0.0.1 -> 10.0.0.1` is
reported `outgoing` in both orientations, never `incoming`, whatever the IPv6
text parser. -/
theorem canonicalPair_symmetry_counterexample :
    isPrivateIP (fun _ => none) (str "10.0.0.1") = true ∧
    (canonicalPair (fun _ => none) (str "10.0.0.1") (str "10.0.0.1")).direction =
      str "outgoing" ∧
    ¬ ∃ parseIPv6 : GoString → Option Bytes,
      (canonicalPair parseIPv6 (str "10.0.0.1") (str "10.0.0.1")).direction = str "incoming" := by
  refine ⟨by decide, by decide, ?_⟩
  rintro ⟨p6, h⟩
  rw [canonicalPair_dotted p6 _ _ (by decide) (by decide)] at h
  exact absurd h (by decide)

/-- C11, amended. Canonical pair symmetry: for all strings `src` and `dst` that
are both private or both public, `canonicalPair src dst` and
`canonicalPair dst src` have the same key, internal and external values; when
`src` and `dst` differ their directions are swapped, one call reporting
`outgoing` and the other `incoming`; when `src = dst` both report `outgoing`. -/
theorem canonicalPair_symmetry (parseIPv6 : GoString → Option Bytes) (src dst : GoString)
    (h : isPrivateIP parseIPv6 src = isPrivateIP parseIPv6 dst) :
    (canonicalPair parseIPv6 dst src).key = (canonicalPair parseIPv6 src dst).key ∧
    (canonicalPair parseIPv6 dst src).internal = (canonicalPair parseIPv6 src dst).internal ∧
    (canonicalPair parseIPv6 dst src).external = (canonicalPair parseIPv6 src dst).external ∧
    (src ≠ dst →
      ((canonicalPair parseIPv6 src dst).direction = str "outgoing" ∧
        (canonicalPair parseIPv6 dst src).direction = str "incoming") ∨
      ((canonicalPair parseIPv6 src dst).direction = str "incoming" ∧
        (canonicalPair parseIPv6 dst src).direction = str "outgoing")) ∧
    (src = dst →
      (canonicalPair parseIPv6 src dst).direction = str "outgoing" ∧
        (canonicalPair parseIPv6 dst src).direction = str "outgoing") := by
  obtain ⟨hk, hi, he, -⟩ := canonicalPair_orientation parseIPv6 src dst
  have d1 := canonicalPair_direction parseIPv6 src dst h
  have d2 := canonicalPair_direction parseIPv6 dst src h.symm
  refine ⟨hk, hi, he, ?_, ?_⟩
  · intro hne
    rcases lt_trichotomy src dst with hlt | heq | hgt
    · left
      rw [d1, d2, if_pos (le_of_lt hlt), if_neg (not_le_of_lt hlt)]
      exact ⟨rfl, rfl⟩
    · exact absurd heq hne
    · right
      rw [d1, d2, if_neg (not_le_of_lt hgt), if_pos (le_of_lt hgt)]
      exact ⟨rfl, rfl⟩
  · intro heq
    subst heq
    rw [d1, if_pos (le_refl _)]
    exact ⟨rfl, rfl⟩

/-- C11 witness: `10.0.0.7` and `10.0.0.2` are both private. -/
theorem canonicalPair_symmetry_witness :
    isPrivateIP (fun _ => none) (str "10.0.0.7") = isPrivateIP (fun _ => none) (str "10.0.0.2") ∧
    (canonicalPair (fun _ => none) (str "10.0.0.2") (str "10.0.0.7")).key =
      (canonicalPair (fun _ => none) (str "10.0.0.7") (str "10.0.0.2")).key ∧
    (canonicalPair (fun _ => none) (str "10.0.0.7") (str "10.0.0.2")).direction =
      str "incoming" ∧
    (canonicalPair (fun _ => none) (str "10.0.0.2") (str "10.0.0.7")).direction =
      str "outgoing" :=
  ⟨by decide,
   (canonicalPair_symmetry (fun _ => none) (str "10.0.0.7") (str "10.0.0.2") (by decide)).1,
   by decide, by decide⟩

/-! ## Marker step: skipped frames and totality -/

/-- A frame that fails a guard of the marker step is returned as it is. -/
private theorem addMagicFlag_skip (frame : Bytes)
    (h : frame.length < 34 ∨ ¬ (frame.getD 12 0 = 0x08 ∧ frame.getD 13 0 = 0x00) ∨
      ihlOf frame * 4 < 20 ∨ frame.length < 14 + ihlOf frame * 4) :
    addMagicFlag frame = .ok frame := by
  unfold addMagicFlag
  by_cases c1 : frame.length < 34
  · rw [if_pos c1]; rfl
  rw [if_neg c1, index_ok (by omega : 12 < frame.length)]
  simp only [bind, Except.bind, pure, Except.pure]
  by_cases c2 : frame.getD 12 0 ≠ 0x08
  · rw [if_pos c2]
  rw [if_neg c2, index_ok (by omega : 13 < frame.length)]
  simp only []
  by_cases c3 : frame.getD 13 0 ≠ 0x00
  · rw [if_pos c3]
  have hd : (frame.drop 14).length = frame.length - 14 := List.length_drop 14 frame
  have hb0 : (frame.drop 14).getD 0 0 = frame.getD 14 0 := getD_drop frame 14 0
  rw [if_neg c3, sliceFrom_ok (by omega : 14 ≤ frame.length)]
  simp only []
  rw [if_neg (by omega), index_ok (by omega : 0 < (frame.drop 14).length), hb0]
  simp only [and_0f]
  have e1 : frame.getD 14 0 % 16 = ihlOf frame := rfl
  rw [e1]
  have hg : ihlOf frame * 4 < 20 ∨ (frame.drop 14).length < ihlOf frame * 4 := by
    rcases h with h | h | h | h
    · exact absurd h c1
    · exact absurd ⟨not_not.1 c2, not_not.1 c3⟩ h
    · exact Or.inl h
    · right; omega
  rw [if_pos hg]

/-- The marker step never faults: it returns the frame as it is or marked. -/
private theorem addMagicFlag_total (frame : Bytes) :
    addMagicFlag frame = .ok frame ∨
      ∃ c, addMagicFlag frame = .ok (frame.take 14 ++ markedWith (frame.drop 14) c) := by
  by_cases h : frame.length < 34 ∨ ¬ (frame.getD 12 0 = 0x08 ∧ frame.getD 13 0 = 0x00) ∨
      ihlOf frame * 4 < 20 ∨ frame.length < 14 + ihlOf frame * 4
  · exact Or.inl (addMagicFlag_skip frame h)
  · right
    have h1 : 34 ≤ frame.length := by omega
    have h2 : frame.getD 12 0 = 0x08 ∧ frame.getD 13 0 = 0x00 := by
      by_contra hc; exact h (Or.inr (Or.inl hc))
    have h3 : 5 ≤ frame.getD 14 0 % 16 := by
      have : ¬ ihlOf frame * 4 < 20 := fun hc => h (Or.inr (Or.inr (Or.inl hc)))
      unfold ihlOf at this; omega
    have h4 : 14 + frame.getD 14 0 % 16 * 4 ≤ frame.length := by
      have : ¬ frame.length < 14 + ihlOf frame * 4 := fun hc => h (Or.inr (Or.inr (Or.inr hc)))
      unfold ihlOf at this; omega
    obtain ⟨c, -, hm⟩ := addMagicFlag_ok frame h1 h2.1 h2.2 h3 h4
    exact ⟨c, hm⟩

/-- C14. Marker step is skipped without side effect: for every frame shorter
than 34 bytes, or whose bytes 12-13 are not `08 00`, or whose IHL*4 is below 20,
or whose IP header (IHL*4 bytes from offset 14) runs past the end of the frame,
`addMagicFlag` returns the frame with every byte unchanged. -/
theorem addMagicFlag_skipped (frame : Bytes)
    (h : frame.length < 34 ∨ ¬ (frame.getD 12 0 = 0x08 ∧ frame.getD 13 0 = 0x00) ∨
      ihlOf frame * 4 < 20 ∨ frame.length < 14 + ihlOf frame * 4) :
    addMagicFlag frame = .ok frame :=
  addMagicFlag_skip frame h

/-- C14 witness: an ARP frame (EtherType `08 06`) is left unchanged. -/
theorem addMagicFlag_skipped_witness :
    sampleArpFrame.getD 12 0 = 0x08 ∧ sampleArpFrame.getD 13 0 = 0x06 ∧
    addMagicFlag sampleArpFrame = .ok sampleArpFrame :=
  ⟨by decide, by decide, addMagicFlag_skipped sampleArpFrame (Or.inr (Or.inl (by decide)))⟩

/-- C17. Frame accessors are total: on every byte sequence, of any length and
content, no index or slice expression of `Parse` or of `addMagicFlag` is out of
range (in the model a fault would be the result `outOfRange`): `Parse` returns a
packet or one of its two errors, `addMagicFlag` returns the frame unchanged or
marked, and `ipv4Checksum` returns a value on every slice. -/
theorem accessors_total (caseTable : Int → Int) (unpack : Bytes → Option dns.Msg)
    (frame header : Bytes) (hb : isBytes frame) :
    dns.Parse caseTable unpack frame ≠ .error .outOfRange ∧
    ((∃ pkt, dns.Parse caseTable unpack frame = .ok pkt) ∨
      dns.Parse caseTable unpack frame = .error .ErrNotDNS ∨
      dns.Parse caseTable unpack frame = .error .unpackError) ∧
    (addMagicFlag frame = .ok frame ∨
      ∃ c, addMagicFlag frame = .ok (frame.take 14 ++ markedWith (frame.drop 14) c)) ∧
    (∃ c, ipv4Checksum header = .ok c) := by
  have hp : (∃ pkt, dns.Parse caseTable unpack frame = .ok pkt) ∨
      dns.Parse caseTable unpack frame = .error .ErrNotDNS ∨
      dns.Parse caseTable unpack frame = .error .unpackError := by
    by_cases hs : structuralDNS frame
    · rw [Parse_structural caseTable unpack frame hb hs]
      by_cases h0 : (payloadOf frame).length = 0
      · rw [if_pos h0]; exact Or.inr (Or.inl rfl)
      · rw [if_neg h0]
        cases unpack (payloadOf frame) with
        | none => exact Or.inr (Or.inr rfl)
        | some msg => exact Or.inl ⟨_, rfl⟩
    · exact Or.inr (Or.inl (Parse_not_structural caseTable unpack frame hb hs))
  refine ⟨?_, hp, addMagicFlag_total frame, ⟨_, ipv4Checksum_eq header⟩⟩
  intro hf
  rcases hp with ⟨pkt, h⟩ | h | h <;> rw [h] at hf <;> cases hf

/-- C17 witness: the empty frame and a frame cut in the middle of its IP header,
with a header slice of odd length. -/
theorem accessors_total_witness :
    isBytes ([] : Bytes) ∧ isBytes (sampleFrame.take 20) ∧
    dns.Parse (fun r => r) sampleUnpack [] = .error .ErrNotDNS ∧
    addMagicFlag [] = .ok [] ∧
    dns.Parse (fun r => r) sampleUnpack (sampleFrame.take 20) ≠ .error .outOfRange ∧
    addMagicFlag (sampleFrame.take 20) = .ok (sampleFrame.take 20) ∧
    ∃ c, ipv4Checksum [0x45, 0x00, 0x00] = .ok c :=
  ⟨by decide, by decide, by decide, by decide,
   (accessors_total (fun r => r) sampleUnpack (sampleFrame.take 20) [0x45, 0x00, 0x00]
     (by decide)).1,
   by decide,
   (accessors_total (fun r => r) sampleUnpack [] [0x45, 0x00, 0x00] (by decide)).2.2.2⟩

/-! ## Event endpoint -/

private theorem hasPrefix_colon (s : GoString) :
    strings.HasPrefix s (str ":") = decide (s.head? = some 58) := by
  have e : str ":" = [58] := by decide
  rw [e]
  cases s with
  | nil => rfl
  | cons a t =>
    by_cases h : a = 58 <;> simp [strings.HasPrefix, h]

private theorem hasPrefix_take (s pre : GoString) :
    strings.HasPrefix s pre = decide (s.take pre.length = pre) := by
  unfold strings.HasPrefix
  by_cases h : s.take pre.length = pre
  · have hl : pre.length ≤ s.length := by
      have := congrArg List.length h
      rw [List.length_take] at this
      omega
    simp [hl, h]
  · simp [h]

private theorem withHost_eq (listen : GoString) :
    (if strings.HasPrefix listen (str ":") then str "127.0.0.1" ++ listen else listen) =
      if listen.head? = some 58 then str "127.0.0.1" ++ listen else listen := by
  rw [hasPrefix_colon]
  by_cases h : listen.head? = some 58 <;> simp [h]

private theorem withScheme_eq (a : GoString) :
    (if !strings.HasPrefix a (str "http://") && !strings.HasPrefix a (str "https://") then
      str "http://" ++ a
     else a) =
      if a.take 7 = str "http://" ∨ a.take 8 = str "https://" then a
      else str "http://" ++ a := by
  have e7 : (str "http://").length = 7 := by decide
  have e8 : (str "https://").length = 8 := by decide
  rw [hasPrefix_take, hasPrefix_take, e7, e8]
  by_cases h7 : a.take 7 = str "http://" <;>
    by_cases h8 : a.take 8 = str "https://" <;> simp [h7, h8]

private theorem buildEndpoint_eq (listen : GoString) :
    events.BuildEndpoint listen (str "/api/events") =
      strings.TrimSuffix (endpointAddrSpec listen) (str "/") ++ str "/api/events" := by
  have hp : strings.HasPrefix (str "/api/events") (str "/") = true := by decide
  unfold events.BuildEndpoint endpointAddrSpec
  simp only [hp, Bool.not_true, Bool.false_eq_true, if_false]
  rw [withHost_eq, withScheme_eq]

/-- C15, as the specification states it, fails on a listen address that ends in
a slash: for `localhost:8080/` the code gives `http://localhost:8080/api/events`
while prepending the scheme and appending `/api/events` gives
`http://localhost:8080//api/events`. -/
theorem BuildEndpoint_counterexample :
    events.BuildEndpoint (str "localhost:8080/") (str "/api/events") =
      str "http://localhost:8080/api/events" ∧
    endpointSpec (str "localhost:8080/") = str "http://localhost:8080//api/events" ∧
    events.BuildEndpoint (str "localhost:8080/") (str "/api/events") ≠
      endpointSpec (str "localhost:8080/") := by
  decide

/-- C15, amended. Event endpoint derivation: for every listen address `L`,
`BuildEndpoint(L, "/api/events")` is the string obtained by prepending
`127.0.0.1` to `L` when `L` starts with `:`, then prepending `http://` when the
result starts with neither `http://` nor `https://`, then removing one trailing
`/` if there is one, then appending `/api/events`.  When the address so far does
not end in `/` this is the derivation of the specification; `:8080` and
`127.0.0.1:8080` both give `http://127.0.0.1:8080/api/events`. -/
theorem BuildEndpoint_derivation (listen : GoString) :
    events.BuildEndpoint listen (str "/api/events") =
      strings.TrimSuffix (endpointAddrSpec listen) (str "/") ++ str "/api/events" ∧
    (strings.HasSuffix (endpointAddrSpec listen) (str "/") = false →
      events.BuildEndpoint listen (str "/api/events") = endpointSpec listen) ∧
    events.BuildEndpoint (str ":8080") (str "/api/events") =
      str "http://127.0.0.1:8080/api/events" ∧
    events.BuildEndpoint (str "127.0.0.1:8080") (str "/api/events") =
      str "http://127.0.0.1:8080/api/events" := by
  refine ⟨buildEndpoint_eq listen, ?_, by decide, by decide⟩
  intro h
  rw [buildEndpoint_eq listen]
  unfold strings.TrimSuffix endpointSpec
  rw [h]
  rfl

/-! ## Routing of a received batch -/

private theorem isBytes_frameOf (i : inspector) (desc : Desc) (h : isBytes (i.GetFrame desc)) :
    isBytes (frameOf i desc) := by
  unfold frameOf
  split
  · exact isBytes_take h _
  · exact h

/-- One step of the classification loop appends the descriptor to exactly one
batch. -/
private theorem classify_step (i : inspector) (now : Nat) (st : Batches) (desc : Desc)
    (hb : isBytes (i.GetFrame desc)) :
    ∃ evs, classify i now st desc = .ok
      { allow := st.allow ++ (if blockedDesc i desc = true then [] else [desc])
        reuse := st.reuse ++
          (if blockedDesc i desc = true then [{ desc with Len := i.frameLen }] else [])
        published := st.published ++ evs } := by
  have hbf := isBytes_frameOf i desc hb
  cases hp : dns.Parse i.caseTable i.unpack (frameOf i desc) with
  | error e =>
    have hne : e ≠ .outOfRange := by
      intro he
      subst he
      by_cases hs : structuralDNS (frameOf i desc)
      · rw [Parse_structural i.caseTable i.unpack _ hbf hs] at hp
        by_cases h0 : (payloadOf (frameOf i desc)).length = 0
        · rw [if_pos h0] at hp; cases hp
        · rw [if_neg h0] at hp
          cases hu : i.unpack (payloadOf (frameOf i desc)) with
          | none => rw [hu] at hp; cases hp
          | some msg => rw [hu] at hp; cases hp
      · rw [Parse_not_structural i.caseTable i.unpack _ hbf hs] at hp
        cases hp
    have hbl : blockedDesc i desc = false := by
      unfold blockedDesc; rw [hp]
    refine ⟨[], ?_⟩
    rw [classify_error i now st desc e hp hne, hbl]
    simp
  | ok pkt =>
    have hc := classify_ok i now st desc pkt hp
    by_cases hcond : pkt.Direction = str "query" ∧ pkt.Domain ≠ str "" ∧
        i.rules.ShouldBlock pkt.Domain = true
    · have hbl : blockedDesc i desc = true := by
        unfold blockedDesc; rw [hp]; exact decide_eq_true hcond
      refine ⟨[blockEvent i now pkt], ?_⟩
      rw [hc, if_pos hcond, hbl]
      simp
    · have hbl : blockedDesc i desc = false := by
        unfold blockedDesc; rw [hp]; exact decide_eq_false hcond
      refine ⟨[allowEvent i now pkt], ?_⟩
      rw [hc, if_neg hcond, hbl]
      simp

/-- The classification loop from any state: both batches grow by the filtered
descriptors, in order. -/
private theorem classify_fold (i : inspector) (now : Nat) :
    ∀ (rxDescs : List Desc) (st : Batches), (∀ d ∈ rxDescs, isBytes (i.GetFrame d)) →
      ∃ st', rxDescs.foldlM (classify i now) st = .ok st' ∧
        st'.allow = st.allow ++ rxDescs.filter (fun d => !blockedDesc i d) ∧
        st'.reuse = st.reuse ++
          (rxDescs.filter (fun d => blockedDesc i d)).map (fun d => { d with Len := i.frameLen })
  | [], st, _ => ⟨st, rfl, by simp, by simp⟩
  | d :: rest, st, hb => by
    obtain ⟨evs, hstep⟩ := classify_step i now st d (hb d (List.mem_cons_self _ _))
    obtain ⟨st', hfold, ha, hr⟩ := classify_fold i now rest _
      (fun x hx => hb x (List.mem_cons_of_mem _ hx))
    refine ⟨st', ?_, ?_, ?_⟩
    · rw [List.foldlM_cons, hstep]
      exact hfold
    · rw [ha]
      by_cases hbl : blockedDesc i d = true <;> simp [hbl]
    · rw [hr]
      by_cases hbl : blockedDesc i d = true <;> simp [hbl]

/-- Every address is counted in exactly one of the two filtered halves. -/
private theorem count_route (i : inspector) (a : Nat) :
    ∀ rxDescs : List Desc,
      ((rxDescs.filter (fun d => !blockedDesc i d)).map Desc.Addr).count a +
        ((rxDescs.filter (fun d => blockedDesc i d)).map Desc.Addr).count a =
      (rxDescs.map Desc.Addr).count a
  | [] => rfl
  | d :: rest => by
    have ih := count_route i a rest
    by_cases hbl : blockedDesc i d = true
    · simp only [List.filter_cons, hbl, Bool.not_true, if_true, List.map_cons,
        List.count_cons, Bool.false_eq_true, if_false]
      omega
    · have hbl' : blockedDesc i d = false := by simpa using hbl
      simp only [List.filter_cons, hbl', Bool.not_false, if_true, List.map_cons,
        List.count_cons, Bool.false_eq_true, if_false]
      omega

/-- C16: in one iteration of `Run` over a received batch whose frames are byte
sequences, the classification loop ends without a fault and routes every
descriptor exactly once: `allow` is the sub-list of the received descriptors
that are not blocked, `reuse` is the sub-list of the blocked ones with `Len`
reset, the two lengths add up to the length of the batch, both keep the order of
arrival, every frame address occurs in the two batches together exactly as often
as in the batch, and every descriptor handed to the fill ring has
`Len = frameSize = 2048`. -/
theorem classifyAll_routes_once (i : inspector) (now : Nat) (published : List Event)
    (rxDescs : List Desc) (hlen : i.frameLen = frameSize % 2 ^ 32)
    (hb : ∀ d ∈ rxDescs, isBytes (i.GetFrame d)) :
    ∃ st, classifyAll i now published rxDescs = .ok st ∧
      st.allow = rxDescs.filter (fun d => !blockedDesc i d) ∧
      st.reuse = (rxDescs.filter (fun d => blockedDesc i d)).map
        (fun d => { d with Len := frameSize }) ∧
      st.allow.length + st.reuse.length = rxDescs.length ∧
      st.allow.Sublist rxDescs ∧
      (st.reuse.map Desc.Addr).Sublist (rxDescs.map Desc.Addr) ∧
      (∀ a, (st.allow.map Desc.Addr).count a + (st.reuse.map Desc.Addr).count a =
        (rxDescs.map Desc.Addr).count a) ∧
      (∀ d ∈ rxDescs, (d ∈ st.allow ↔ blockedDesc i d = false) ∧
        (blockedDesc i d = true → { d with Len := frameSize } ∈ st.reuse)) ∧
      (∀ d ∈ resetReuse i st.reuse, d.Len = frameSize ∧ d.Len = 2048) ∧
      (resetReuse i st.reuse).map Desc.Addr = st.reuse.map Desc.Addr := by
  obtain ⟨st, hfold, ha, hr⟩ := classify_fold i now rxDescs
    { allow := [], reuse := [], published := published } hb
  have hfs : frameSize % 2 ^ 32 = frameSize := by decide
  have hfl : i.frameLen = frameSize := hlen.trans hfs
  rw [hfl] at hr
  simp only [List.nil_append] at ha hr
  have haddr : (st.reuse.map Desc.Addr) =
      (rxDescs.filter (fun d => blockedDesc i d)).map Desc.Addr := by
    rw [hr, List.map_map]
    rfl
  refine ⟨st, hfold, ha, hr, ?_, ?_, ?_, ?_, ?_, ?_, ?_⟩
  · rw [ha, hr, List.length_map]
    have := List.length_eq_length_filter_add (l := rxDescs) (fun d => blockedDesc i d)
    omega
  · rw [ha]
    exact List.filter_sublist _
  · rw [haddr]
    exact (List.filter_sublist _).map _
  · intro a
    rw [haddr, ha]
    exact count_route i a rxDescs
  · intro d hd
    constructor
    · rw [ha, List.mem_filter]
      simp [hd]
    · intro hbl
      rw [hr, List.mem_map]
      exact ⟨d, List.mem_filter.mpr ⟨hd, hbl⟩, rfl⟩
  · intro d hd
    unfold resetReuse at hd
    rw [List.mem_map] at hd
    obtain ⟨x, _, rfl⟩ := hd
    have h2 : frameSize = 2048 := by decide
    exact ⟨hfl, hfl.trans h2⟩
  · unfold resetReuse
    rw [List.map_map]
    rfl

/-- C16 witness: of a batch holding a blocked query, a response and an ARP
frame, the query goes to `reuse` with `Len = 2048` and the other two to `allow`,
in order. -/
theorem classifyAll_routes_once_witness :
    sampleInspector.frameLen = frameSize % 2 ^ 32 ∧
    (∀ d ∈ sampleBatch, isBytes (sampleInspector.GetFrame d)) ∧
    (List.filter (fun d => blockedDesc sampleInspector d) sampleBatch).map
        (fun d => { d with Len := frameSize }) = [{ Addr := 0, Len := 2048 }] ∧
    List.filter (fun d => !blockedDesc sampleInspector d) sampleBatch =
      [{ Addr := 2048, Len := 54 }, { Addr := 4096, Len := 42 }] ∧
    ∃ st, classifyAll sampleInspector 0 [] sampleBatch = .ok st ∧
      st.allow = sampleBatch.filter (fun d => !blockedDesc sampleInspector d) ∧
      st.reuse = (sampleBatch.filter (fun d => blockedDesc sampleInspector d)).map
        (fun d => { d with Len := frameSize }) ∧
      st.allow.length + st.reuse.length = sampleBatch.length ∧
      st.allow.Sublist sampleBatch ∧
      (st.reuse.map Desc.Addr).Sublist (sampleBatch.map Desc.Addr) ∧
      (∀ a, (st.allow.map Desc.Addr).count a + (st.reuse.map Desc.Addr).count a =
        (sampleBatch.map Desc.Addr).count a) ∧
      (∀ d ∈ sampleBatch, (d ∈ st.allow ↔ blockedDesc sampleInspector d = false) ∧
        (blockedDesc sampleInspector d = true → { d with Len := frameSize } ∈ st.reuse)) ∧
      (∀ d ∈ resetReuse sampleInspector st.reuse, d.Len = frameSize ∧ d.Len = 2048) ∧
      (resetReuse sampleInspector st.reuse).map Desc.Addr = st.reuse.map Desc.Addr :=
  ⟨by decide, by decide, by decide, by decide,
    classifyAll_routes_once sampleInspector 0 [] sampleBatch (by decide) (by decide)⟩

/-! ## Pair counters -/

private theorem canonicalPair_key_ne (parseIPv6 : GoString → Option Bytes) (src dst : GoString) :
    (canonicalPair parseIPv6 src dst).key ≠ str "" := by
  intro h
  have hl := congrArg List.length h
  have h1 : (str "|").length = 1 := by decide
  have h0 : (str "").length = 0 := by decide
  simp only [canonicalPair, List.length_append, h1, h0] at hl
  omega

private theorem canonicalPair_direction_cases (parseIPv6 : GoString → Option Bytes)
    (src dst : GoString) :
    (canonicalPair parseIPv6 src dst).direction = str "incoming" ∨
      (canonicalPair parseIPv6 src dst).direction = str "outgoing" := by
  unfold canonicalPair
  simp only []
  split_ifs <;> simp

private theorem updatePairCounts_step (parseIPv6 : GoString → Option Bytes) (a b : GoString)
    (c : PairCall) (hc : (c.src = a ∧ c.dst = b) ∨ (c.src = b ∧ c.dst = a))
    (nin nout : Nat) (m : PairMap)
    (hm : pairInv (canonicalPair parseIPv6 a b).key (canonicalPair parseIPv6 a b).internal
      (canonicalPair parseIPv6 a b).external (canonicalPair parseIPv6 a b).category nin nout m) :
    pairInv (canonicalPair parseIPv6 a b).key (canonicalPair parseIPv6 a b).internal
      (canonicalPair parseIPv6 a b).external (canonicalPair parseIPv6 a b).category
      (nin + callsWithDirection parseIPv6 (str "incoming") [c])
      (nout + callsWithDirection parseIPv6 (str "outgoing") [c])
      (updatePairCounts parseIPv6 m c.src c.dst c.dnsCache) := by
  have hio : str "incoming" ≠ str "outgoing" := by decide
  have hfields : (canonicalPair parseIPv6 c.src c.dst).key = (canonicalPair parseIPv6 a b).key ∧
      (canonicalPair parseIPv6 c.src c.dst).internal = (canonicalPair parseIPv6 a b).internal ∧
      (canonicalPair parseIPv6 c.src c.dst).external = (canonicalPair parseIPv6 a b).external ∧
      (canonicalPair parseIPv6 c.src c.dst).category = (canonicalPair parseIPv6 a b).category := by
    rcases hc with ⟨h1, h2⟩ | ⟨h1, h2⟩
    · rw [h1, h2]; exact ⟨rfl, rfl, rfl, rfl⟩
    · rw [h1, h2]; exact canonicalPair_orientation parseIPv6 a b
  obtain ⟨hk, hi, he, hcat⟩ := hfields
  have hkne := canonicalPair_key_ne parseIPv6 c.src c.dst
  unfold updatePairCounts
  simp only [if_neg hkne]
  rw [hk, hi, he, hcat]
  rcases canonicalPair_direction_cases parseIPv6 c.src c.dst with hd | hd
  · have hin : callsWithDirection parseIPv6 (str "incoming") [c] = 1 := by
      simp [callsWithDirection, hd]
    have hout : callsWithDirection parseIPv6 (str "outgoing") [c] = 0 := by
      simp [callsWithDirection, hd, hio]
    rw [hin, hout, hd]
    simp only [if_true]
    right
    refine ⟨by omega, ?_⟩
    rcases hm with ⟨h0, rfl⟩ | ⟨_, stats, rfl, h1, h2, h3, h4, h5⟩
    · have hnin : nin = 0 := by omega
      have hnout : nout = 0 := by omega
      subst hnin; subst hnout
      simp only [lookupPair, storePair]
      split_ifs <;> exact ⟨_, rfl, rfl, rfl, rfl, rfl, rfl⟩
    · simp only [lookupPair, storePair, if_true]
      split_ifs
      · refine ⟨_, rfl, ?_, h2, h3, h4, h5⟩
        show (stats.incoming + 1) % 2 ^ 64 = (nin + 1) % 2 ^ 64
        rw [h1]; omega
      · refine ⟨_, rfl, ?_, h2, h3, h4, h5⟩
        show (stats.incoming + 1) % 2 ^ 64 = (nin + 1) % 2 ^ 64
        rw [h1]; omega
  · have hin : callsWithDirection parseIPv6 (str "incoming") [c] = 0 := by
      simp [callsWithDirection, hd, hio.symm]
    have hout : callsWithDirection parseIPv6 (str "outgoing") [c] = 1 := by
      simp [callsWithDirection, hd]
    rw [hin, hout, hd]
    simp only [if_neg hio.symm, if_true]
    right
    refine ⟨by omega, ?_⟩
    rcases hm with ⟨h0, rfl⟩ | ⟨_, stats, rfl, h1, h2, h3, h4, h5⟩
    · have hnin : nin = 0 := by omega
      have hnout : nout = 0 := by omega
      subst hnin; subst hnout
      simp only [lookupPair, storePair]
      split_ifs <;> exact ⟨_, rfl, rfl, rfl, rfl, rfl, rfl⟩
    · simp only [lookupPair, storePair, if_true]
      split_ifs
      · refine ⟨_, rfl, h1, ?_, h3, h4, h5⟩
        show (stats.outgoing + 1) % 2 ^ 64 = (nout + 1) % 2 ^ 64
        rw [h2]; omega
      · refine ⟨_, rfl, h1, ?_, h3, h4, h5⟩
        show (stats.outgoing + 1) % 2 ^ 64 = (nout + 1) % 2 ^ 64
        rw [h2]; omega

private theorem updatePairCounts_fold (parseIPv6 : GoString → Option Bytes) (a b : GoString) :
    ∀ (calls : List PairCall) (nin nout : Nat) (m : PairMap),
      (∀ c ∈ calls, (c.src = a ∧ c.dst = b) ∨ (c.src = b ∧ c.dst = a)) →
      pairInv (canonicalPair parseIPv6 a b).key (canonicalPair parseIPv6 a b).internal
        (canonicalPair parseIPv6 a b).external (canonicalPair parseIPv6 a b).category
        nin nout m →
      pairInv (canonicalPair parseIPv6 a b).key (canonicalPair parseIPv6 a b).internal
        (canonicalPair parseIPv6 a b).external (canonicalPair parseIPv6 a b).category
        (nin + callsWithDirection parseIPv6 (str "incoming") calls)
        (nout + callsWithDirection parseIPv6 (str "outgoing") calls)
        (updatePairCountsAll parseIPv6 m calls)
  | [], nin, nout, m, _, hm => by
    simpa [callsWithDirection, updatePairCountsAll] using hm
  | c :: rest, nin, nout, m, hc, hm => by
    have hstep := updatePairCounts_step parseIPv6 a b c (hc c (List.mem_cons_self _ _))
      nin nout m hm
    have hrest := updatePairCounts_fold parseIPv6 a b rest _ _ _
      (fun x hx => hc x (List.mem_cons_of_mem _ hx)) hstep
    have e1 : ∀ dir, callsWithDirection parseIPv6 dir (c :: rest) =
        callsWithDirection parseIPv6 dir [c] + callsWithDirection parseIPv6 dir rest := by
      intro dir
      simp only [callsWithDirection, List.countP_cons, List.countP_nil]
      omega
    rw [e1, e1, ← Nat.add_assoc, ← Nat.add_assoc]
    exact hrest

private theorem callsWithDirection_total (parseIPv6 : GoString → Option Bytes) :
    ∀ calls : List PairCall,
      callsWithDirection parseIPv6 (str "incoming") calls +
        callsWithDirection parseIPv6 (str "outgoing") calls = calls.length
  | [] => rfl
  | c :: rest => by
    have ih := callsWithDirection_total parseIPv6 rest
    have hio : str "incoming" ≠ str "outgoing" := by decide
    unfold callsWithDirection at ih ⊢
    rcases canonicalPair_direction_cases parseIPv6 c.src c.dst with hd | hd
    · simp only [List.countP_cons, hd, hio, decide_True, decide_False, if_true,
        Bool.false_eq_true, if_false, List.length_cons]
      omega
    · simp only [List.countP_cons, hd, hio.symm, decide_True, decide_False, if_true,
        Bool.false_eq_true, if_false, List.length_cons]
      omega

/-- C12. Pair counter accumulation: starting from an empty map, after any
sequence of `updatePairCounts` calls for one pair of addresses `(a, b)`, in
either orientation and in any order, of which `N < 2 ^ 64` have canonical
direction `incoming` and `M < 2 ^ 64` have canonical direction `outgoing`, the
map holds exactly one entry, stored under the canonical key of the pair, with
`incoming = N` and `outgoing = M` (and the internal, external and category
values of the pair); every call counts in exactly one of `N` and `M`; before the
first call the map is still empty. -/
theorem updatePairCounts_accumulates (parseIPv6 : GoString → Option Bytes) (a b : GoString)
    (calls : List PairCall)
    (hpair : ∀ c ∈ calls, (c.src = a ∧ c.dst = b) ∨ (c.src = b ∧ c.dst = a))
    (hN : callsWithDirection parseIPv6 (str "incoming") calls < 2 ^ 64)
    (hM : callsWithDirection parseIPv6 (str "outgoing") calls < 2 ^ 64) :
    (calls ≠ [] →
      ∃ stats : pairStats,
        updatePairCountsAll parseIPv6 [] calls = [((canonicalPair parseIPv6 a b).key, stats)] ∧
        stats.incoming = callsWithDirection parseIPv6 (str "incoming") calls ∧
        stats.outgoing = callsWithDirection parseIPv6 (str "outgoing") calls ∧
        stats.internal = (canonicalPair parseIPv6 a b).internal ∧
        stats.external = (canonicalPair parseIPv6 a b).external ∧
        stats.category = (canonicalPair parseIPv6 a b).category) ∧
    (calls = [] → updatePairCountsAll parseIPv6 [] calls = []) ∧
    callsWithDirection parseIPv6 (str "incoming") calls +
      callsWithDirection parseIPv6 (str "outgoing") calls = calls.length := by
  have htot := callsWithDirection_total parseIPv6 calls
  refine ⟨?_, ?_, htot⟩
  · intro hne
    have hlen : 0 < calls.length := List.length_pos.mpr hne
    have hinv := updatePairCounts_fold parseIPv6 a b calls 0 0 [] hpair (Or.inl ⟨rfl, rfl⟩)
    simp only [Nat.zero_add] at hinv
    rcases hinv with ⟨h0, _⟩ | ⟨_, stats, hmap, h1, h2, h3, h4, h5⟩
    · omega
    · refine ⟨stats, hmap, ?_, ?_, h3, h4, h5⟩
      · rw [h1]; exact Nat.mod_eq_of_lt hN
      · rw [h2]; exact Nat.mod_eq_of_lt hM
  · intro he
    subst he
    rfl

/-- C12 witness: three frames `10.0.0.5 -> 93.184.216.34` and one reverse frame
give one entry with `outgoing = 3`, `incoming = 1` under category `external`. -/
theorem updatePairCounts_accumulates_witness :
    (∀ c ∈ sampleCalls, (c.src = str "10.0.0.5" ∧ c.dst = str "93.184.216.34") ∨
      (c.src = str "93.184.216.34" ∧ c.dst = str "10.0.0.5")) ∧
    callsWithDirection (fun _ => none) (str "incoming") sampleCalls = 1 ∧
    callsWithDirection (fun _ => none) (str "outgoing") sampleCalls = 3 ∧
    updatePairCountsAll (fun _ => none) [] sampleCalls =
      [(str "external|10.0.0.5|93.184.216.34",
        { internal := str "10.0.0.5", external := str "93.184.216.34",
          category := str "external", incoming := 1, outgoing := 3, domain := str "" })] ∧
    ∃ stats : pairStats,
      updatePairCountsAll (fun _ => none) [] sampleCalls =
        [((canonicalPair (fun _ => none) (str "10.0.0.5") (str "93.184.216.34")).key, stats)] ∧
      stats.incoming = callsWithDirection (fun _ => none) (str "incoming") sampleCalls ∧
      stats.outgoing = callsWithDirection (fun _ => none) (str "outgoing") sampleCalls ∧
      stats.internal =
        (canonicalPair (fun _ => none) (str "10.0.0.5") (str "93.184.216.34")).internal ∧
      stats.external =
        (canonicalPair (fun _ => none) (str "10.0.0.5") (str "93.184.216.34")).external ∧
      stats.category =
        (canonicalPair (fun _ => none) (str "10.0.0.5") (str "93.184.216.34")).category :=
  ⟨by decide, by decide, by decide, by decide,
    (updatePairCounts_accumulates (fun _ => none) (str "10.0.0.5") (str "93.184.216.34")
      sampleCalls (by decide) (by decide) (by decide)).1 (List.cons_ne_nil _ _)⟩

/-! ## Pair summary -/

private theorem pairCountLess_iff (x y : PairCount) :
    pairCountLess x y = true ↔
      pairTotal y < pairTotal x ∨ (pairTotal x = pairTotal y ∧ pairLabel x < pairLabel y) := by
  unfold pairCountLess pairTotal pairLabel
  simp only []
  split_ifs with h
  · rw [decide_eq_true_iff]
    constructor
    · intro hl; exact Or.inr ⟨h, hl⟩
    · rintro (hl | ⟨_, hl⟩)
      · omega
      · exact hl
  · rw [decide_eq_true_iff]
    constructor
    · intro hl; exact Or.inl hl
    · rintro (hl | ⟨he, _⟩)
      · exact hl
      · exact absurd he h

private theorem pairCountLess_swo : strictWeakOrder pairCountLess := by
  refine ⟨?_, ?_, ?_⟩
  · intro x
    rw [Bool.eq_false_iff]
    intro h
    rw [pairCountLess_iff] at h
    rcases h with h | ⟨_, h⟩
    · omega
    · exact lt_irrefl _ h
  · intro x y z hxy hyz
    rw [pairCountLess_iff] at hxy hyz ⊢
    rcases hxy with h1 | ⟨h1, l1⟩ <;> rcases hyz with h2 | ⟨h2, l2⟩
    · left; omega
    · left; omega
    · left; omega
    · right; exact ⟨h1.trans h2, lt_trans l1 l2⟩
  · intro x y z hxy
    rw [pairCountLess_iff, pairCountLess_iff]
    rw [pairCountLess_iff] at hxy
    rcases Nat.lt_trichotomy (pairTotal z) (pairTotal x) with hz | hz | hz
    · left; left; exact hz
    · rcases hxy with h1 | ⟨h1, l1⟩
      · right; left; omega
      · rcases lt_or_le (pairLabel x) (pairLabel z) with hl | hl
        · left; right; exact ⟨hz.symm, hl⟩
        · right; right; exact ⟨hz.trans h1, lt_of_le_of_lt hl l1⟩
    · right; left
      rcases hxy with h1 | ⟨h1, _⟩ <;> omega

private theorem summaryOrder_of_not_less (x y : PairCount) (h : pairCountLess y x = false) :
    summaryOrder pairTotal x y := by
  rw [Bool.eq_false_iff] at h
  have h' := mt (pairCountLess_iff y x).mpr h
  unfold summaryOrder
  rcases Nat.lt_trichotomy (pairTotal y) (pairTotal x) with hz | hz | hz
  · exact Or.inl hz
  · right
    refine ⟨hz.symm, ?_⟩
    rcases lt_or_le (pairLabel y) (pairLabel x) with hl | hl
    · exact absurd (Or.inr ⟨hz, hl⟩) h'
    · exact hl
  · exact absurd (Or.inl hz) h'

private theorem sampleSort_contract : sortContract sampleSort := by
  intro less xs hswo
  obtain ⟨hirr, htr, hneg⟩ := hswo
  haveI htotal : IsTotal PairCount (fun x y => less y x = false) := by
    constructor
    intro x y
    cases hyx : less y x
    · exact Or.inl rfl
    · right
      cases hxy : less x y
      · rfl
      · have := htr x y x hxy hyx
        rw [hirr] at this
        cases this
  haveI htrans : IsTrans PairCount (fun x y => less y x = false) := by
    constructor
    intro x y z hyx hzy
    cases hzx : less z x
    · rfl
    · rcases hneg z x y hzx with h | h
      · rw [hzy] at h; cases h
      · rw [hyx] at h; cases h
  exact ⟨List.perm_insertionSort _ xs, List.sorted_insertionSort _ xs⟩

/-- C13. Summary ordering: for every non-empty counts map, whatever the order in
which `range` visits the map and whatever `sort.Slice` does within its contract,
`publishPairCounts` publishes one `ip_pair_summary` event whose `pairCounts`
list is a permutation of all the aggregates in the map (fields copied), sorted
by the total `incoming + outgoing` descending with equal totals ordered by the
string `internal + "->" + external` ascending, the total being the `uint64` sum
the comparator computes, which is the plain sum whenever that is below
`2 ^ 64`; and the map is left as it was. -/
theorem publishPairCounts_sorted
    (sortSlice : (PairCount → PairCount → Bool) → List PairCount → List PairCount)
    (rangeOrder : PairMap → PairMap) (now : Nat) (published : List Event) (counts : PairMap)
    (hsort : sortContract sortSlice) (hrange : ∀ m, (rangeOrder m).Perm m)
    (hne : counts ≠ []) :
    ∃ out : List PairCount,
      publishPairCounts sortSlice rangeOrder now published counts =
        (counts, published ++
          [{ Kind := str "ip_pair_summary", Timestamp := now, SourceIP := str ""
             DestinationIP := str "", Transport := str "", Direction := str ""
             Domain := str "", Action := str "", Reason := str "", PairCounts := out }]) ∧
      out.Perm (counts.map (fun e => toPairCount e.2)) ∧
      out.Pairwise (summaryOrder pairTotal) ∧
      ((∀ e ∈ counts, e.2.incoming + e.2.outgoing < 2 ^ 64) →
        out.Pairwise (summaryOrder (fun x => x.Incoming + x.Outgoing))) := by
  have hlen : ¬ counts.length = 0 := by
    intro h
    exact hne (List.length_eq_zero.mp h)
  obtain ⟨hperm, hsorted⟩ := hsort pairCountLess
    ((rangeOrder counts).map (fun e => toPairCount e.2)) pairCountLess_swo
  have hperm' := hperm.trans ((hrange counts).map (fun e => toPairCount e.2))
  have hord : (sortSlice pairCountLess
      ((rangeOrder counts).map (fun e => toPairCount e.2))).Pairwise (summaryOrder pairTotal) :=
    hsorted.imp (fun {x y} h => summaryOrder_of_not_less x y h)
  refine ⟨sortSlice pairCountLess ((rangeOrder counts).map (fun e => toPairCount e.2)),
    ?_, hperm', hord, ?_⟩
  · unfold publishPairCounts
    rw [if_neg hlen]
    rfl
  · intro hsmall
    have hplain : ∀ x ∈ sortSlice pairCountLess
        ((rangeOrder counts).map (fun e => toPairCount e.2)),
        pairTotal x = x.Incoming + x.Outgoing := by
      intro x hx
      have hx' := hperm'.subset hx
      rw [List.mem_map] at hx'
      obtain ⟨e, he, rfl⟩ := hx'
      exact Nat.mod_eq_of_lt (hsmall e he)
    refine hord.imp_of_mem ?_
    intro x y hx hy h
    unfold summaryOrder at h ⊢
    rw [hplain x hx, hplain y hy] at h
    exact h

/-- C13 witness: three aggregates of totals 4, 7 and 4, visited in reverse
order and sorted by insertion, are published as 7, then the two of total 4 with
`10.0.0.5->1.1.1.1` before `10.0.0.5->93.184.216.34`. -/
theorem publishPairCounts_sorted_witness :
    sortContract sampleSort ∧ (∀ m : PairMap, (List.reverse m).Perm m) ∧ sampleCounts ≠ [] ∧
    (publishPairCounts sampleSort List.reverse 0 [] sampleCounts).1 = sampleCounts ∧
    ((publishPairCounts sampleSort List.reverse 0 [] sampleCounts).2.map
      (fun ev => ev.PairCounts.map (fun x => (pairLabel x, x.Incoming + x.Outgoing)))) =
      [[(str "10.0.0.2->10.0.0.7", 7), (str "10.0.0.5->1.1.1.1", 4),
        (str "10.0.0.5->93.184.216.34", 4)]] ∧
    ∃ out : List PairCount,
      publishPairCounts sampleSort List.reverse 0 [] sampleCounts =
        (sampleCounts, [] ++
          [{ Kind := str "ip_pair_summary", Timestamp := 0, SourceIP := str ""
             DestinationIP := str "", Transport := str "", Direction := str ""
             Domain := str "", Action := str "", Reason := str "", PairCounts := out }]) ∧
      out.Perm (sampleCounts.map (fun e => toPairCount e.2)) ∧
      out.Pairwise (summaryOrder pairTotal) ∧
      ((∀ e ∈ sampleCounts, e.2.incoming + e.2.outgoing < 2 ^ 64) →
        out.Pairwise (summaryOrder (fun x => x.Incoming + x.Outgoing))) :=
  ⟨sampleSort_contract, fun m => List.reverse_perm m, by decide, by decide, by decide,
    publishPairCounts_sorted sampleSort List.reverse 0 [] sampleCounts sampleSort_contract
      (fun m => List.reverse_perm m) (by decide)⟩
